import Mathlib

/-!
Verification development for the mcp-jobboard job aggregation engine.

The repository aggregates job postings from several crawlers, parses job
pages with a registry of detection-scored parser strategies, deduplicates
and merges records keyed by `(source, canonical URL)`, and serves results
as a finite event stream.  This file gives a shallow embedding of the
relevant parts of the code (the Python modules under `src/jobboard_mcp`)
and proves or refutes the specified properties.

Modeling conventions:
* Python `str` values are modeled as `List Char` (unicode scalar values;
  lone surrogates, which Lean `Char` cannot represent, are outside the
  model).  Case folding is modeled on ASCII letters, which is all the
  embedded code relies on.
* Python `int`/exactly-representable `float` quantities are modeled as `Nat`.
* Fallible code is modeled with `Except`/`Option`.
-/

/-- Python strings as lists of characters. -/
abbrev PyStr := List Char

namespace Py

/-- ASCII letter test (`str.isalpha` restricted to ASCII, as used by
`urllib.parse` for scheme detection). -/
def isAsciiAlpha (c : Char) : Bool :=
  (97 ≤ c.toNat && c.toNat ≤ 122) || (65 ≤ c.toNat && c.toNat ≤ 90)

/-- ASCII digit test. -/
def isAsciiDigit (c : Char) : Bool :=
  48 ≤ c.toNat && c.toNat ≤ 57

/-- Python whitespace (`str.strip` / `\s`), ASCII subset: space, tab,
newline, carriage return, vertical tab, form feed. -/
def isSpaceChar (c : Char) : Bool :=
  c.toNat = 32 || c.toNat = 9 || c.toNat = 10 || c.toNat = 13 ||
  c.toNat = 11 || c.toNat = 12

/-- ASCII lower-casing of one character (`str.lower` on the ASCII range). -/
def lowerChar (c : Char) : Char :=
  if 65 ≤ c.toNat && c.toNat ≤ 90 then Char.ofNat (c.toNat + 32) else c

/-- `str.lower`. -/
def pyLower (s : PyStr) : PyStr := s.map lowerChar

/-- `str.strip()` (both ends). -/
def pyStrip (s : PyStr) : PyStr :=
  ((s.dropWhile isSpaceChar).reverse.dropWhile isSpaceChar).reverse

/-- `str.lstrip()`. -/
def pyLStrip (s : PyStr) : PyStr := s.dropWhile isSpaceChar

/-- `str.rstrip()`. -/
def pyRStrip (s : PyStr) : PyStr := (s.reverse.dropWhile isSpaceChar).reverse

/-- Python substring containment `needle in hay`. -/
def hasSub (hay needle : PyStr) : Bool :=
  needle.isPrefixOf hay ||
    (match hay with
     | [] => false
     | _ :: t => hasSub t needle)

/-- Python `str.startswith`. -/
def startsWith (pre s : PyStr) : Bool := pre.isPrefixOf s

/-- Python `str.endswith`. -/
def endsWith (suf s : PyStr) : Bool := suf.isSuffixOf s

/-- Python `str.split(sep)` for a one-character separator
(`"".split(sep) == [""]`). -/
def splitAllChar (sep : Char) : PyStr → List PyStr
  | [] => [[]]
  | c :: t =>
    let r := splitAllChar sep t
    if c = sep then [] :: r
    else
      match r with
      | h :: t' => (c :: h) :: t'
      | [] => [[c]]

/-- Python `str.split(sep, 1)`: text before the first separator, and
optionally the text after it. -/
def splitOnceChar (sep : Char) : PyStr → PyStr × Option PyStr
  | [] => ([], none)
  | c :: t =>
    if c = sep then ([], some t)
    else
      let (b, r) := splitOnceChar sep t
      (c :: b, r)

/-- Remove every occurrence of a character (`str.replace(c, "")`). -/
def removeChar (sep : Char) (s : PyStr) : PyStr := s.filter (fun c => c ≠ sep)

/-- Python truthiness of an optional string (`None` and `""` are falsy). -/
def truthy : Option PyStr → Bool
  | none => false
  | some s => s ≠ []

/-- Python `a or b` on optional strings. -/
def pyOr (a b : Option PyStr) : Option PyStr := if truthy a then a else b

/-- Python `a or b` where the fallback is a plain string. -/
def pyOrS (a : Option PyStr) (b : PyStr) : PyStr :=
  match a with
  | some s => if s ≠ [] then s else b
  | none => b

/-! ### UTF-8

`urllib.parse.quote` encodes non-safe characters as the percent-encoding of
their UTF-8 bytes, and `unquote` decodes percent-escaped byte runs as UTF-8
with `errors="replace"`.  We model the byte level exactly. -/

/-- UTF-8 encoding of one unicode scalar value. -/
def utf8EncodeChar (c : Char) : List Nat :=
  let n := c.toNat
  if n < 0x80 then [n]
  else if n < 0x800 then [0xC0 + n / 64, 0x80 + n % 64]
  else if n < 0x10000 then
    [0xE0 + n / 4096, 0x80 + (n / 64) % 64, 0x80 + n % 64]
  else
    [0xF0 + n / 262144, 0x80 + (n / 4096) % 64, 0x80 + (n / 64) % 64,
     0x80 + n % 64]

/-- UTF-8 encoding of a string (`str.encode("utf-8")`). -/
def utf8Encode (s : PyStr) : List Nat := s.flatMap utf8EncodeChar

/-- The replacement character U+FFFD used by `errors="replace"`. -/
def replChar : Char := Char.ofNat 0xFFFD

/-- Decoder state for a partially read multi-byte sequence: accumulated
value, number of continuation bytes still needed, and the admissible range
for the next byte (CPython rejects overlong encodings and surrogates by
restricting the first continuation byte). -/
structure Utf8Pend where
  val : Nat
  need : Nat
  lo : Nat
  hi : Nat

/-- Transition of the UTF-8 decoder on a byte read in the start state:
either some output characters (an ASCII character, or U+FFFD for an
invalid lead byte), or a pending multi-byte state. -/
def leadOut (b : Nat) : List Char × Option Utf8Pend :=
  if b < 0x80 then ([Char.ofNat b], none)
  else if 0xC2 ≤ b ∧ b ≤ 0xDF then ([], some ⟨b - 0xC0, 1, 0x80, 0xBF⟩)
  else if b = 0xE0 then ([], some ⟨0, 2, 0xA0, 0xBF⟩)
  else if b = 0xED then ([], some ⟨13, 2, 0x80, 0x9F⟩)
  else if 0xE1 ≤ b ∧ b ≤ 0xEF then ([], some ⟨b - 0xE0, 2, 0x80, 0xBF⟩)
  else if b = 0xF0 then ([], some ⟨0, 3, 0x90, 0xBF⟩)
  else if b = 0xF4 then ([], some ⟨4, 3, 0x80, 0x8F⟩)
  else if 0xF1 ≤ b ∧ b ≤ 0xF3 then ([], some ⟨b - 0xF0, 3, 0x80, 0xBF⟩)
  else ([replChar], none)

/-- UTF-8 decoding with `errors="replace"`, as a byte-at-a-time state
machine (one U+FFFD per maximal invalid subpart, like CPython). -/
def utf8DecodeSM : Option Utf8Pend → List Nat → List Char
  | st, [] => (match st with | some _ => [replChar] | none => [])
  | some p, b :: bs =>
    if p.lo ≤ b ∧ b ≤ p.hi then
      if p.need ≤ 1 then
        Char.ofNat (p.val * 64 + (b - 0x80)) :: utf8DecodeSM none bs
      else
        utf8DecodeSM (some ⟨p.val * 64 + (b - 0x80), p.need - 1, 0x80, 0xBF⟩) bs
    else
      replChar :: ((leadOut b).1 ++ utf8DecodeSM (leadOut b).2 bs)
  | none, b :: bs => (leadOut b).1 ++ utf8DecodeSM (leadOut b).2 bs

/-- UTF-8 decoding of a byte string (`bytes.decode("utf-8", "replace")`). -/
def utf8Decode (l : List Nat) : List Char := utf8DecodeSM none l

/-! ### Percent-encoding (`urllib.parse.quote` / `unquote`) -/

/-- Bytes never quoted by `urllib.parse.quote`: ASCII letters, digits, and
`_.-~`. -/
def alwaysSafeByte (b : Nat) : Bool :=
  (97 ≤ b && b ≤ 122) || (65 ≤ b && b ≤ 90) || (48 ≤ b && b ≤ 57) ||
  b = 95 || b = 46 || b = 45 || b = 126

/-- Upper-case hex digit for a nibble. -/
def hexUpper (n : Nat) : Char :=
  if n < 10 then Char.ofNat (48 + n) else Char.ofNat (55 + n)

/-- Percent-encode one byte, leaving safe bytes as their ASCII character. -/
def quoteByte (safe : List Nat) (b : Nat) : PyStr :=
  if alwaysSafeByte b || b ∈ safe then [Char.ofNat b]
  else ['%', hexUpper (b / 16), hexUpper (b % 16)]

/-- `urllib.parse.quote(s, safe=...)` with `safe` given as extra byte values. -/
def quote (safe : List Nat) (s : PyStr) : PyStr :=
  (utf8Encode s).flatMap (quoteByte safe)

/-- `urllib.parse.quote_plus(s)` with empty `safe` (as in `urlencode`):
spaces become `+`, everything non-safe is percent-encoded. -/
def quotePlus (s : PyStr) : PyStr :=
  if ' ' ∈ s then
    (quote [32] s).map (fun c => if c = ' ' then '+' else c)
  else quote [] s

/-- Hex digit value (both cases), as in `urllib.parse._hextobyte`. -/
def hexVal (c : Char) : Option Nat :=
  if 48 ≤ c.toNat && c.toNat ≤ 57 then some (c.toNat - 48)
  else if 97 ≤ c.toNat && c.toNat ≤ 102 then some (c.toNat - 87)
  else if 65 ≤ c.toNat && c.toNat ≤ 70 then some (c.toNat - 55)
  else none

/-- Scanner state for `unquote`: nothing pending, a pending `%`, or a
pending `%` plus one hex digit. -/
inductive UqState where
  | plain : UqState
  | pct : UqState
  | pct1 (h1 : Nat) (c1 : Char) : UqState

/-- Bytes represented by a pending (incomplete) escape, taken literally
when the escape turns out invalid or the input ends. -/
def pendBytes : UqState → List Nat
  | .plain => []
  | .pct => [37]
  | .pct1 _ c1 => [37, c1.toNat]

/-- Worker for `unquote`: accumulate a run of bytes (ASCII characters and
valid `%XX` escapes) in reverse, flushing the run through the UTF-8
decoder whenever a non-ASCII character (which `unquote` passes through
verbatim) or the end of input is reached.  Invalid escapes contribute a
literal `%` byte, as in `urllib.parse.unquote_to_bytes`. -/
def unquoteGo (st : UqState) (acc : List Nat) : PyStr → PyStr
  | [] => utf8Decode (acc.reverse ++ pendBytes st)
  | c :: rest =>
    match st with
    | .pct =>
      (match hexVal c with
       | some h => unquoteGo (.pct1 h c) acc rest
       | none =>
         if c = '%' then unquoteGo .pct (37 :: acc) rest
         else if c.toNat < 0x80 then unquoteGo .plain (c.toNat :: 37 :: acc) rest
         else utf8Decode (acc.reverse ++ [37]) ++ c :: unquoteGo .plain [] rest)
    | .pct1 h1 c1 =>
      (match hexVal c with
       | some h2 => unquoteGo .plain ((16 * h1 + h2) :: acc) rest
       | none =>
         if c = '%' then unquoteGo .pct (c1.toNat :: 37 :: acc) rest
         else if c.toNat < 0x80 then
           unquoteGo .plain (c.toNat :: c1.toNat :: 37 :: acc) rest
         else
           utf8Decode (acc.reverse ++ [37, c1.toNat]) ++
             c :: unquoteGo .plain [] rest)
    | .plain =>
      if c = '%' then unquoteGo .pct acc rest
      else if c.toNat < 0x80 then unquoteGo .plain (c.toNat :: acc) rest
      else utf8Decode acc.reverse ++ c :: unquoteGo .plain [] rest

/-- `urllib.parse.unquote(s, errors="replace")`. -/
def unquote (s : PyStr) : PyStr := unquoteGo .plain [] s

/-- `urllib.parse.unquote_plus`: `+` means space, then `unquote`. -/
def unquotePlus (s : PyStr) : PyStr :=
  unquote (s.map (fun c => if c = '+' then ' ' else c))

/-! ### Query strings (`parse_qsl` / `urlencode`) -/

/-- `urllib.parse.parse_qsl(qs, keep_blank_values=False)`: split on `&`,
drop empty chunks, drop chunks without `=`, drop blank values, decode
names and values with `unquote_plus`. -/
def parse_qsl (qs : PyStr) : List (PyStr × PyStr) :=
  (splitAllChar '&' qs).foldr
    (fun nv r =>
      if nv = [] then r
      else
        match splitOnceChar '=' nv with
        | (_, none) => r
        | (name, some value) =>
          if value = [] then r
          else (unquotePlus name, unquotePlus value) :: r)
    []

/-- `urllib.parse.urlencode(pairs, doseq=True)` on string pairs: each key
and value goes through `quote_plus`, pairs are joined with `&`. -/
def urlencode (pairs : List (PyStr × PyStr)) : PyStr :=
  List.intercalate ['&'] (pairs.map (fun kv => quotePlus kv.1 ++ '=' :: quotePlus kv.2))

/-! ### URL splitting (`urllib.parse.urlparse` and friends)

Modeled on CPython's `urlsplit`/`urlunsplit`: removal of unsafe bytes
(tab/CR/LF), scheme extraction (lower-cased, first character an ASCII
letter, remaining characters in the scheme alphabet), netloc extraction
after `//` up to the first `/?#`, a `ValueError` for a netloc with
unbalanced square brackets, then fragment and query splitting.  `urlparse`
additionally splits `;params` off the last path segment. -/

/-- Characters allowed in a scheme after the first (CPython `scheme_chars`). -/
def isSchemeChar (c : Char) : Bool :=
  isAsciiAlpha c || isAsciiDigit c || c = '+' || c = '-' || c = '.'

/-- Scan for `':'` preceded only by scheme characters; returns the scheme
body (before the colon) and the remainder (after it). -/
def schemeScan : PyStr → Option (PyStr × PyStr)
  | [] => none
  | ':' :: r => some ([], r)
  | c :: r =>
    if isSchemeChar c then
      (schemeScan r).map (fun p => (c :: p.1, p.2))
    else none

/-- Split off a scheme as `urlsplit` does: the first character must be an
ASCII letter and everything up to the first `':'` must be scheme
characters; the scheme is lower-cased. -/
def splitScheme (u : PyStr) : PyStr × PyStr :=
  match u with
  | [] => ([], [])
  | c :: r =>
    if isAsciiAlpha c then
      match schemeScan r with
      | some (body, rest) => (pyLower (c :: body), rest)
      | none => ([], u)
    else ([], u)

/-- Split off a network location after a leading `//`, up to the first
`/`, `?` or `#` (CPython `_splitnetloc`). -/
def splitNetloc (u : PyStr) : PyStr × PyStr :=
  match u with
  | '/' :: '/' :: r =>
    let n := r.takeWhile (fun c => ¬ (c = '/' ∨ c = '?' ∨ c = '#'))
    (n, r.drop n.length)
  | _ => ([], u)

/-- Parsed URL components (`SplitResult` plus the `params` of `urlparse`). -/
structure UrlParts where
  scheme : PyStr
  netloc : PyStr
  path : PyStr
  params : PyStr
  query : PyStr
  fragment : PyStr
deriving DecidableEq

/-- Split `;params` off the last path segment (CPython `_splitparams`,
only applied when `';'` occurs in the path). -/
def splitparams (p : PyStr) : PyStr × PyStr :=
  if '/' ∈ p then
    let revSeg := (p.reverse.takeWhile (fun c => c ≠ '/')).reverse
    if ';' ∈ revSeg then
      let stem := p.take (p.length - revSeg.length)
      let (b, r) := splitOnceChar ';' revSeg
      (stem ++ b, r.getD [])
    else (p, [])
  else
    let (b, r) := splitOnceChar ';' p
    (b, r.getD [])

/-- `urllib.parse.urlparse`, raising (`Except.error`) for a netloc with
unbalanced square brackets, as CPython does. -/
def urlparseE (url : PyStr) : Except PyStr UrlParts := do
  let u := removeChar '\t' (removeChar '\r' (removeChar '\n' url))
  let (scheme, u) := splitScheme u
  let (netloc, u) := splitNetloc u
  if ('[' ∈ netloc ∧ ']' ∉ netloc) ∨ (']' ∈ netloc ∧ '[' ∉ netloc) then
    throw "Invalid IPv6 URL".data
  let (u, fragment) := splitOnceChar '#' u
  let (u, query) := splitOnceChar '?' u
  let (path, params) := if ';' ∈ u then splitparams u else (u, [])
  return ⟨scheme, netloc, path, params, query.getD [], fragment.getD []⟩

/-- Schemes for which `urlunsplit` re-inserts a `//` even with an empty
netloc (CPython `uses_netloc`, non-empty members). -/
def usesNetloc : List PyStr :=
  ["ftp".data, "http".data, "gopher".data, "nntp".data, "telnet".data,
   "imap".data, "wais".data, "file".data, "mms".data, "https".data,
   "shttp".data, "snews".data, "prospero".data, "rtsp".data, "rtsps".data,
   "rtspu".data, "rsync".data, "svn".data, "svn+ssh".data, "sftp".data,
   "nfs".data, "git".data, "git+ssh".data, "ws".data, "wss".data]

/-- `urllib.parse.urlunsplit`: `//` plus the netloc is emitted when the
netloc is non-empty, or when the scheme is a netloc-using scheme and the
path does not already start with `//`; in that case a path not starting
with `/` gets one prepended. -/
def urlunsplit (scheme netloc path query fragment : PyStr) : PyStr :=
  let url :=
    if netloc ≠ [] ∨ (scheme ≠ [] ∧ scheme ∈ usesNetloc ∧ path.take 2 ≠ ['/', '/']) then
      let p := if path ≠ [] ∧ path.take 1 ≠ ['/'] then '/' :: path else path
      '/' :: '/' :: (netloc ++ p)
    else path
  let url := if scheme ≠ [] then scheme ++ ':' :: url else url
  let url := if query ≠ [] then url ++ '?' :: query else url
  if fragment ≠ [] then url ++ '#' :: fragment else url

end Py


namespace Py

/-! #### Round-trip lemmas for percent-encoding -/

theorem toNat_ofNat_lt {n : Nat} (h : n < 0xD800) : (Char.ofNat n).toNat = n := by
  have hv : n.isValidChar := Or.inl h
  rw [Char.ofNat, dif_pos hv]
  simp [Char.ofNatAux, Char.toNat, UInt32.toNat, BitVec.toNat_ofNatLt]

theorem alwaysSafeByte_lt {b : Nat} (h : alwaysSafeByte b = true) : b < 0x80 := by
  simp [alwaysSafeByte] at h
  omega

theorem sm_step_ascii {b : Nat} (h : b < 0x80) (bs : List Nat) :
    utf8DecodeSM none (b :: bs) = Char.ofNat b :: utf8DecodeSM none bs := by
  simp only [utf8DecodeSM, leadOut]
  rw [if_pos h]
  rfl

theorem sm_step_lead2 {b : Nat} (h1 : 0xC2 ≤ b) (h2 : b ≤ 0xDF) (bs : List Nat) :
    utf8DecodeSM none (b :: bs) =
      utf8DecodeSM (some ⟨b - 0xC0, 1, 0x80, 0xBF⟩) bs := by
  simp only [utf8DecodeSM, leadOut]
  rw [if_neg (by omega), if_pos ⟨h1, h2⟩]
  rfl

theorem sm_step_leadE0 (bs : List Nat) :
    utf8DecodeSM none (0xE0 :: bs) =
      utf8DecodeSM (some ⟨0, 2, 0xA0, 0xBF⟩) bs := rfl

theorem sm_step_leadED (bs : List Nat) :
    utf8DecodeSM none (0xED :: bs) =
      utf8DecodeSM (some ⟨13, 2, 0x80, 0x9F⟩) bs := rfl

theorem sm_step_lead3 {b : Nat} (h1 : 0xE1 ≤ b) (h2 : b ≤ 0xEF) (hne : b ≠ 0xED)
    (bs : List Nat) :
    utf8DecodeSM none (b :: bs) =
      utf8DecodeSM (some ⟨b - 0xE0, 2, 0x80, 0xBF⟩) bs := by
  simp only [utf8DecodeSM, leadOut]
  rw [if_neg (by omega), if_neg (by omega), if_neg (by omega), if_neg hne,
    if_pos ⟨by omega, h2⟩]
  rfl

theorem sm_step_leadF0 (bs : List Nat) :
    utf8DecodeSM none (0xF0 :: bs) =
      utf8DecodeSM (some ⟨0, 3, 0x90, 0xBF⟩) bs := rfl

theorem sm_step_leadF4 (bs : List Nat) :
    utf8DecodeSM none (0xF4 :: bs) =
      utf8DecodeSM (some ⟨4, 3, 0x80, 0x8F⟩) bs := rfl

theorem sm_step_lead4 {b : Nat} (h1 : 0xF1 ≤ b) (h2 : b ≤ 0xF3) (bs : List Nat) :
    utf8DecodeSM none (b :: bs) =
      utf8DecodeSM (some ⟨b - 0xF0, 3, 0x80, 0xBF⟩) bs := by
  simp only [utf8DecodeSM, leadOut]
  rw [if_neg (by omega), if_neg (by omega), if_neg (by omega), if_neg (by omega),
    if_neg (by omega), if_neg (by omega), if_neg (by omega), if_pos ⟨h1, h2⟩]
  rfl

theorem sm_step_cont_last {v lo hi b : Nat} (h1 : lo ≤ b) (h2 : b ≤ hi)
    (bs : List Nat) :
    utf8DecodeSM (some ⟨v, 1, lo, hi⟩) (b :: bs) =
      Char.ofNat (v * 64 + (b - 0x80)) :: utf8DecodeSM none bs := by
  simp only [utf8DecodeSM]
  rw [if_pos ⟨h1, h2⟩, if_pos (by omega)]

theorem sm_step_cont2 {v lo hi b need : Nat} (h1 : lo ≤ b) (h2 : b ≤ hi)
    (hn : 2 ≤ need) (bs : List Nat) :
    utf8DecodeSM (some ⟨v, need, lo, hi⟩) (b :: bs) =
      utf8DecodeSM (some ⟨v * 64 + (b - 0x80), need - 1, 0x80, 0xBF⟩) bs := by
  simp only [utf8DecodeSM]
  rw [if_pos ⟨h1, h2⟩, if_neg (by omega)]

theorem char_valid (c : Char) : c.toNat < 0xD800 ∨ (0xDFFF < c.toNat ∧ c.toNat < 0x110000) := by
  have := c.valid
  rcases this with h | ⟨h1, h2⟩
  · left
    exact h
  · right
    exact ⟨h1, h2⟩

set_option maxRecDepth 8192 in
theorem utf8_decode_encode_char (c : Char) (bs : List Nat) :
    utf8DecodeSM none (utf8EncodeChar c ++ bs) = c :: utf8DecodeSM none bs := by
  have hv := char_valid c
  have hofn : Char.ofNat c.toNat = c := Char.ofNat_toNat c
  simp only [utf8EncodeChar]
  by_cases h1 : c.toNat < 0x80
  · rw [if_pos h1]
    rw [List.cons_append, List.nil_append, sm_step_ascii h1, hofn]
  · rw [if_neg h1]
    by_cases h2 : c.toNat < 0x800
    · rw [if_pos h2]
      rw [List.cons_append, List.cons_append, List.nil_append,
        sm_step_lead2 (by omega) (by omega),
        sm_step_cont_last (by omega) (by omega)]
      congr 1
      refine Eq.trans (congrArg Char.ofNat ?_) hofn
      omega
    · rw [if_neg h2]
      by_cases h3 : c.toNat < 0x10000
      · rw [if_pos h3]
        simp only [List.cons_append, List.nil_append]
        by_cases hq0 : c.toNat / 4096 = 0
        · rw [show (0xE0 + c.toNat / 4096 : Nat) = 0xE0 by omega, sm_step_leadE0,
            sm_step_cont2 (by omega) (by omega) (by omega),
            sm_step_cont_last (by omega) (by omega)]
          congr 1
          refine Eq.trans (congrArg Char.ofNat ?_) hofn
          omega
        · by_cases hq13 : c.toNat / 4096 = 13
          · rw [show (0xE0 + c.toNat / 4096 : Nat) = 0xED by omega, sm_step_leadED,
              sm_step_cont2 (by omega) (by omega) (by omega),
              sm_step_cont_last (by omega) (by omega)]
            congr 1
            refine Eq.trans (congrArg Char.ofNat ?_) hofn
            omega
          · rw [sm_step_lead3 (by omega) (by omega) (by omega),
              sm_step_cont2 (by omega) (by omega) (by omega),
              sm_step_cont_last (by omega) (by omega)]
            congr 1
            refine Eq.trans (congrArg Char.ofNat ?_) hofn
            omega
      · rw [if_neg h3]
        simp only [List.cons_append, List.nil_append]
        by_cases hq0 : c.toNat / 262144 = 0
        · rw [show (0xF0 + c.toNat / 262144 : Nat) = 0xF0 by omega, sm_step_leadF0,
            sm_step_cont2 (by omega) (by omega) (by omega),
            sm_step_cont2 (by omega) (by omega) (by omega),
            sm_step_cont_last (by omega) (by omega)]
          congr 1
          refine Eq.trans (congrArg Char.ofNat ?_) hofn
          omega
        · by_cases hq4 : c.toNat / 262144 = 4
          · rw [show (0xF0 + c.toNat / 262144 : Nat) = 0xF4 by omega, sm_step_leadF4,
              sm_step_cont2 (by omega) (by omega) (by omega),
              sm_step_cont2 (by omega) (by omega) (by omega),
              sm_step_cont_last (by omega) (by omega)]
            congr 1
            refine Eq.trans (congrArg Char.ofNat ?_) hofn
            omega
          · rw [sm_step_lead4 (by omega) (by omega),
              sm_step_cont2 (by omega) (by omega) (by omega),
              sm_step_cont2 (by omega) (by omega) (by omega),
              sm_step_cont_last (by omega) (by omega)]
            congr 1
            refine Eq.trans (congrArg Char.ofNat ?_) hofn
            omega

theorem utf8Decode_encode (s : PyStr) : utf8Decode (utf8Encode s) = s := by
  induction s with
  | nil => rfl
  | cons c t ih =>
    show utf8DecodeSM none (utf8EncodeChar c ++ utf8Encode t) = c :: t
    rw [utf8_decode_encode_char]
    exact congrArg (c :: ·) ih


theorem char_ne_of_toNat_ne {a b : Char} (h : a.toNat ≠ b.toNat) : a ≠ b :=
  fun hc => h (congrArg Char.toNat hc)

theorem utf8EncodeChar_lt256 (c : Char) : ∀ b ∈ utf8EncodeChar c, b < 256 := by
  have hv := char_valid c
  intro b hb
  simp only [utf8EncodeChar] at hb
  split_ifs at hb <;> simp at hb <;> omega

theorem mem_utf8Encode_lt256 {s : PyStr} : ∀ b ∈ utf8Encode s, b < 256 := by
  intro b hb
  simp only [utf8Encode, List.mem_flatMap] at hb
  obtain ⟨c, _, hc⟩ := hb
  exact utf8EncodeChar_lt256 c b hc

theorem hexVal_hexUpper {x : Nat} (h : x < 16) : hexVal (hexUpper x) = some x := by
  by_cases h10 : x < 10
  · have ht : (hexUpper x).toNat = 48 + x := by
      simp only [hexUpper, if_pos h10]
      exact toNat_ofNat_lt (by omega)
    simp only [hexVal, ht]
    rw [if_pos (by simp; omega)]
    congr 1
    omega
  · have ht : (hexUpper x).toNat = 55 + x := by
      simp only [hexUpper, if_neg h10]
      exact toNat_ofNat_lt (by omega)
    simp only [hexVal, ht]
    rw [if_neg (by simp; omega), if_neg (by simp; omega), if_pos (by simp; omega)]
    congr 1
    omega

theorem uq_plain_lit {c : Char} {acc : List Nat} {rest : PyStr}
    (h1 : c ≠ '%') (h2 : c.toNat < 0x80) :
    unquoteGo .plain acc (c :: rest) = unquoteGo .plain (c.toNat :: acc) rest := by
  simp only [unquoteGo]
  rw [if_neg h1, if_pos h2]

theorem uq_plain_pct {acc : List Nat} {rest : PyStr} :
    unquoteGo .plain acc ('%' :: rest) = unquoteGo .pct acc rest := by
  simp only [unquoteGo]
  rw [if_pos trivial]

theorem uq_pct_hex {c : Char} {h : Nat} {acc : List Nat} {rest : PyStr}
    (hh : hexVal c = some h) :
    unquoteGo .pct acc (c :: rest) = unquoteGo (.pct1 h c) acc rest := by
  simp only [unquoteGo, hh]

theorem uq_pct1_hex {c : Char} {h2 h1 : Nat} {c1 : Char} {acc : List Nat}
    {rest : PyStr} (hh : hexVal c = some h2) :
    unquoteGo (.pct1 h1 c1) acc (c :: rest) =
      unquoteGo .plain ((16 * h1 + h2) :: acc) rest := by
  simp only [unquoteGo, hh]

theorem hexUpper_toNat {x : Nat} (h : x < 16) :
    (hexUpper x).toNat = if x < 10 then 48 + x else 55 + x := by
  simp only [hexUpper]
  split_ifs with h10
  · exact toNat_ofNat_lt (by omega)
  · exact toNat_ofNat_lt (by omega)

theorem hexUpper_ne_pct {x : Nat} (h : x < 16) : hexUpper x ≠ '%' := by
  apply char_ne_of_toNat_ne
  rw [hexUpper_toNat h]
  split_ifs <;> simp <;> omega

theorem hexUpper_toNat_lt {x : Nat} (h : x < 16) : (hexUpper x).toNat < 0x80 := by
  rw [hexUpper_toNat h]
  split_ifs <;> omega

theorem unquoteGo_quoteBytes {safe : List Nat}
    (h80 : ∀ b ∈ safe, b < 0x80) (h37 : (37 : Nat) ∉ safe) :
    ∀ (bytes : List Nat) (acc : List Nat), (∀ b ∈ bytes, b < 256) →
      unquoteGo .plain acc (bytes.flatMap (quoteByte safe)) =
        utf8Decode (acc.reverse ++ bytes) := by
  intro bytes
  induction bytes with
  | nil =>
    intro acc _
    show utf8Decode (acc.reverse ++ pendBytes .plain) = utf8Decode (acc.reverse ++ [])
    rfl
  | cons b rest ih =>
    intro acc hlt
    have hb : b < 256 := hlt b (List.mem_cons_self _ _)
    have hrest : ∀ x ∈ rest, x < 256 := fun x hx => hlt x (List.mem_cons_of_mem _ hx)
    show unquoteGo .plain acc (quoteByte safe b ++ rest.flatMap (quoteByte safe)) = _
    by_cases hsafe : (alwaysSafeByte b || decide (b ∈ safe)) = true
    · have hblt : b < 0x80 := by
        rcases Bool.or_eq_true_iff.mp hsafe with h | h
        · exact alwaysSafeByte_lt h
        · exact h80 b (of_decide_eq_true h)
      have hb37 : b ≠ 37 := by
        rcases Bool.or_eq_true_iff.mp hsafe with h | h
        · intro hc
          subst hc
          simp [alwaysSafeByte] at h
        · intro hc
          subst hc
          exact h37 (of_decide_eq_true h)
      have hq : quoteByte safe b = [Char.ofNat b] := by
        simp only [quoteByte]
        rw [if_pos (by simpa using hsafe)]
      rw [hq, List.cons_append, List.nil_append,
        uq_plain_lit (by
          apply char_ne_of_toNat_ne
          rw [toNat_ofNat_lt (by omega)]
          simp
          omega) (by rw [toNat_ofNat_lt (by omega)]; exact hblt),
        toNat_ofNat_lt (by omega : b < 0xD800), ih (b :: acc) hrest,
        List.reverse_cons, List.append_assoc]
      rfl
    · have hq : quoteByte safe b = ['%', hexUpper (b / 16), hexUpper (b % 16)] := by
        simp only [quoteByte]
        rw [if_neg (by simpa using hsafe)]
      rw [hq, List.cons_append, List.cons_append, List.cons_append,
        List.nil_append, uq_plain_pct, uq_pct_hex (hexVal_hexUpper (by omega)),
        uq_pct1_hex (hexVal_hexUpper (by omega)),
        show 16 * (b / 16) + b % 16 = b by omega, ih (b :: acc) hrest,
        List.reverse_cons, List.append_assoc]
      rfl

theorem unquote_quote {safe : List Nat} (h80 : ∀ b ∈ safe, b < 0x80)
    (h37 : (37 : Nat) ∉ safe) (s : PyStr) : unquote (quote safe s) = s := by
  show unquoteGo .plain [] ((utf8Encode s).flatMap (quoteByte safe)) = s
  rw [unquoteGo_quoteBytes h80 h37 (utf8Encode s) []
    (fun b hb => mem_utf8Encode_lt256 b hb)]
  show utf8Decode ([] ++ utf8Encode s) = s
  rw [List.nil_append, utf8Decode_encode]

theorem mem_quote_cases {safe : List Nat} {s : PyStr} {c : Char}
    (hc : c ∈ quote safe s) :
    c = '%' ∨ (∃ x, x < 16 ∧ c = hexUpper x) ∨
      ∃ b ∈ utf8Encode s, (alwaysSafeByte b || decide (b ∈ safe)) = true ∧
        c = Char.ofNat b := by
  simp only [quote, List.mem_flatMap] at hc
  obtain ⟨b, hb, hcb⟩ := hc
  have hb256 : b < 256 := mem_utf8Encode_lt256 b hb
  by_cases hsafe : (alwaysSafeByte b || decide (b ∈ safe)) = true
  · right; right
    refine ⟨b, hb, hsafe, ?_⟩
    simp only [quoteByte] at hcb
    rw [if_pos (by simpa using hsafe)] at hcb
    simpa using hcb
  · simp only [quoteByte] at hcb
    rw [if_neg (by simpa using hsafe)] at hcb
    simp only [List.mem_cons, List.mem_singleton] at hcb
    rcases hcb with h | h | h
    · left; exact h
    · right; left; exact ⟨b / 16, by omega, h⟩
    · right; left
      rcases h with h | h
      · exact ⟨b % 16, by omega, h⟩
      · cases h


/-- Characters `quote`/`quote_plus` can emit, apart from the space
handling: printable ASCII that never collides with URL structure. -/
def urlSafeChar (c : Char) : Prop :=
  c.toNat < 128 ∧ c ≠ '&' ∧ c ≠ '=' ∧ c ≠ '#' ∧ c ≠ '?' ∧ isSpaceChar c = false

theorem urlSafeChar_of_toNat {c : Char}
    (h : c.toNat < 128 ∧ c.toNat ≠ 38 ∧ c.toNat ≠ 61 ∧ c.toNat ≠ 35 ∧
      c.toNat ≠ 63 ∧ c.toNat ≠ 32 ∧ c.toNat ≠ 9 ∧ c.toNat ≠ 10 ∧
      c.toNat ≠ 13 ∧ c.toNat ≠ 11 ∧ c.toNat ≠ 12) : urlSafeChar c := by
  obtain ⟨h1, h2, h3, h4, h5, h6, h7, h8, h9, h10, h11⟩ := h
  refine ⟨h1, char_ne_of_toNat_ne (by simpa using h2),
    char_ne_of_toNat_ne (by simpa using h3),
    char_ne_of_toNat_ne (by simpa using h4),
    char_ne_of_toNat_ne (by simpa using h5), ?_⟩
  simp [isSpaceChar, h6, h7, h8, h9, h10, h11]

theorem mem_quote_props {safe : List Nat} (hsafe : ∀ b ∈ safe, b = 32)
    {s : PyStr} {c : Char} (hc : c ∈ quote safe s) : c = ' ' ∨ urlSafeChar c := by
  rcases mem_quote_cases hc with h | ⟨x, hx, h⟩ | ⟨b, _, hb, h⟩
  · right
    subst h
    exact urlSafeChar_of_toNat (by simp)
  · right
    subst h
    have := hexUpper_toNat hx
    apply urlSafeChar_of_toNat
    rw [this]
    split_ifs <;> simp <;> omega
  · subst h
    by_cases hb32 : b = 32
    · left
      subst hb32
      rfl
    · right
      have hrange : b < 128 ∧ b ≠ 38 ∧ b ≠ 61 ∧ b ≠ 35 ∧ b ≠ 63 ∧ b ≠ 32 ∧
          b ≠ 9 ∧ b ≠ 10 ∧ b ≠ 13 ∧ b ≠ 11 ∧ b ≠ 12 := by
        rcases Bool.or_eq_true_iff.mp hb with h | h
        · simp [alwaysSafeByte] at h
          omega
        · exact absurd (hsafe b (of_decide_eq_true h)) hb32
      apply urlSafeChar_of_toNat
      rw [toNat_ofNat_lt (by omega)]
      exact hrange

theorem quote_no_plus {safe : List Nat} (hsafe : ∀ b ∈ safe, b = 32)
    {s : PyStr} : '+' ∉ quote safe s := by
  intro hc
  rcases mem_quote_cases hc with h | ⟨x, hx, h⟩ | ⟨b, _, hb, h⟩
  · cases h
  · have := hexUpper_toNat hx
    have h43 : ('+' : Char).toNat = 43 := rfl
    rw [h] at h43
    rw [this] at h43
    split_ifs at h43 <;> omega
  · have h43 : ('+' : Char).toNat = 43 := rfl
    rw [h] at h43
    by_cases hb32 : b = 32
    · subst hb32
      simp [toNat_ofNat_lt] at h43
    · have hrange : b < 128 := by
        rcases Bool.or_eq_true_iff.mp hb with hh | hh
        · exact alwaysSafeByte_lt hh
        · exact absurd (hsafe b (of_decide_eq_true hh)) hb32
      rw [toNat_ofNat_lt (by omega)] at h43
      subst h43
      rcases Bool.or_eq_true_iff.mp hb with hh | hh
      · simp [alwaysSafeByte] at hh
      · exact hb32 (hsafe _ (of_decide_eq_true hh))

theorem mem_quotePlus_props {s : PyStr} {c : Char} (hc : c ∈ quotePlus s) :
    urlSafeChar c ∧ c ≠ ' ' := by
  simp only [quotePlus] at hc
  split_ifs at hc with hsp
  · simp only [List.mem_map] at hc
    obtain ⟨c0, hc0, hmap⟩ := hc
    by_cases hc0sp : c0 = ' '
    · subst hc0sp
      rw [if_pos rfl] at hmap
      subst hmap
      exact ⟨urlSafeChar_of_toNat (by simp), by decide⟩
    · rw [if_neg hc0sp] at hmap
      subst hmap
      rcases mem_quote_props (by intro b hb; simpa using hb) hc0 with h | h
      · exact absurd h hc0sp
      · exact ⟨h, hc0sp⟩
  · rcases mem_quote_props (by intro b hb; simp at hb) hc with h | h
    · subst h
      exact absurd hc (by
        intro hmem
        rcases mem_quote_cases hmem with hh | ⟨x, hx, hh⟩ | ⟨b, _, hb, hh⟩
        · cases hh
        · have := hexUpper_toNat hx
          have h32 : (' ' : Char).toNat = 32 := rfl
          rw [hh] at h32
          rw [this] at h32
          split_ifs at h32 <;> omega
        · have h32 : (' ' : Char).toNat = 32 := rfl
          rw [hh] at h32
          rcases Bool.or_eq_true_iff.mp hb with hh2 | hh2
          · have hlt := alwaysSafeByte_lt hh2
            rw [toNat_ofNat_lt (by omega)] at h32
            subst h32
            simp [alwaysSafeByte] at hh2
          · simp at hh2)
    · refine ⟨h, ?_⟩
      intro hsp2
      subst hsp2
      exact absurd h.2.2.2.2.2 (by simp [isSpaceChar])

theorem map_id_of {f : Char → Char} : ∀ {l : PyStr}, (∀ c ∈ l, f c = c) → l.map f = l := by
  intro l h
  induction l with
  | nil => rfl
  | cons a t ih =>
    rw [List.map_cons, h a (List.mem_cons_self _ _),
      ih (fun c hc => h c (List.mem_cons_of_mem _ hc))]

theorem unquotePlus_quotePlus (s : PyStr) : unquotePlus (quotePlus s) = s := by
  simp only [quotePlus, unquotePlus]
  split_ifs with hsp
  · rw [List.map_map]
    have hmap : (quote [32] s).map
        ((fun c => if c = '+' then ' ' else c) ∘
          (fun c => if c = ' ' then '+' else c)) = quote [32] s := by
      apply map_id_of
      intro c hc
      by_cases hcsp : c = ' '
      · subst hcsp
        rfl
      · have hplus : c ≠ '+' := fun hh => quote_no_plus (by intro b hb; simpa using hb) (hh ▸ hc)
        simp [Function.comp, hcsp, hplus]
    rw [hmap]
    exact unquote_quote (by intro b hb; simp at hb; omega) (by simp) s
  · have hmap : (quote [] s).map (fun c => if c = '+' then ' ' else c) = quote [] s := by
      apply map_id_of
      intro c hc
      have hplus : c ≠ '+' := fun hh => quote_no_plus (by intro b hb; simp at hb) (hh ▸ hc)
      simp [hplus]
    rw [hmap]
    exact unquote_quote (by intro b hb; simp at hb) (by simp) s

theorem utf8EncodeChar_ne_nil (c : Char) : utf8EncodeChar c ≠ [] := by
  simp only [utf8EncodeChar]
  split_ifs <;> simp

theorem quote_ne_nil {safe : List Nat} {s : PyStr} (h : s ≠ []) :
    quote safe s ≠ [] := by
  obtain ⟨c, t, rfl⟩ := List.exists_cons_of_ne_nil h
  show (utf8Encode (c :: t)).flatMap (quoteByte safe) ≠ []
  have henc : utf8Encode (c :: t) = utf8EncodeChar c ++ utf8Encode t := by
    simp [utf8Encode]
  rw [henc]
  obtain ⟨b, bs, hb⟩ := List.exists_cons_of_ne_nil (utf8EncodeChar_ne_nil c)
  rw [hb]
  simp only [List.cons_append, List.flatMap_cons]
  have : quoteByte safe b ≠ [] := by
    simp only [quoteByte]
    split_ifs <;> simp
  intro hc
  rw [List.append_eq_nil] at hc
  exact this hc.1

theorem quotePlus_ne_nil {s : PyStr} (h : s ≠ []) : quotePlus s ≠ [] := by
  simp only [quotePlus]
  split_ifs
  · simpa using @quote_ne_nil [32] _ h
  · exact quote_ne_nil h


/-! #### Query-string round trip -/

theorem splitOnce_no_sep {sep : Char} : ∀ {s : PyStr}, sep ∉ s →
    splitOnceChar sep s = (s, none) := by
  intro s
  induction s with
  | nil => intro _; rfl
  | cons c t ih =>
    intro h
    have hc : c ≠ sep := fun hh => h (hh ▸ List.mem_cons_self _ _)
    have ht : sep ∉ t := fun hh => h (List.mem_cons_of_mem _ hh)
    simp only [splitOnceChar]
    rw [if_neg hc, ih ht]

theorem splitOnce_found {sep : Char} {b : PyStr} : ∀ {a : PyStr}, sep ∉ a →
    splitOnceChar sep (a ++ sep :: b) = (a, some b) := by
  intro a
  induction a with
  | nil =>
    intro _
    simp only [List.nil_append, splitOnceChar]
    rw [if_pos trivial]
  | cons c t ih =>
    intro h
    have hc : c ≠ sep := fun hh => h (hh ▸ List.mem_cons_self _ _)
    have ht : sep ∉ t := fun hh => h (List.mem_cons_of_mem _ hh)
    simp only [List.cons_append, splitOnceChar, List.append_eq]
    rw [if_neg hc, ih ht]

theorem splitAll_no_sep {sep : Char} : ∀ {s : PyStr}, sep ∉ s →
    splitAllChar sep s = [s] := by
  intro s
  induction s with
  | nil => intro _; rfl
  | cons c t ih =>
    intro h
    have hc : c ≠ sep := fun hh => h (hh ▸ List.mem_cons_self _ _)
    have ht : sep ∉ t := fun hh => h (List.mem_cons_of_mem _ hh)
    simp only [splitAllChar]
    rw [if_neg hc, ih ht]

theorem splitAll_ne_nil {sep : Char} (s : PyStr) : splitAllChar sep s ≠ [] := by
  cases s with
  | nil => simp [splitAllChar]
  | cons c t =>
    simp only [splitAllChar]
    split_ifs
    · simp
    · cases hr : splitAllChar sep t <;> simp

theorem splitAll_found {sep : Char} {rest : PyStr} : ∀ {a : PyStr}, sep ∉ a →
    splitAllChar sep (a ++ sep :: rest) = a :: splitAllChar sep rest := by
  intro a
  induction a with
  | nil =>
    intro _
    simp only [List.nil_append, splitAllChar]
    rw [if_pos trivial]
  | cons c t ih =>
    intro h
    have hc : c ≠ sep := fun hh => h (hh ▸ List.mem_cons_self _ _)
    have ht : sep ∉ t := fun hh => h (List.mem_cons_of_mem _ hh)
    simp only [List.cons_append, splitAllChar, List.append_eq]
    rw [if_neg hc, ih ht]


theorem intercalate_cons2 {sep a : PyStr} {b : PyStr} {t : List PyStr} :
    List.intercalate sep (a :: b :: t) = a ++ sep ++ List.intercalate sep (b :: t) := by
  simp [List.intercalate, List.intersperse]

theorem intercalate_single {sep a : PyStr} : List.intercalate sep [a] = a := by
  simp [List.intercalate]

/-- The chunk `urlencode` writes for one pair. -/
def encPair (kv : PyStr × PyStr) : PyStr :=
  quotePlus kv.1 ++ '=' :: quotePlus kv.2

theorem encPair_no_amp {kv : PyStr × PyStr} : '&' ∉ encPair kv := by
  intro h
  simp only [encPair, List.mem_append, List.mem_cons] at h
  rcases h with h | h | h
  · exact (mem_quotePlus_props h).1.2.1 rfl
  · cases h
  · exact (mem_quotePlus_props h).1.2.1 rfl

theorem encPair_ne_nil {kv : PyStr × PyStr} : encPair kv ≠ [] := by
  simp only [encPair]
  intro h
  rw [List.append_eq_nil] at h
  cases h.2

theorem splitOnce_encPair {kv : PyStr × PyStr} :
    splitOnceChar '=' (encPair kv) = (quotePlus kv.1, some (quotePlus kv.2)) := by
  apply splitOnce_found
  intro h
  exact (mem_quotePlus_props h).1.2.2.1 rfl

theorem parse_qsl_encPair_cons {kv : PyStr × PyStr} (hv : kv.2 ≠ [])
    (rest : PyStr) :
    parse_qsl (encPair kv ++ '&' :: rest) = kv :: parse_qsl rest := by
  simp only [parse_qsl]
  rw [splitAll_found encPair_no_amp, List.foldr_cons]
  rw [if_neg encPair_ne_nil, splitOnce_encPair]
  dsimp only
  rw [if_neg (quotePlus_ne_nil hv), unquotePlus_quotePlus, unquotePlus_quotePlus]

theorem parse_qsl_encPair_single {kv : PyStr × PyStr} (hv : kv.2 ≠ []) :
    parse_qsl (encPair kv) = [kv] := by
  simp only [parse_qsl]
  rw [splitAll_no_sep encPair_no_amp, List.foldr_cons, List.foldr_nil]
  rw [if_neg encPair_ne_nil, splitOnce_encPair]
  dsimp only
  rw [if_neg (quotePlus_ne_nil hv), unquotePlus_quotePlus, unquotePlus_quotePlus]

theorem parse_qsl_urlencode : ∀ {l : List (PyStr × PyStr)},
    (∀ kv ∈ l, kv.2 ≠ []) → parse_qsl (urlencode l) = l := by
  intro l
  induction l with
  | nil => intro _; rfl
  | cons kv rest ih =>
    intro h
    have hv : kv.2 ≠ [] := h kv (List.mem_cons_self _ _)
    have hrest : ∀ x ∈ rest, x.2 ≠ [] := fun x hx => h x (List.mem_cons_of_mem _ hx)
    cases rest with
    | nil =>
      show parse_qsl (List.intercalate ['&'] [encPair kv]) = [kv]
      rw [intercalate_single]
      exact parse_qsl_encPair_single hv
    | cons kv2 rest2 =>
      show parse_qsl (List.intercalate ['&']
        (encPair kv :: encPair kv2 :: rest2.map encPair)) = kv :: kv2 :: rest2
      rw [intercalate_cons2]
      have hrw : encPair kv ++ ['&'] ++
          List.intercalate ['&'] (encPair kv2 :: rest2.map encPair) =
          encPair kv ++ '&' ::
            List.intercalate ['&'] (encPair kv2 :: rest2.map encPair) := by
        simp
      rw [hrw, parse_qsl_encPair_cons hv]
      have : parse_qsl (List.intercalate ['&'] (encPair kv2 :: rest2.map encPair)) =
          kv2 :: rest2 := ih hrest
      rw [this]


/-! #### URL component lemmas -/

theorem lowerChar_toNat (c : Char) :
    (lowerChar c).toNat =
      if 65 ≤ c.toNat ∧ c.toNat ≤ 90 then c.toNat + 32 else c.toNat := by
  simp only [lowerChar]
  split_ifs with h h2 h3
  · exact toNat_ofNat_lt (by simp at h; omega)
  · simp at h h2
    omega
  · simp at h h3
    omega
  · rfl

theorem lowerChar_eq_self_of {c : Char} (h : ¬(65 ≤ c.toNat ∧ c.toNat ≤ 90)) :
    lowerChar c = c := by
  simp only [lowerChar]
  rw [if_neg (by simpa using h)]

theorem lowerChar_idem (c : Char) : lowerChar (lowerChar c) = lowerChar c := by
  apply lowerChar_eq_self_of
  rw [lowerChar_toNat]
  split_ifs with h <;> omega

theorem pyLower_idem (s : PyStr) : pyLower (pyLower s) = pyLower s := by
  simp only [pyLower, List.map_map]
  apply List.map_congr_left
  intro c _
  exact lowerChar_idem c

/-- `lowerChar` only maps onto lower-case letters or fixed points: any value
that is not a lower-case letter can only come from itself. -/
theorem lowerChar_eq_nonletter {c x : Char}
    (hx : ¬(97 ≤ x.toNat ∧ x.toNat ≤ 122)) (h : lowerChar c = x) : c = x := by
  by_cases hc : 65 ≤ c.toNat ∧ c.toNat ≤ 90
  · exfalso
    apply hx
    have := lowerChar_toNat c
    rw [h] at this
    rw [if_pos hc] at this
    omega
  · rw [lowerChar_eq_self_of hc] at h
    exact h

theorem mem_pyLower_nonletter {s : PyStr} {x : Char}
    (hx : ¬(97 ≤ x.toNat ∧ x.toNat ≤ 122)) (h : x ∈ pyLower s) : x ∈ s := by
  simp only [pyLower, List.mem_map] at h
  obtain ⟨c, hc, hcx⟩ := h
  rwa [← lowerChar_eq_nonletter hx hcx]

theorem not_mem_pyLower_nonletter {s : PyStr} {x : Char}
    (hx : ¬(97 ≤ x.toNat ∧ x.toNat ≤ 122)) (h : x ∉ s) : x ∉ pyLower s :=
  fun hc => h (mem_pyLower_nonletter hx hc)

theorem mem_pyLower_of_mem {s : PyStr} {x : Char}
    (hfix : lowerChar x = x) (h : x ∈ s) : x ∈ pyLower s := by
  simp only [pyLower, List.mem_map]
  exact ⟨x, h, hfix⟩

theorem char_toNat_inj {a b : Char} (h : a.toNat = b.toNat) : a = b := by
  have ha := Char.ofNat_toNat a
  rw [← ha, h, Char.ofNat_toNat]

theorem char_eq_iff_toNat {c x : Char} : c = x ↔ c.toNat = x.toNat :=
  ⟨fun h => by rw [h], fun h => char_toNat_inj h⟩

theorem isSchemeChar_iff (c : Char) : isSchemeChar c = true ↔
    ((97 ≤ c.toNat ∧ c.toNat ≤ 122) ∨ (65 ≤ c.toNat ∧ c.toNat ≤ 90) ∨
     (48 ≤ c.toNat ∧ c.toNat ≤ 57) ∨ c.toNat = 43 ∨ c.toNat = 45 ∨
     c.toNat = 46) := by
  have h43 : (c = '+') ↔ c.toNat = 43 := char_eq_iff_toNat
  have h45 : (c = '-') ↔ c.toNat = 45 := char_eq_iff_toNat
  have h46 : (c = '.') ↔ c.toNat = 46 := char_eq_iff_toNat
  simp only [isSchemeChar, isAsciiAlpha, isAsciiDigit, Bool.or_eq_true,
    Bool.and_eq_true, decide_eq_true_eq, h43, h45, h46]
  omega

theorem isSchemeChar_lowerChar {c : Char} (h : isSchemeChar c = true) :
    isSchemeChar (lowerChar c) = true := by
  rw [isSchemeChar_iff] at h ⊢
  rw [lowerChar_toNat]
  split_ifs with hcase <;> omega

theorem isAsciiAlpha_iff (c : Char) : isAsciiAlpha c = true ↔
    ((97 ≤ c.toNat ∧ c.toNat ≤ 122) ∨ (65 ≤ c.toNat ∧ c.toNat ≤ 90)) := by
  simp only [isAsciiAlpha, Bool.or_eq_true, Bool.and_eq_true, decide_eq_true_eq]

theorem isAsciiAlpha_lowerChar {c : Char} (h : isAsciiAlpha c = true) :
    isAsciiAlpha (lowerChar c) = true := by
  rw [isAsciiAlpha_iff] at h ⊢
  rw [lowerChar_toNat]
  split_ifs with hcase <;> omega


theorem isSchemeChar_colon_false : isSchemeChar ':' = false := rfl

theorem schemeScan_structure : ∀ {r : PyStr} {body rest : PyStr},
    schemeScan r = some (body, rest) →
    r = body ++ ':' :: rest ∧ ∀ c ∈ body, isSchemeChar c = true := by
  intro r
  induction r with
  | nil => intro body rest h; cases h
  | cons c t ih =>
    intro body rest h
    by_cases hc : c = ':'
    · subst hc
      rw [schemeScan.eq_2] at h
      injection h with h
      injection h with h1 h2
      subst h1
      subst h2
      exact ⟨rfl, by intro c hc; cases hc⟩
    · rw [schemeScan.eq_3 c t (fun hh => hc hh)] at h
      split_ifs at h with hsc
      · cases hx : schemeScan t with
        | none => rw [hx] at h; cases h
        | some p =>
          rw [hx] at h
          obtain ⟨b2, r2⟩ := p
          simp only [Option.map_some'] at h
          injection h with h
          injection h with h1 h2
          subst h2
          obtain ⟨hr, hall⟩ := ih hx
          constructor
          · rw [← h1, List.cons_append, ← hr]
          · intro x hx2
            rw [← h1] at hx2
            rcases List.mem_cons.mp hx2 with hh | hh
            · subst hh; exact hsc
            · exact hall x hh

theorem schemeScan_reconstruct {rest : PyStr} : ∀ {body : PyStr},
    (∀ c ∈ body, isSchemeChar c = true) →
    schemeScan (body ++ ':' :: rest) = some (body, rest) := by
  intro body
  induction body with
  | nil =>
    intro _
    rw [List.nil_append, schemeScan.eq_2]
  | cons c t ih =>
    intro h
    have hc : isSchemeChar c = true := h c (List.mem_cons_self _ _)
    have hcne : c ≠ ':' := by
      intro hh
      subst hh
      rw [isSchemeChar_colon_false] at hc
      cases hc
    have ht : ∀ x ∈ t, isSchemeChar x = true :=
      fun x hx => h x (List.mem_cons_of_mem _ hx)
    rw [List.cons_append, schemeScan.eq_3 c _ (fun hh => hcne hh), if_pos hc,
      ih ht]
    rfl

theorem schemeScan_none_transfer {P rest restB : PyStr}
    (h : schemeScan (P ++ rest) = none)
    (hB : restB = [] ∨ ∃ t, restB = '?' :: t) :
    schemeScan (P ++ restB) = none := by
  induction P with
  | nil =>
    simp only [List.nil_append] at h ⊢
    rcases hB with hB | ⟨t, hB⟩
    · subst hB; rfl
    · subst hB
      rw [schemeScan.eq_3 '?' t (fun hh => by cases hh), if_neg (by decide)]
  | cons c t ih =>
    simp only [List.cons_append] at h ⊢
    by_cases hc : c = ':'
    · subst hc
      rw [schemeScan.eq_2] at h
      cases h
    · rw [schemeScan.eq_3 c _ (fun hh => hc hh)] at h ⊢
      split_ifs at h ⊢ with hsc
      · cases hx : schemeScan (t ++ rest) with
        | none =>
          rw [ih hx]
          rfl
        | some p =>
          rw [hx] at h
          simp at h
      · rfl


theorem splitScheme_inv {u : PyStr} {S rest : PyStr}
    (h : splitScheme u = (S, rest)) (hne : S ≠ []) :
    ∃ raw, u = raw ++ ':' :: rest ∧ S = pyLower raw ∧ raw ≠ [] ∧
      (∀ c ∈ raw.take 1, isAsciiAlpha c = true) ∧
      (∀ c ∈ raw.drop 1, isSchemeChar c = true) := by
  cases u with
  | nil =>
    simp only [splitScheme] at h
    injection h with h1 h2
    exact absurd h1.symm hne
  | cons c t =>
    simp only [splitScheme] at h
    split_ifs at h with halpha
    · cases hx : schemeScan t with
      | none =>
        rw [hx] at h
        injection h with h1 h2
        exact absurd h1.symm hne
      | some p =>
        rw [hx] at h
        obtain ⟨body, rest0⟩ := p
        injection h with h1 h2
        subst h2
        obtain ⟨ht, hall⟩ := schemeScan_structure hx
        refine ⟨c :: body, ?_, h1.symm, by simp, ?_, ?_⟩
        · rw [ht]
          rfl
        · intro x hx2
          simp only [List.take_succ_cons, List.take_zero, List.mem_singleton] at hx2
          subst hx2
          exact halpha
        · intro x hx2
          simp only [List.drop_succ_cons, List.drop_zero] at hx2
          exact hall x hx2
    · injection h with h1 h2
      exact absurd h1.symm hne

theorem splitScheme_eq_nil_self {u : PyStr} {S rest : PyStr}
    (h : splitScheme u = (S, rest)) (hnil : S = []) : rest = u := by
  cases u with
  | nil =>
    simp only [splitScheme] at h
    injection h with h1 h2
    exact h2.symm
  | cons c t =>
    simp only [splitScheme] at h
    split_ifs at h with halpha
    · cases hx : schemeScan t with
      | none =>
        rw [hx] at h
        injection h with h1 h2
        exact h2.symm
      | some p =>
        rw [hx] at h
        obtain ⟨body, rest0⟩ := p
        injection h with h1 h2
        subst hnil
        exact absurd h1 (by simp [pyLower])
    · injection h with h1 h2
      exact h2.symm

theorem splitScheme_reconstruct {S rest : PyStr} (hne : S ≠ [])
    (halpha : ∀ c ∈ S.take 1, isAsciiAlpha c = true)
    (hsch : ∀ c ∈ S.drop 1, isSchemeChar c = true)
    (hlow : pyLower S = S) :
    splitScheme (S ++ ':' :: rest) = (S, rest) := by
  obtain ⟨c, b, rfl⟩ := List.exists_cons_of_ne_nil hne
  have hca : isAsciiAlpha c = true := halpha c (by simp)
  have hbs : ∀ x ∈ b, isSchemeChar x = true := by
    intro x hx
    exact hsch x (by simpa using hx)
  rw [List.cons_append]
  simp only [splitScheme]
  rw [if_pos hca, schemeScan_reconstruct hbs]
  dsimp only
  rw [hlow]

theorem splitScheme_not_alpha {u : PyStr}
    (h : u = [] ∨ ∀ c ∈ u.take 1, isAsciiAlpha c = false) :
    splitScheme u = ([], u) := by
  cases u with
  | nil => rfl
  | cons c t =>
    rcases h with h | h
    · cases h
    · have : isAsciiAlpha c = false := h c (by simp)
      simp only [splitScheme]
      rw [if_neg (by simp [this])]

theorem takeWhile_append_self {p : Char → Bool} {N rest : PyStr}
    (hN : ∀ c ∈ N, p c = true)
    (hr : rest = [] ∨ ∃ c t, rest = c :: t ∧ p c = false) :
    (N ++ rest).takeWhile p = N := by
  induction N with
  | nil =>
    rcases hr with hr | ⟨c, t, hr, hc⟩
    · subst hr; rfl
    · subst hr
      simp [List.takeWhile_cons, hc]
  | cons a t ih =>
    have ha : p a = true := hN a (List.mem_cons_self _ _)
    have ht : ∀ c ∈ t, p c = true := fun c hc => hN c (List.mem_cons_of_mem _ hc)
    simp only [List.cons_append, List.takeWhile_cons, ha, if_true]
    rw [ih ht]

theorem splitNetloc_reconstruct {N rest : PyStr}
    (hN : ∀ c ∈ N, ¬(c = '/' ∨ c = '?' ∨ c = '#'))
    (hr : rest = [] ∨ ∃ c t, rest = c :: t ∧ (c = '/' ∨ c = '?' ∨ c = '#')) :
    splitNetloc ('/' :: '/' :: (N ++ rest)) = (N, rest) := by
  show (let n := (N ++ rest).takeWhile _; (n, (N ++ rest).drop n.length)) = (N, rest)
  have htw : (N ++ rest).takeWhile
      (fun c => decide ¬(c = '/' ∨ c = '?' ∨ c = '#')) = N := by
    apply takeWhile_append_self
    · intro c hc
      simpa using hN c hc
    · rcases hr with hr | ⟨c, t, hr, hc⟩
      · left; exact hr
      · right
        refine ⟨c, t, hr, ?_⟩
        rcases hc with h | h | h <;> subst h <;> rfl
  show ((N ++ rest).takeWhile _, (N ++ rest).drop ((N ++ rest).takeWhile _).length) = (N, rest)
  rw [htw]
  rw [List.drop_left]

theorem splitNetloc_not2 {u : PyStr} (h : u.take 2 ≠ ['/', '/']) :
    splitNetloc u = ([], u) := by
  rw [splitNetloc.eq_def]
  split
  · rename_i r
    exact absurd rfl h
  · rfl


theorem splitOnce_inv {sep : Char} : ∀ {s : PyStr} {b : PyStr} {o : Option PyStr},
    splitOnceChar sep s = (b, o) →
    (o = none ∧ b = s ∧ sep ∉ s) ∨
      (∃ r, o = some r ∧ s = b ++ sep :: r ∧ sep ∉ b) := by
  intro s
  induction s with
  | nil =>
    intro b o h
    injection h with h1 h2
    subst h1
    subst h2
    left
    exact ⟨rfl, rfl, by simp⟩
  | cons c t ih =>
    intro b o h
    simp only [splitOnceChar] at h
    split_ifs at h with hc
    · subst hc
      injection h with h1 h2
      subst h1
      subst h2
      right
      exact ⟨t, rfl, rfl, by simp⟩
    · cases hx : splitOnceChar sep t with
      | mk b2 o2 =>
        rw [hx] at h
        injection h with h1 h2
        subst h2
        rcases ih hx with ⟨ho, hb, hmem⟩ | ⟨r, ho, hs, hmem⟩
        · left
          refine ⟨ho, ?_, ?_⟩
          · rw [← h1, hb]
          · intro hmm
            rcases List.mem_cons.mp hmm with hh | hh
            · exact hc hh.symm
            · exact hmem hh
        · right
          refine ⟨r, ho, ?_, ?_⟩
          · rw [← h1, List.cons_append, ← hs]
          · intro hmm
            rw [← h1] at hmm
            rcases List.mem_cons.mp hmm with hh | hh
            · exact hc hh.symm
            · exact hmem hh

/-- The last `/`-separated segment (what CPython's `_splitparams` scans). -/
def lastSeg (p : PyStr) : PyStr :=
  (p.reverse.takeWhile (fun c => c ≠ '/')).reverse

theorem lastSeg_decomp (p : PyStr) :
    p = (p.reverse.dropWhile (fun c => c ≠ '/')).reverse ++ lastSeg p := by
  have h := List.takeWhile_append_dropWhile (p := fun c => decide (c ≠ '/'))
    (l := p.reverse)
  calc p = p.reverse.reverse := by rw [List.reverse_reverse]
  _ = ((p.reverse.takeWhile (fun c => c ≠ '/')) ++
      (p.reverse.dropWhile (fun c => c ≠ '/'))).reverse := by rw [h]
  _ = _ := by
    rw [List.reverse_append]
    rfl

theorem lastSeg_no_slash (p : PyStr) : '/' ∉ lastSeg p := by
  intro h
  simp only [lastSeg, List.mem_reverse] at h
  have := List.mem_takeWhile_imp h
  simp at this

theorem takeWhile_append_slash {a : PyStr} :
    (a ++ ['/']).takeWhile (fun c => c ≠ '/') = a.takeWhile (fun c => c ≠ '/') := by
  induction a with
  | nil => rfl
  | cons c t ih =>
    simp only [List.cons_append, List.takeWhile_cons]
    split_ifs with hc
    · rw [ih]
    · rfl

theorem lastSeg_cons_slash (P : PyStr) : lastSeg ('/' :: P) = lastSeg P := by
  simp only [lastSeg, List.reverse_cons]
  rw [takeWhile_append_slash]

theorem lastSeg_of_no_slash {p : PyStr} (h : '/' ∉ p) : lastSeg p = p := by
  simp only [lastSeg]
  rw [List.takeWhile_eq_self_iff.mpr]
  · rw [List.reverse_reverse]
  · intro c hc
    simp only [List.mem_reverse] at hc
    simp
    intro hh
    subst hh
    exact h hc

theorem lastSeg_append_last {st b : PyStr} (hb : '/' ∉ b) :
    lastSeg ((st ++ ['/']) ++ b) = b := by
  simp only [lastSeg, List.reverse_append]
  rw [takeWhile_append_self (p := fun c => decide (c ≠ '/'))]
  · rw [List.reverse_reverse]
  · intro c hc
    simp only [List.mem_reverse] at hc
    simp
    intro hh
    subst hh
    exact hb hc
  · right
    refine ⟨'/', st.reverse, by simp, by simp⟩

theorem removeChar_eq_self {c : Char} {s : PyStr} (h : c ∉ s) :
    removeChar c s = s := by
  induction s with
  | nil => rfl
  | cons a t ih =>
    have ha : a ≠ c := fun hh => h (hh ▸ List.mem_cons_self _ _)
    have ht : c ∉ t := fun hh => h (List.mem_cons_of_mem _ hh)
    simp only [removeChar, List.filter_cons]
    rw [if_pos (by simpa using ha)]
    have := ih ht
    simp only [removeChar] at this
    rw [this]


theorem splitparams_stem (p : PyStr) :
    p.take (p.length - (lastSeg p).length) =
      (p.reverse.dropWhile (fun c => c ≠ '/')).reverse := by
  have hdec := lastSeg_decomp p
  set st := (p.reverse.dropWhile (fun c => c ≠ '/')).reverse with hst
  have hlen0 : p.length = st.length + (lastSeg p).length := by
    conv_lhs => rw [hdec]
    simp [List.length_append]
  have hlen : p.length - (lastSeg p).length = st.length := by omega
  rw [hlen]
  conv_lhs => rw [hdec]
  exact List.take_left st (lastSeg p)

theorem splitparams_eq (p : PyStr) : splitparams p =
    if '/' ∈ p then
      if ';' ∈ lastSeg p then
        (p.take (p.length - (lastSeg p).length) ++ (splitOnceChar ';' (lastSeg p)).1,
         ((splitOnceChar ';' (lastSeg p)).2).getD [])
      else (p, [])
    else ((splitOnceChar ';' p).1, ((splitOnceChar ';' p).2).getD []) := rfl

theorem dropWhile_head_false {p : Char → Bool} : ∀ {l : PyStr} {c : Char} {t : PyStr},
    l.dropWhile p = c :: t → p c = false := by
  intro l
  induction l with
  | nil => intro c t h; cases h
  | cons a l2 ih =>
    intro c t h
    rw [List.dropWhile_cons] at h
    split_ifs at h with hp
    · exact ih h
    · injection h with h1 h2
      subst h1
      simpa using hp

/-- The stem before the last segment ends in a slash (when nonempty). -/
theorem stem_ends_slash {p : PyStr} (hslash : '/' ∈ p) :
    ∃ st2, (p.reverse.dropWhile (fun c => c ≠ '/')).reverse = st2 ++ ['/'] := by
  cases hd : p.reverse.dropWhile (fun c => c ≠ '/') with
  | nil =>
    exfalso
    have hdec := lastSeg_decomp p
    rw [hd] at hdec
    simp only [List.reverse_nil, List.nil_append] at hdec
    have : '/' ∉ p := by
      rw [hdec]
      exact lastSeg_no_slash p
    exact this hslash
  | cons c t =>
    have hc := dropWhile_head_false hd
    have hceq : c = '/' := by simpa using hc
    refine ⟨t.reverse, ?_⟩
    rw [List.reverse_cons, hceq]

theorem path_lastSeg_no_semi (u : PyStr) :
    ';' ∉ lastSeg (if ';' ∈ u then splitparams u else (u, [])).1 := by
  split_ifs with hsemi
  · rw [splitparams_eq]
    split_ifs with hslash hseg
    · cases hx : splitOnceChar ';' (lastSeg u) with
      | mk b r =>
        dsimp only
        rcases splitOnce_inv hx with ⟨ho, hb, hmem⟩ | ⟨r2, ho, hs, hmem⟩
        · exact absurd hseg (hb ▸ hmem)
        · rw [splitparams_stem]
          obtain ⟨st2, hst2⟩ := stem_ends_slash hslash
          rw [hst2, lastSeg_append_last]
          · exact hmem
          · intro hsl
            exact lastSeg_no_slash u (hs ▸ List.mem_append_left _ hsl)
    · exact hseg
    · cases hx : splitOnceChar ';' u with
      | mk b r =>
        dsimp only
        rcases splitOnce_inv hx with ⟨ho, hb, hmem⟩ | ⟨r2, ho, hs, hmem⟩
        · exact absurd hsemi (hb ▸ hmem)
        · have hbs : '/' ∉ b := by
            intro hc
            exact hslash (hs ▸ List.mem_append_left _ hc)
          rw [lastSeg_of_no_slash hbs]
          exact hmem
  · intro h
    apply hsemi
    have hdec := lastSeg_decomp u
    show ';' ∈ u
    rw [hdec]
    exact List.mem_append_right _ h

theorem splitparams_prefix (u : PyStr) :
    ∃ suffix, u = (if ';' ∈ u then splitparams u else (u, [])).1 ++ suffix := by
  split_ifs with hsemi
  · rw [splitparams_eq]
    split_ifs with hslash hseg
    · cases hx : splitOnceChar ';' (lastSeg u) with
      | mk b r =>
        dsimp only
        rcases splitOnce_inv hx with ⟨ho, hb, hmem⟩ | ⟨r2, ho, hs, hmem⟩
        · exact absurd hseg (hb ▸ hmem)
        · refine ⟨';' :: r2, ?_⟩
          rw [splitparams_stem, List.append_assoc, ← hs]
          rw [show (u.reverse.dropWhile (fun c => c ≠ '/')).reverse ++ lastSeg u = u
            from (lastSeg_decomp u).symm]
    · exact ⟨[], by simp⟩
    · cases hx : splitOnceChar ';' u with
      | mk b r =>
        dsimp only
        rcases splitOnce_inv hx with ⟨ho, hb, hmem⟩ | ⟨r2, ho, hs, hmem⟩
        · exact ⟨[], by rw [hb]; simp⟩
        · exact ⟨';' :: r2, hs⟩
  · exact ⟨[], by simp⟩

theorem params_stable {P : PyStr} (h : ';' ∉ lastSeg P) :
    (if ';' ∈ P then splitparams P else (P, [])) = (P, []) := by
  split_ifs with hsemi
  · have hslash : '/' ∈ P := by
      by_contra hsl
      rw [lastSeg_of_no_slash hsl] at h
      exact h hsemi
    rw [splitparams_eq]
    rw [if_pos hslash, if_neg h]
  · rfl


theorem utf8DecodeSM_ne_nil : ∀ (bs : List Nat) (st : Option Utf8Pend),
    (st.isSome = true ∨ bs ≠ []) → utf8DecodeSM st bs ≠ [] := by
  intro bs
  induction bs with
  | nil =>
    intro st h
    cases st with
    | none => rcases h with h | h <;> simp at h
    | some p => simp [utf8DecodeSM]
  | cons b t ih =>
    intro st _
    cases st with
    | some p =>
      simp only [utf8DecodeSM]
      split_ifs with h1 h2
      · simp
      · exact ih _ (Or.inl rfl)
      · simp
    | none =>
      simp only [utf8DecodeSM, leadOut]
      split_ifs <;>
        first
        | exact ih _ (Or.inl rfl)
        | simp

theorem unquoteGo_ne_nil : ∀ (s : PyStr) (st : UqState) (acc : List Nat),
    ((match st with | .plain => False | _ => True) ∨ acc ≠ [] ∨ s ≠ []) →
    unquoteGo st acc s ≠ [] := by
  intro s
  induction s with
  | nil =>
    intro st acc h
    show utf8Decode (acc.reverse ++ pendBytes st) ≠ []
    cases st with
    | plain =>
      have hacc : acc ≠ [] := by
        rcases h with h | h | h
        · cases h
        · exact h
        · exact absurd rfl h
      apply utf8DecodeSM_ne_nil
      right
      simp [pendBytes, hacc]
    | pct => apply utf8DecodeSM_ne_nil; right; simp [pendBytes]
    | pct1 h1 c1 => apply utf8DecodeSM_ne_nil; right; simp [pendBytes]
  | cons c t ih =>
    intro st acc _
    cases st with
    | plain =>
      simp only [unquoteGo]
      split_ifs with h1 h2
      · exact ih .pct acc (Or.inl trivial)
      · exact ih .plain _ (Or.inr (Or.inl (by simp)))
      · simp
    | pct =>
      simp only [unquoteGo]
      cases hx : hexVal c with
      | some h => exact ih _ acc (Or.inl trivial)
      | none =>
        split_ifs with h1 h2
        · exact ih .pct _ (Or.inr (Or.inl (by simp)))
        · exact ih .plain _ (Or.inr (Or.inl (by simp)))
        · simp
    | pct1 hv c1 =>
      simp only [unquoteGo]
      cases hx : hexVal c with
      | some h => exact ih .plain _ (Or.inr (Or.inl (by simp)))
      | none =>
        split_ifs with h1 h2
        · exact ih .pct _ (Or.inr (Or.inl (by simp)))
        · exact ih .plain _ (Or.inr (Or.inl (by simp)))
        · simp

theorem unquotePlus_ne_nil {s : PyStr} (h : s ≠ []) : unquotePlus s ≠ [] := by
  simp only [unquotePlus, unquote]
  apply unquoteGo_ne_nil
  right
  right
  simpa using h

theorem parse_qsl_value_ne_nil {qs : PyStr} :
    ∀ kv ∈ parse_qsl qs, kv.2 ≠ [] := by
  have main : ∀ (chunks : List PyStr), ∀ kv ∈ chunks.foldr
      (fun nv r =>
        if nv = [] then r
        else
          match splitOnceChar '=' nv with
          | (_, none) => r
          | (name, some value) =>
            if value = [] then r
            else (unquotePlus name, unquotePlus value) :: r) [], kv.2 ≠ [] := by
    intro chunks
    induction chunks with
    | nil => intro kv h; cases h
    | cons ch rest ih =>
      intro kv h
      rw [List.foldr_cons] at h
      revert h
      split_ifs with h1
      · exact fun h => ih kv h
      · cases hx : splitOnceChar '=' ch with
        | mk name ov =>
          cases ov with
          | none =>
            dsimp only
            exact fun h => ih kv h
          | some value =>
            dsimp only
            split_ifs with h2
            · exact fun h => ih kv h
            · intro h
              rcases List.mem_cons.mp h with hh | hh
              · subst hh
                exact unquotePlus_ne_nil h2
              · exact ih kv hh
  exact main (splitAllChar '&' qs)

theorem mem_encPair_props {kv : PyStr × PyStr} {c : Char} (h : c ∈ encPair kv) :
    c.toNat < 128 ∧ c ≠ '#' ∧ c ≠ '?' ∧ isSpaceChar c = false := by
  simp only [encPair, List.mem_append, List.mem_cons] at h
  rcases h with h | h | h
  · have := (mem_quotePlus_props h).1
    exact ⟨this.1, this.2.2.2.1, this.2.2.2.2.1, this.2.2.2.2.2⟩
  · subst h
    exact ⟨by decide, by decide, by decide, by decide⟩
  · have := (mem_quotePlus_props h).1
    exact ⟨this.1, this.2.2.2.1, this.2.2.2.2.1, this.2.2.2.2.2⟩

theorem mem_urlencode_props {l : List (PyStr × PyStr)} {c : Char}
    (h : c ∈ urlencode l) :
    c.toNat < 128 ∧ c ≠ '#' ∧ c ≠ '?' ∧ isSpaceChar c = false := by
  show c.toNat < 128 ∧ c ≠ '#' ∧ c ≠ '?' ∧ isSpaceChar c = false
  induction l with
  | nil => cases h
  | cons kv rest ih =>
    cases rest with
    | nil =>
      rw [show urlencode [kv] = List.intercalate ['&'] [encPair kv] from rfl,
        intercalate_single] at h
      exact mem_encPair_props h
    | cons kv2 rest2 =>
      rw [show urlencode (kv :: kv2 :: rest2) =
          List.intercalate ['&'] (encPair kv :: encPair kv2 :: rest2.map encPair)
          from rfl, intercalate_cons2] at h
      simp only [List.mem_append, List.mem_singleton] at h
      rcases h with (h | h) | h
      · exact mem_encPair_props h
      · subst h
        exact ⟨by decide, by decide, by decide, by decide⟩
      · exact ih h

theorem urlencode_eq_nil_iff {l : List (PyStr × PyStr)} :
    urlencode l = [] ↔ l = [] := by
  constructor
  · intro h
    cases l with
    | nil => rfl
    | cons kv rest =>
      exfalso
      cases rest with
      | nil =>
        rw [show urlencode [kv] = List.intercalate ['&'] [encPair kv] from rfl,
          intercalate_single] at h
        exact encPair_ne_nil h
      | cons kv2 rest2 =>
        rw [show urlencode (kv :: kv2 :: rest2) =
            List.intercalate ['&'] (encPair kv :: encPair kv2 :: rest2.map encPair)
            from rfl, intercalate_cons2] at h
        rw [List.append_eq_nil] at h
        obtain ⟨h1, h2⟩ := h
        rw [List.append_eq_nil] at h1
        exact encPair_ne_nil h1.1
  · intro h
    subst h
    rfl


theorem urlparseE_eq (url : PyStr) :
    urlparseE url =
      (if ('[' ∈ (splitNetloc (splitScheme (removeChar '\t' (removeChar '\r'
            (removeChar '\n' url)))).2).1 ∧
          ']' ∉ (splitNetloc (splitScheme (removeChar '\t' (removeChar '\r'
            (removeChar '\n' url)))).2).1) ∨
         (']' ∈ (splitNetloc (splitScheme (removeChar '\t' (removeChar '\r'
            (removeChar '\n' url)))).2).1 ∧
          '[' ∉ (splitNetloc (splitScheme (removeChar '\t' (removeChar '\r'
            (removeChar '\n' url)))).2).1) then
        Except.error "Invalid IPv6 URL".data
      else
        Except.ok
          ⟨(splitScheme (removeChar '\t' (removeChar '\r' (removeChar '\n' url)))).1,
           (splitNetloc (splitScheme (removeChar '\t' (removeChar '\r'
             (removeChar '\n' url)))).2).1,
           (if ';' ∈ (splitOnceChar '?' (splitOnceChar '#'
                (splitNetloc (splitScheme (removeChar '\t' (removeChar '\r'
                  (removeChar '\n' url)))).2).2).1).1 then
              splitparams (splitOnceChar '?' (splitOnceChar '#'
                (splitNetloc (splitScheme (removeChar '\t' (removeChar '\r'
                  (removeChar '\n' url)))).2).2).1).1
            else ((splitOnceChar '?' (splitOnceChar '#'
                (splitNetloc (splitScheme (removeChar '\t' (removeChar '\r'
                  (removeChar '\n' url)))).2).2).1).1, [])).1,
           (if ';' ∈ (splitOnceChar '?' (splitOnceChar '#'
                (splitNetloc (splitScheme (removeChar '\t' (removeChar '\r'
                  (removeChar '\n' url)))).2).2).1).1 then
              splitparams (splitOnceChar '?' (splitOnceChar '#'
                (splitNetloc (splitScheme (removeChar '\t' (removeChar '\r'
                  (removeChar '\n' url)))).2).2).1).1
            else ((splitOnceChar '?' (splitOnceChar '#'
                (splitNetloc (splitScheme (removeChar '\t' (removeChar '\r'
                  (removeChar '\n' url)))).2).2).1).1, [])).2,
           ((splitOnceChar '?' (splitOnceChar '#'
              (splitNetloc (splitScheme (removeChar '\t' (removeChar '\r'
                (removeChar '\n' url)))).2).2).1).2).getD [],
           ((splitOnceChar '#' (splitNetloc (splitScheme (removeChar '\t'
              (removeChar '\r' (removeChar '\n' url)))).2).2).2).getD []⟩) := by
  by_cases h : ('[' ∈ (splitNetloc (splitScheme (removeChar '\t' (removeChar '\r'
        (removeChar '\n' url)))).2).1 ∧
      ']' ∉ (splitNetloc (splitScheme (removeChar '\t' (removeChar '\r'
        (removeChar '\n' url)))).2).1) ∨
     (']' ∈ (splitNetloc (splitScheme (removeChar '\t' (removeChar '\r'
        (removeChar '\n' url)))).2).1 ∧
      '[' ∉ (splitNetloc (splitScheme (removeChar '\t' (removeChar '\r'
        (removeChar '\n' url)))).2).1)
  · rw [if_pos h]
    simp only [urlparseE]
    rw [if_pos h]
    rfl
  · rw [if_neg h]
    simp only [urlparseE]
    rw [if_neg h]
    rfl


theorem take2_append_ne {P qp : PyStr} (hP : P.take 2 ≠ ['/', '/'])
    (hqp : qp = [] ∨ ∃ t, qp = '?' :: t) : (P ++ qp).take 2 ≠ ['/', '/'] := by
  match P with
  | [] =>
    rcases hqp with h | ⟨t, h⟩ <;> subst h
    · simp
    · intro hc
      rw [List.nil_append] at hc
      have : '?' = '/' := by
        have := congrArg (fun l => l.take 1) hc
        simpa using this
      cases this
  | [c] =>
    rcases hqp with h | ⟨t, h⟩ <;> subst h
    · simp
    · intro hc
      have : c = '/' ∧ '?' = '/' := by
        rw [show ([c] ++ '?' :: t : PyStr) = c :: '?' :: t from rfl] at hc
        rw [show (c :: '?' :: t : PyStr).take 2 = [c, '?'] from rfl] at hc
        injection hc with h1 h2
        injection h2 with h2 h3
        exact ⟨h1, h2⟩
      cases this.2
  | c1 :: c2 :: t =>
    intro hc
    apply hP
    rw [show ((c1 :: c2 :: t : PyStr) ++ qp) = c1 :: c2 :: (t ++ qp) from rfl] at hc
    rw [show (c1 :: c2 :: (t ++ qp) : PyStr).take 2 = [c1, c2] from rfl] at hc
    exact hc

/-- `urlunsplit` with empty fragment, unfolded by cases. -/
theorem urlunsplit_eq (S N P Q : PyStr) :
    urlunsplit S N P Q [] =
      (let base :=
        if N ≠ [] ∨ (S ≠ [] ∧ S ∈ usesNetloc ∧ P.take 2 ≠ ['/', '/']) then
          '/' :: '/' :: (N ++ (if P ≠ [] ∧ P.take 1 ≠ ['/'] then '/' :: P else P))
        else P
       let u2 := if S ≠ [] then S ++ ':' :: base else base
       if Q ≠ [] then u2 ++ '?' :: Q else u2) := rfl


theorem canonical_unsplit_roundtrip (S N P Q : PyStr)
    (hSval : S ≠ [] → ((∀ c ∈ S.take 1, isAsciiAlpha c = true) ∧
      (∀ c ∈ S.drop 1, isSchemeChar c = true) ∧ pyLower S = S))
    (hSfail : S = [] → N = [] →
      splitScheme (if Q = [] then P else P ++ '?' :: Q) =
        ([], if Q = [] then P else P ++ '?' :: Q))
    (hN : ∀ c ∈ N, ¬(c = '/' ∨ c = '?' ∨ c = '#'))
    (hNbr : ¬(('[' ∈ N ∧ ']' ∉ N) ∨ (']' ∈ N ∧ '[' ∉ N)))
    (hP1 : '?' ∉ P) (hP2 : '#' ∉ P)
    (hPsemi : ';' ∉ lastSeg P)
    (hPN : N ≠ [] → (P = [] ∨ P.take 1 = ['/']))
    (hPP : N = [] → P.take 2 ≠ ['/', '/'])
    (hQ : ∀ c ∈ Q, c ≠ '#' ∧ c ≠ '?')
    (hclean : ∀ c ∈ urlunsplit S N P Q [],
      ¬(c = '\t' ∨ c = '\r' ∨ c = '\n')) :
    ∃ P2, urlparseE (urlunsplit S N P Q []) =
        Except.ok ⟨S, N, P2, [], Q, []⟩ ∧
      urlunsplit S N P2 Q [] = urlunsplit S N P Q [] := by
  have hrm : removeChar '\t' (removeChar '\r' (removeChar '\n'
      (urlunsplit S N P Q []))) = urlunsplit S N P Q [] := by
    have h1 : removeChar '\n' (urlunsplit S N P Q []) = urlunsplit S N P Q [] :=
      removeChar_eq_self (fun hc => (hclean _ hc) (Or.inr (Or.inr rfl)))
    rw [h1]
    have h2 : removeChar '\r' (urlunsplit S N P Q []) = urlunsplit S N P Q [] :=
      removeChar_eq_self (fun hc => (hclean _ hc) (Or.inr (Or.inl rfl)))
    rw [h2]
    exact removeChar_eq_self (fun hc => (hclean _ hc) (Or.inl rfl))
  by_cases hcond : N ≠ [] ∨ (S ≠ [] ∧ S ∈ usesNetloc ∧ P.take 2 ≠ ['/', '/'])
  · -- the «//» form is emitted
    have hp_cases : ((if P ≠ [] ∧ P.take 1 ≠ ['/'] then '/' :: P else P) = '/' :: P ∧
          P ≠ [] ∧ P.take 1 ≠ ['/']) ∨
        ((if P ≠ [] ∧ P.take 1 ≠ ['/'] then '/' :: P else P) = P ∧
          (P = [] ∨ P.take 1 = ['/'])) := by
      split_ifs with h
      · left; exact ⟨rfl, h⟩
      · right
        refine ⟨rfl, ?_⟩
        rcases not_and_or.mp h with h2 | h2
        · left; exact not_not.mp h2
        · right; exact not_not.mp h2
    set p := if P ≠ [] ∧ P.take 1 ≠ ['/'] then '/' :: P else P with hpdef
    have hpform : p = [] ∨ ∃ t, p = '/' :: t := by
      rcases hp_cases with ⟨h, hne, ht⟩ | ⟨h, hcase⟩
      · right; exact ⟨P, h⟩
      · rcases hcase with hnil | htake
        · left; rw [h, hnil]
        · cases P with
          | nil => cases htake
          | cons c t =>
            right
            have hc : c = '/' := by
              have h2 : ([c] : PyStr) = ['/'] := htake
              simpa using h2
            refine ⟨t, ?_⟩
            rw [h, hc]
    have hpq : '?' ∉ p := by
      rcases hp_cases with ⟨h, _⟩ | ⟨h, _⟩ <;> rw [h]
      · intro hc
        rcases List.mem_cons.mp hc with hh | hh
        · cases hh
        · exact hP1 hh
      · exact hP1
    have hph : '#' ∉ p := by
      rcases hp_cases with ⟨h, _⟩ | ⟨h, _⟩ <;> rw [h]
      · intro hc
        rcases List.mem_cons.mp hc with hh | hh
        · cases hh
        · exact hP2 hh
      · exact hP2
    have hpsemi : ';' ∉ lastSeg p := by
      rcases hp_cases with ⟨h, _⟩ | ⟨h, _⟩ <;> rw [h]
      · rw [lastSeg_cons_slash]
        exact hPsemi
      · exact hPsemi
    have hout : urlunsplit S N P Q [] =
        (if S ≠ [] then S ++ ':' :: ('/' :: '/' :: (N ++ p)) else
          '/' :: '/' :: (N ++ p)) ++ (if Q = [] then [] else '?' :: Q) := by
      rw [urlunsplit_eq]
      show (if Q ≠ [] then _ else _) = _
      rw [show (if N ≠ [] ∨ (S ≠ [] ∧ S ∈ usesNetloc ∧ P.take 2 ≠ ['/', '/']) then
          '/' :: '/' :: (N ++ (if P ≠ [] ∧ P.take 1 ≠ ['/'] then '/' :: P else P))
        else P) = '/' :: '/' :: (N ++ p) from by rw [if_pos hcond]]
      by_cases hq : Q = []
      · rw [if_neg (by simpa using hq), if_pos hq, List.append_nil]
      · rw [if_pos hq, if_neg hq]
    have htail : ('/' :: '/' :: (N ++ p)) ++ (if Q = [] then [] else '?' :: Q) =
        '/' :: '/' :: (N ++ (p ++ (if Q = [] then [] else '?' :: Q))) := by
      simp [List.append_assoc]
    have hqp_shape : (p ++ (if Q = [] then [] else '?' :: Q)) = [] ∨
        ∃ c t, (p ++ (if Q = [] then [] else '?' :: Q)) = c :: t ∧
          (c = '/' ∨ c = '?' ∨ c = '#') := by
      rcases hpform with h | ⟨t0, h⟩
      · rw [h, List.nil_append]
        by_cases hq : Q = []
        · rw [if_pos hq]
          left; rfl
        · rw [if_neg hq]
          right
          exact ⟨'?', Q, rfl, Or.inr (Or.inl rfl)⟩
      · rw [h]
        right
        exact ⟨'/', t0 ++ _, rfl, Or.inl rfl⟩
    have hnetloc : splitNetloc ('/' :: '/' ::
        (N ++ (p ++ (if Q = [] then [] else '?' :: Q)))) =
        (N, p ++ (if Q = [] then [] else '?' :: Q)) :=
      splitNetloc_reconstruct hN hqp_shape
    have hfrag : splitOnceChar '#'
        (p ++ (if Q = [] then [] else '?' :: Q)) =
        (p ++ (if Q = [] then [] else '?' :: Q), none) := by
      apply splitOnce_no_sep
      intro hc
      rcases List.mem_append.mp hc with hh | hh
      · exact hph hh
      · by_cases hq : Q = []
        · rw [if_pos hq] at hh; cases hh
        · rw [if_neg hq] at hh
          rcases List.mem_cons.mp hh with hh2 | hh2
          · cases hh2
          · exact (hQ _ hh2).1 rfl
    have hquery : splitOnceChar '?'
        (p ++ (if Q = [] then [] else '?' :: Q)) =
        (p, if Q = [] then none else some Q) := by
      by_cases hq : Q = []
      · rw [if_pos hq, if_pos hq, List.append_nil]
        exact splitOnce_no_sep hpq
      · rw [if_neg hq, if_neg hq]
        exact splitOnce_found hpq
    have hparams := params_stable hpsemi
    refine ⟨p, ?_, ?_⟩
    · by_cases hs : S = []
      · rw [urlparseE_eq, hrm, hout]
        subst hs
        have hS0 : ¬(([] : PyStr) ≠ []) := by simp
        rw [if_neg hS0, htail]
        rw [splitScheme_not_alpha (Or.inr (by
          intro c hc
          simp at hc
          subst hc
          rfl))]
        dsimp only
        rw [hnetloc]
        dsimp only
        rw [if_neg hNbr, hfrag]
        dsimp only
        rw [hquery]
        dsimp only
        rw [hparams]
        by_cases hq : Q = [] <;> simp [hq]
      · obtain ⟨hsa, hsb, hsl⟩ := hSval hs
        rw [urlparseE_eq, hrm, hout]
        rw [if_pos hs]
        rw [show ((S ++ ':' :: ('/' :: '/' :: (N ++ p))) ++
            (if Q = [] then [] else '?' :: Q)) =
            S ++ ':' :: (('/' :: '/' :: (N ++ p)) ++
              (if Q = [] then [] else '?' :: Q)) from by simp]
        rw [htail, splitScheme_reconstruct hs hsa hsb hsl]
        dsimp only
        rw [hnetloc]
        dsimp only
        rw [if_neg hNbr, hfrag]
        dsimp only
        rw [hquery]
        dsimp only
        rw [hparams]
        by_cases hq : Q = [] <;> simp [hq]
    · have hcond2 : N ≠ [] ∨ (S ≠ [] ∧ S ∈ usesNetloc ∧ p.take 2 ≠ ['/', '/']) := by
        rcases hcond with h | ⟨h1, h2, h3⟩
        · left; exact h
        · by_cases hn : N ≠ []
          · left; exact hn
          · right
            push_neg at hn
            refine ⟨h1, h2, ?_⟩
            rcases hp_cases with ⟨hp, hne, ht1⟩ | ⟨hp, _⟩
            · rw [hp]
              cases P with
              | nil => exact absurd rfl hne
              | cons c t =>
                intro hc
                rw [show (('/' :: c :: t : PyStr)).take 2 = ['/', c] from rfl] at hc
                injection hc with hj1 hj2
                injection hj2 with hj2 hj3
                exact ht1 (by rw [hj2]; rfl)
            · rw [hp]; exact hPP hn
      have hpre : (if p ≠ [] ∧ p.take 1 ≠ ['/'] then '/' :: p else p) = p := by
        rcases hpform with h | ⟨t0, h⟩
        · rw [if_neg (by simp [h])]
        · rw [if_neg (by
            intro hcc
            apply hcc.2
            rw [h]
            rfl)]
      rw [urlunsplit_eq, urlunsplit_eq]
      show (if Q ≠ [] then _ else _) = (if Q ≠ [] then _ else _)
      rw [show (if N ≠ [] ∨ (S ≠ [] ∧ S ∈ usesNetloc ∧ p.take 2 ≠ ['/', '/']) then
          '/' :: '/' :: (N ++ (if p ≠ [] ∧ p.take 1 ≠ ['/'] then '/' :: p else p))
        else p) = '/' :: '/' :: (N ++ p) from by rw [if_pos hcond2, hpre]]
      rw [show (if N ≠ [] ∨ (S ≠ [] ∧ S ∈ usesNetloc ∧ P.take 2 ≠ ['/', '/']) then
          '/' :: '/' :: (N ++ (if P ≠ [] ∧ P.take 1 ≠ ['/'] then '/' :: P else P))
        else P) = '/' :: '/' :: (N ++ p) from by rw [if_pos hcond]]
  · -- no netloc and no «//» insertion
    have hn : N = [] := by
      by_contra hne
      exact hcond (Or.inl hne)
    subst hn
    have hout : urlunsplit S [] P Q [] =
        (if S ≠ [] then S ++ ':' :: P else P) ++
          (if Q = [] then [] else '?' :: Q) := by
      rw [urlunsplit_eq]
      show (if Q ≠ [] then _ else _) = _
      rw [show (if ([] : PyStr) ≠ [] ∨ (S ≠ [] ∧ S ∈ usesNetloc ∧
          P.take 2 ≠ ['/', '/']) then
          '/' :: '/' :: (([] : PyStr) ++
            (if P ≠ [] ∧ P.take 1 ≠ ['/'] then '/' :: P else P))
        else P) = P from by rw [if_neg hcond]]
      by_cases hq : Q = []
      · rw [if_neg (by simpa using hq), if_pos hq, List.append_nil]
      · rw [if_pos hq, if_neg hq]
    have hqp_opt : (if Q = [] then ([] : PyStr) else '?' :: Q) = [] ∨
        ∃ t, (if Q = [] then ([] : PyStr) else '?' :: Q) = '?' :: t := by
      by_cases hq : Q = []
      · left; rw [if_pos hq]
      · right; exact ⟨Q, by rw [if_neg hq]⟩
    have hnot2 : (P ++ (if Q = [] then [] else '?' :: Q)).take 2 ≠ ['/', '/'] :=
      take2_append_ne (hPP rfl) hqp_opt
    have hnetloc : splitNetloc (P ++ (if Q = [] then [] else '?' :: Q)) =
        ([], P ++ (if Q = [] then [] else '?' :: Q)) :=
      splitNetloc_not2 hnot2
    have hfrag : splitOnceChar '#' (P ++ (if Q = [] then [] else '?' :: Q)) =
        (P ++ (if Q = [] then [] else '?' :: Q), none) := by
      apply splitOnce_no_sep
      intro hc
      rcases List.mem_append.mp hc with hh | hh
      · exact hP2 hh
      · by_cases hq : Q = []
        · rw [if_pos hq] at hh; cases hh
        · rw [if_neg hq] at hh
          rcases List.mem_cons.mp hh with hh2 | hh2
          · cases hh2
          · exact (hQ _ hh2).1 rfl
    have hquery : splitOnceChar '?' (P ++ (if Q = [] then [] else '?' :: Q)) =
        (P, if Q = [] then none else some Q) := by
      by_cases hq : Q = []
      · rw [if_pos hq, if_pos hq, List.append_nil]
        exact splitOnce_no_sep hP1
      · rw [if_neg hq, if_neg hq]
        exact splitOnce_found hP1
    have hparams := params_stable hPsemi
    have hform : (if Q = [] then P else P ++ '?' :: Q) =
        P ++ (if Q = [] then [] else '?' :: Q) := by
      by_cases hq : Q = []
      · rw [if_pos hq, if_pos hq, List.append_nil]
      · rw [if_neg hq, if_neg hq]
    refine ⟨P, ?_, rfl⟩
    by_cases hs : S = []
    · rw [urlparseE_eq, hrm, hout]
      subst hs
      have hS0 : ¬(([] : PyStr) ≠ []) := by simp
      rw [if_neg hS0]
      have hsf := hSfail rfl rfl
      rw [hform] at hsf
      rw [hsf]
      dsimp only
      rw [hnetloc]
      dsimp only
      have hbr0 : ¬(('[' ∈ ([] : PyStr) ∧ ']' ∉ ([] : PyStr)) ∨
          (']' ∈ ([] : PyStr) ∧ '[' ∉ ([] : PyStr))) := by simp
      rw [if_neg hbr0, hfrag]
      dsimp only
      rw [hquery]
      dsimp only
      rw [hparams]
      by_cases hq : Q = [] <;> simp [hq]
    · obtain ⟨hsa, hsb, hsl⟩ := hSval hs
      rw [urlparseE_eq, hrm, hout]
      rw [if_pos hs]
      rw [show ((S ++ ':' :: P) ++ (if Q = [] then [] else '?' :: Q)) =
          S ++ ':' :: (P ++ (if Q = [] then [] else '?' :: Q)) from by
        simp [List.append_assoc]]
      rw [splitScheme_reconstruct hs hsa hsb hsl]
      dsimp only
      rw [hnetloc]
      dsimp only
      have hbr0 : ¬(('[' ∈ ([] : PyStr) ∧ ']' ∉ ([] : PyStr)) ∨
          (']' ∈ ([] : PyStr) ∧ '[' ∉ ([] : PyStr))) := by simp
      rw [if_neg hbr0, hfrag]
      dsimp only
      rw [hquery]
      dsimp only
      rw [hparams]
      by_cases hq : Q = [] <;> simp [hq]


theorem drop_takeWhile_length {p : Char → Bool} : ∀ (l : PyStr),
    l.drop (l.takeWhile p).length = l.dropWhile p := by
  intro l
  induction l with
  | nil => rfl
  | cons c t ih =>
    by_cases hc : p c
    · simp [List.takeWhile_cons, List.dropWhile_cons, hc, ih]
    · simp [List.takeWhile_cons, List.dropWhile_cons, hc]

theorem splitNetloc_inv {u : PyStr} {n rest : PyStr}
    (h : splitNetloc u = (n, rest)) :
    (n = [] ∧ rest = u ∧ u.take 2 ≠ ['/', '/']) ∨
      (∃ r, u = '/' :: '/' :: r ∧ r = n ++ rest ∧
        (∀ c ∈ n, ¬(c = '/' ∨ c = '?' ∨ c = '#')) ∧
        (rest = [] ∨ ∃ c t, rest = c :: t ∧ (c = '/' ∨ c = '?' ∨ c = '#'))) := by
  rw [splitNetloc.eq_def] at h
  revert h
  split
  · rename_i r
    intro h
    injection h with h1 h2
    right
    refine ⟨r, rfl, ?_, ?_, ?_⟩
    · rw [← h1, ← h2]
      rw [drop_takeWhile_length]
      rw [List.takeWhile_append_dropWhile]
    · intro c hc
      rw [← h1] at hc
      have := List.mem_takeWhile_imp hc
      simpa using this
    · rw [← h2, drop_takeWhile_length]
      cases hd : r.dropWhile (fun c => decide ¬(c = '/' ∨ c = '?' ∨ c = '#')) with
      | nil => left; rfl
      | cons c t =>
        right
        refine ⟨c, t, rfl, ?_⟩
        have h2 : decide (¬(c = '/' ∨ c = '?' ∨ c = '#')) = false :=
          dropWhile_head_false hd
        rw [decide_eq_false_iff_not, not_not] at h2
        exact h2
  · rename_i hno
    intro h
    injection h with h1 h2
    left
    refine ⟨h1.symm, h2.symm, ?_⟩
    intro hc
    cases u with
    | nil => cases hc
    | cons c1 t1 =>
      cases t1 with
      | nil => cases hc
      | cons c2 t2 =>
        rw [show ((c1 :: c2 :: t2 : PyStr)).take 2 = [c1, c2] from rfl] at hc
        injection hc with he1 he2
        injection he2 with he2 he3
        subst he1
        subst he2
        exact hno t2 rfl

theorem mem_urlunsplit {S N P Q : PyStr} {c : Char}
    (h : c ∈ urlunsplit S N P Q []) :
    c ∈ S ∨ c ∈ N ∨ c ∈ P ∨ c ∈ Q ∨ c = ':' ∨ c = '/' ∨ c = '?' := by
  have hbase : ∀ x : Char,
      x ∈ (if N ≠ [] ∨ (S ≠ [] ∧ S ∈ usesNetloc ∧ P.take 2 ≠ ['/', '/']) then
        '/' :: '/' :: (N ++ (if P ≠ [] ∧ P.take 1 ≠ ['/'] then '/' :: P else P))
      else P) → x ∈ N ∨ x ∈ P ∨ x = '/' := by
    intro x hx
    split_ifs at hx with h1 h2 <;>
      first
      | tauto
      | (simp only [List.mem_cons, List.mem_append] at hx
         tauto)
  have hu2 : ∀ x : Char,
      x ∈ (if S ≠ [] then
        S ++ ':' :: (if N ≠ [] ∨ (S ≠ [] ∧ S ∈ usesNetloc ∧
            P.take 2 ≠ ['/', '/']) then
          '/' :: '/' :: (N ++ (if P ≠ [] ∧ P.take 1 ≠ ['/'] then '/' :: P else P))
        else P)
      else (if N ≠ [] ∨ (S ≠ [] ∧ S ∈ usesNetloc ∧ P.take 2 ≠ ['/', '/']) then
          '/' :: '/' :: (N ++ (if P ≠ [] ∧ P.take 1 ≠ ['/'] then '/' :: P else P))
        else P)) →
      x ∈ S ∨ x ∈ N ∨ x ∈ P ∨ x = ':' ∨ x = '/' := by
    intro x hx
    by_cases h1 : S ≠ []
    · rw [if_pos h1] at hx
      rcases List.mem_append.mp hx with hx | hx
      · left; exact hx
      · rcases List.mem_cons.mp hx with hx | hx
        · right; right; right; left; exact hx
        · rcases hbase x hx with hh | hh | hh
          · right; left; exact hh
          · right; right; left; exact hh
          · right; right; right; right; exact hh
    · rw [if_neg h1] at hx
      rcases hbase x hx with hh | hh | hh
      · right; left; exact hh
      · right; right; left; exact hh
      · right; right; right; right; exact hh
  rw [urlunsplit_eq] at h
  dsimp only at h
  by_cases hq : Q ≠ []
  · rw [if_pos hq] at h
    rcases List.mem_append.mp h with hx | hx
    · rcases hu2 c hx with hh | hh | hh | hh | hh
      · left; exact hh
      · right; left; exact hh
      · right; right; left; exact hh
      · right; right; right; right; left; exact hh
      · right; right; right; right; right; left; exact hh
    · rcases List.mem_cons.mp hx with hx | hx
      · right; right; right; right; right; right; exact hx
      · right; right; right; left; exact hx
  · rw [if_neg hq] at h
    rcases hu2 c h with hh | hh | hh | hh | hh
    · left; exact hh
    · right; left; exact hh
    · right; right; left; exact hh
    · right; right; right; right; left; exact hh
    · right; right; right; right; right; left; exact hh


theorem pyLower_eq_nil_iff {s : PyStr} : pyLower s = [] ↔ s = [] := by
  simp [pyLower]

theorem mem_removeChar_sub {c x : Char} {s : PyStr} (h : x ∈ removeChar c s) :
    x ∈ s := List.mem_of_mem_filter h

theorem not_mem_removeChar (c : Char) (s : PyStr) : c ∉ removeChar c s := by
  intro h
  have := List.of_mem_filter h
  simp at this

theorem splitScheme_scan_none {c : Char} {t : PyStr}
    (hs : schemeScan t = none) : splitScheme (c :: t) = ([], c :: t) := by
  simp only [splitScheme]
  split_ifs with ha
  · rw [hs]
  · rfl

theorem mem_pyLower_iff {s : PyStr} {x : Char}
    (hx : ¬(97 ≤ x.toNat ∧ x.toNat ≤ 122)) (hfix : lowerChar x = x) :
    x ∈ pyLower s ↔ x ∈ s :=
  ⟨mem_pyLower_nonletter hx, mem_pyLower_of_mem hfix⟩

theorem prefix_trans {a b c : PyStr} (h1 : ∃ s, a = b ++ s)
    (h2 : ∃ s, b = c ++ s) : ∃ s, a = c ++ s := by
  obtain ⟨s1, h1⟩ := h1
  obtain ⟨s2, h2⟩ := h2
  exact ⟨s2 ++ s1, by rw [h1, h2, List.append_assoc]⟩

theorem prefix_mem {a b : PyStr} {x : Char} (h : ∃ s, a = b ++ s)
    (hx : x ∈ b) : x ∈ a := by
  obtain ⟨s, rfl⟩ := h
  exact List.mem_append_left _ hx

end Py


namespace Py

set_option maxHeartbeats 1000000 in
/-- Core of the C4 idempotence argument: a successful parse of `u0`
feeds scheme/netloc (lower-cased), path, and a re-encoded query `Q`
into `urlunsplit`; reparsing that output recovers the same components
(with some path `P2` that unsplits identically). -/
theorem canonical_idem_core {u0 : PyStr} {pr : UrlParts} (Q : PyStr)
    (hp : urlparseE u0 = Except.ok pr)
    (hQc : ∀ c ∈ Q, c ≠ '#' ∧ c ≠ '?' ∧ isSpaceChar c = false)
    (hPP0 : pr.netloc = [] → pr.path.take 2 ≠ ['/', '/']) :
    ∃ P2,
      urlparseE (urlunsplit (pyLower pr.scheme) (pyLower pr.netloc)
          pr.path Q []) =
        Except.ok ⟨pyLower pr.scheme, pyLower pr.netloc, P2, [], Q, []⟩ ∧
      urlunsplit (pyLower pr.scheme) (pyLower pr.netloc) P2 Q [] =
        urlunsplit (pyLower pr.scheme) (pyLower pr.netloc) pr.path Q [] := by
  rw [urlparseE_eq] at hp
  set u1 := removeChar '\t' (removeChar '\r' (removeChar '\n' u0)) with hu1
  by_cases hbr : ('[' ∈ (splitNetloc (splitScheme u1).2).1 ∧
        ']' ∉ (splitNetloc (splitScheme u1).2).1) ∨
      (']' ∈ (splitNetloc (splitScheme u1).2).1 ∧
        '[' ∉ (splitNetloc (splitScheme u1).2).1)
  · rw [if_pos hbr] at hp
    cases hp
  · rw [if_neg hbr] at hp
    obtain ⟨Sr, Nr, Pr, PAr, Qr, Fr⟩ := pr
    injection hp with hp
    injection hp with hS0 hN0 hP0 hPA0 hQ0 hF0
    dsimp only at hPP0 ⊢
    set rest1 := (splitScheme u1).2 with hr1def
    set np2 := (splitNetloc rest1).2 with hnp2def
    set fp1 := (splitOnceChar '#' np2).1 with hfp1def
    set qp1 := (splitOnceChar '?' fp1).1 with hqp1def
    have hsps : splitScheme u1 = (Sr, rest1) := by
      rw [← hS0]
    have hnps : splitNetloc rest1 = (Nr, np2) := by
      rw [← hN0]
    have hfps : splitOnceChar '#' np2 = (fp1, (splitOnceChar '#' np2).2) :=
      Prod.mk.eta.symm
    have hqps : splitOnceChar '?' fp1 = (qp1, (splitOnceChar '?' fp1).2) :=
      Prod.mk.eta.symm
    have hfpre : (∃ s, np2 = fp1 ++ s) ∧ '#' ∉ fp1 := by
      rcases splitOnce_inv hfps with ⟨h1, hb, hmem⟩ | ⟨r2, h1, hs, hmem⟩
      · exact ⟨⟨[], by rw [hb, List.append_nil]⟩, fun hc => hmem (hb ▸ hc)⟩
      · exact ⟨⟨'#' :: r2, hs⟩, hmem⟩
    have hqpre : (∃ s, fp1 = qp1 ++ s) ∧ '?' ∉ qp1 := by
      rcases splitOnce_inv hqps with ⟨h1, hb, hmem⟩ | ⟨r2, h1, hs, hmem⟩
      · exact ⟨⟨[], by rw [hb, List.append_nil]⟩, fun hc => hmem (hb ▸ hc)⟩
      · exact ⟨⟨'?' :: r2, hs⟩, hmem⟩
    have hppre : ∃ s, qp1 = Pr ++ s := by
      have h := splitparams_prefix qp1
      rw [hP0] at h
      exact h
    have hnp2Pr : ∃ s, np2 = Pr ++ s :=
      prefix_trans hfpre.1 (prefix_trans hqpre.1 hppre)
    have hP1 : '?' ∉ Pr := fun hc => hqpre.2 (prefix_mem hppre hc)
    have hP2 : '#' ∉ Pr :=
      fun hc => hfpre.2 (prefix_mem (prefix_trans hqpre.1 hppre) hc)
    have hPsemi : ';' ∉ lastSeg Pr := by
      have h := path_lastSeg_no_semi qp1
      rw [hP0] at h
      exact h
    have hSval : pyLower Sr ≠ [] →
        ((∀ c ∈ (pyLower Sr).take 1, isAsciiAlpha c = true) ∧
         (∀ c ∈ (pyLower Sr).drop 1, isSchemeChar c = true) ∧
         pyLower (pyLower Sr) = pyLower Sr) := by
      intro hne
      have hSne : Sr ≠ [] := by
        intro h
        apply hne
        rw [h]
        rfl
      obtain ⟨raw, hu, hSr, hrawne, hal, hsc⟩ := splitScheme_inv hsps hSne
      have hps : pyLower Sr = pyLower raw := by rw [hSr, pyLower_idem]
      refine ⟨?_, ?_, by rw [pyLower_idem]⟩
      · intro c hc
        rw [hps] at hc
        rw [show pyLower raw = raw.map lowerChar from rfl, ← List.map_take] at hc
        obtain ⟨x, hx, rfl⟩ := List.mem_map.mp hc
        exact isAsciiAlpha_lowerChar (hal x hx)
      · intro c hc
        rw [hps] at hc
        rw [show pyLower raw = raw.map lowerChar from rfl, ← List.map_drop] at hc
        obtain ⟨x, hx, rfl⟩ := List.mem_map.mp hc
        exact isSchemeChar_lowerChar (hsc x hx)
    have hN : ∀ c ∈ pyLower Nr, ¬(c = '/' ∨ c = '?' ∨ c = '#') := by
      intro c hc hor
      have hcn : ¬(97 ≤ c.toNat ∧ c.toNat ≤ 122) := by
        rcases hor with h | h | h <;> subst h <;> decide
      have hcmem : c ∈ Nr := mem_pyLower_nonletter hcn hc
      rcases splitNetloc_inv hnps with ⟨hn, h1, h2⟩ | ⟨r, h1, h2, hnchars, h3⟩
      · rw [hn] at hcmem
        cases hcmem
      · exact hnchars c hcmem hor
    rw [hN0] at hbr
    have hbl : ('[' ∈ pyLower Nr) ↔ ('[' ∈ Nr) :=
      mem_pyLower_iff (by decide) (by decide)
    have hbrr : (']' ∈ pyLower Nr) ↔ (']' ∈ Nr) :=
      mem_pyLower_iff (by decide) (by decide)
    have hNbr : ¬(('[' ∈ pyLower Nr ∧ ']' ∉ pyLower Nr) ∨
        (']' ∈ pyLower Nr ∧ '[' ∉ pyLower Nr)) := by
      rw [hbl, hbrr]
      exact hbr
    have hPN : pyLower Nr ≠ [] → (Pr = [] ∨ Pr.take 1 = ['/']) := by
      intro hne
      have hNrne : Nr ≠ [] := by
        intro h
        apply hne
        rw [h]
        rfl
      rcases splitNetloc_inv hnps with ⟨hn, h1, h2⟩ | ⟨r, hu2, hrsplit, h2, hbnd⟩
      · exact absurd hn hNrne
      · by_cases hPrnil : Pr = []
        · left
          exact hPrnil
        · right
          obtain ⟨p0, pt, hPr⟩ := List.exists_cons_of_ne_nil hPrnil
          obtain ⟨s, hs⟩ := hnp2Pr
          rcases hbnd with hnil | ⟨c, t0, hct, hor⟩
          · rw [hnil, hPr] at hs
            simp at hs
          · rw [hct, hPr, List.cons_append] at hs
            injection hs with h1 h2s
            have hc : p0 = '/' := by
              rcases hor with h | h | h
              · rw [← h1, h]
              · exfalso
                apply hP1
                rw [hPr, ← h1, h]
                exact List.mem_cons_self _ _
              · exfalso
                apply hP2
                rw [hPr, ← h1, h]
                exact List.mem_cons_self _ _
            rw [hPr, hc]
            rfl
    have hPP : pyLower Nr = [] → Pr.take 2 ≠ ['/', '/'] :=
      fun h => hPP0 (pyLower_eq_nil_iff.mp h)
    have hQ2 : ∀ c ∈ Q, c ≠ '#' ∧ c ≠ '?' :=
      fun c hc => ⟨(hQc c hc).1, (hQc c hc).2.1⟩
    have hSfail : pyLower Sr = [] → pyLower Nr = [] →
        splitScheme (if Q = [] then Pr else Pr ++ '?' :: Q) =
          ([], if Q = [] then Pr else Pr ++ '?' :: Q) := by
      intro hsl hnl2
      have hSrnil : Sr = [] := pyLower_eq_nil_iff.mp hsl
      have hNrnil : Nr = [] := pyLower_eq_nil_iff.mp hnl2
      have hqB : (if Q = [] then ([] : PyStr) else '?' :: Q) = [] ∨
          ∃ t, (if Q = [] then ([] : PyStr) else '?' :: Q) = '?' :: t := by
        split_ifs
        · left
          rfl
        · right
          exact ⟨Q, rfl⟩
      have hqsuf : (if Q = [] then Pr else Pr ++ '?' :: Q) =
          Pr ++ (if Q = [] then [] else '?' :: Q) := by
        split_ifs
        · rw [List.append_nil]
        · rfl
      rw [hqsuf]
      by_cases hPrnil : Pr = []
      · subst hPrnil
        rw [List.nil_append]
        apply splitScheme_not_alpha
        rcases hqB with h | ⟨t, h⟩
        · left
          exact h
        · right
          rw [h]
          intro x hx
          have hx0 : x = '?' := by simpa using hx
          subst hx0
          decide
      · obtain ⟨p0, pt, hPr⟩ := List.exists_cons_of_ne_nil hPrnil
        rcases splitNetloc_inv hnps with ⟨hn, hr, h2⟩ | ⟨r, hu2, hrsplit, h2, hbnd⟩
        · -- no «//» in the source: the whole remainder is the path area
          have hre : rest1 = u1 := splitScheme_eq_nil_self hsps hSrnil
          have hss : splitScheme u1 = ([], u1) := by
            rw [hsps, hSrnil, hre]
          obtain ⟨s, hs⟩ := hnp2Pr
          rw [hr, hre] at hs
          rw [hPr, List.cons_append] at hs
          rw [hs] at hss
          by_cases halpha : isAsciiAlpha p0 = true
          · cases hscan : schemeScan (pt ++ s) with
            | some p =>
              exfalso
              obtain ⟨b2, r2⟩ := p
              have hcomp : splitScheme (p0 :: (pt ++ s)) =
                  (pyLower (p0 :: b2), r2) := by
                simp only [splitScheme]
                rw [if_pos halpha, hscan]
              rw [hss] at hcomp
              injection hcomp with h1 h2c
              exact absurd h1.symm (by simp [pyLower])
            | none =>
              have htrans : schemeScan
                  (pt ++ (if Q = [] then [] else '?' :: Q)) = none :=
                schemeScan_none_transfer hscan hqB
              rw [hPr, List.cons_append]
              exact splitScheme_scan_none htrans
          · apply splitScheme_not_alpha
            right
            rw [hPr, List.cons_append]
            intro x hx
            have hx0 : x = p0 := by simpa using hx
            subst hx0
            rw [Bool.not_eq_true] at halpha
            exact halpha
        · -- «//» form: the path area starts with / ? or #
          apply splitScheme_not_alpha
          right
          rw [hPr, List.cons_append]
          intro x hx
          have hx0 : x = p0 := by simpa using hx
          subst hx0
          obtain ⟨s, hs⟩ := hnp2Pr
          rcases hbnd with hnil | ⟨c, t0, hct, hor⟩
          · rw [hnil, hPr] at hs
            simp at hs
          · rw [hct, hPr, List.cons_append] at hs
            injection hs with h1 h2s
            rcases hor with h | h | h <;> rw [← h1, h] <;> decide
    have hrest1sub : ∀ x : Char, x ∈ rest1 → x ∈ u1 := by
      intro x hcr
      by_cases hSne : Sr = []
      · rwa [splitScheme_eq_nil_self hsps hSne] at hcr
      · obtain ⟨raw, hu, h1, h2, h3, h4⟩ := splitScheme_inv hsps hSne
        rw [hu]
        exact List.mem_append_right _ (List.mem_cons_of_mem _ hcr)
    have hnp2sub : ∀ x : Char, x ∈ np2 → x ∈ rest1 := by
      intro x h
      rcases splitNetloc_inv hnps with ⟨h1, hr, h2⟩ | ⟨r, hu2, hrsplit, h2, h3⟩
      · rwa [hr] at h
      · rw [hu2]
        refine List.mem_cons_of_mem _ (List.mem_cons_of_mem _ ?_)
        rw [hrsplit]
        exact List.mem_append_right _ h
    have hclean : ∀ c ∈ urlunsplit (pyLower Sr) (pyLower Nr) Pr Q [],
        ¬(c = '\t' ∨ c = '\r' ∨ c = '\n') := by
      intro c hc hbad
      have hcn : ¬(97 ≤ c.toNat ∧ c.toNat ≤ 122) := by
        rcases hbad with h | h | h <;> subst h <;> decide
      have hcu1 : c ∉ u1 := by
        rcases hbad with h | h | h <;> subst h <;> rw [hu1]
        · exact not_mem_removeChar _ _
        · intro hm
          exact not_mem_removeChar '\r' _ (mem_removeChar_sub hm)
        · intro hm
          exact not_mem_removeChar '\n' _ (mem_removeChar_sub (mem_removeChar_sub hm))
      rcases mem_urlunsplit hc with hm | hm | hm | hm | hm | hm | hm
      · have hSne : Sr ≠ [] := by
          intro h
          rw [h] at hm
          simp [pyLower] at hm
        obtain ⟨raw, hu, hSr, h2, h3, h4⟩ := splitScheme_inv hsps hSne
        have hcr : c ∈ raw := by
          have h1 : c ∈ Sr := mem_pyLower_nonletter hcn hm
          rw [hSr] at h1
          exact mem_pyLower_nonletter hcn h1
        apply hcu1
        rw [hu]
        exact List.mem_append_left _ hcr
      · have hcm : c ∈ Nr := mem_pyLower_nonletter hcn hm
        rcases splitNetloc_inv hnps with ⟨hn, h1, h2⟩ | ⟨r, hu2, hrsplit, h2, h3⟩
        · rw [hn] at hcm
          cases hcm
        · apply hcu1
          apply hrest1sub
          rw [hu2]
          refine List.mem_cons_of_mem _ (List.mem_cons_of_mem _ ?_)
          rw [hrsplit]
          exact List.mem_append_left _ hcm
      · exact hcu1 (hrest1sub c (hnp2sub c (prefix_mem hnp2Pr hm)))
      · rcases hbad with h | h | h <;> subst h <;>
          exact absurd (hQc _ hm).2.2 (by decide)
      · subst hm
        rcases hbad with h | h | h <;> cases h
      · subst hm
        rcases hbad with h | h | h <;> cases h
      · subst hm
        rcases hbad with h | h | h <;> cases h
    exact canonical_unsplit_roundtrip (pyLower Sr) (pyLower Nr) Pr Q
      hSval hSfail hN hNbr hP1 hP2 hPsemi hPN hPP hQ2 hclean

end Py



/-! ### A small regex engine

`_canonical_url`'s fallback branch and `parse_salary_components` are
regex-driven.  We model exactly the constructs those patterns use, with
Python semantics: leftmost match, greedy quantifiers with backtracking,
numbered capture groups (a group keeps its last capture; an unentered
optional group is unset). -/

namespace Rx

/-- Captures: group index paired with captured text, later entries
superseding earlier ones. -/
abbrev Caps := List (Nat × PyStr)

/-- `m.group(i)`: the last recorded capture for group `i`. -/
def capGet (g : Caps) (i : Nat) : Option PyStr :=
  ((g.filter (fun kv => kv.1 = i)).map (·.2)).getLast?

/-- A matcher returns all the ways a pattern can match a prefix of the
input, as `(consumed, rest, captures)`, in backtracking preference order. -/
abbrev Matcher := PyStr → List (PyStr × PyStr × Caps)

/-- Single character from a class. -/
def mCls (p : Char → Bool) : Matcher
  | [] => []
  | c :: t => if p c then [([c], t, [])] else []

/-- One literal character, case-insensitively when `ci` is set
(the fallback regexes are compiled with `re.I`). -/
def mCh (ci : Bool) (x : Char) : Matcher :=
  mCls (fun c => if ci then Py.lowerChar c = Py.lowerChar x else c = x)

/-- Worker for `mStr`: consume a literal, returning the rest. -/
def mStrGo (ci : Bool) : PyStr → PyStr → Option PyStr
  | [], rest => some rest
  | x :: xs', rest =>
    match rest with
    | [] => none
    | c :: rest' =>
      if (if ci then Py.lowerChar c = Py.lowerChar x else c = x) then
        mStrGo ci xs' rest'
      else none

/-- Literal string. -/
def mStr (ci : Bool) (xs : PyStr) : Matcher := fun s =>
  match mStrGo ci xs s with
  | some rest => [(s.take xs.length, rest, [])]
  | none => []

/-- Concatenation. -/
def mSeq (a b : Matcher) : Matcher := fun s =>
  (a s).flatMap fun m1 =>
    (b m1.2.1).map fun m2 => (m1.1 ++ m2.1, m2.2.1, m1.2.2 ++ m2.2.2)

/-- Alternation (left preferred). -/
def mAlt (a b : Matcher) : Matcher := fun s => a s ++ b s

/-- Greedy `?`. -/
def mOpt (a : Matcher) : Matcher := fun s => a s ++ [([], s, [])]

/-- Greedy `*` over a character class. -/
def mStarCls (p : Char → Bool) : Matcher := fun s =>
  let t := s.takeWhile p
  (List.range (t.length + 1)).reverse.map fun n => (t.take n, s.drop n, [])

/-- Greedy `+` over a character class. -/
def mPlusCls (p : Char → Bool) : Matcher := fun s =>
  (mStarCls p s).filter (fun m => m.1 ≠ [])

/-- Capture group. -/
def mGrp (i : Nat) (a : Matcher) : Matcher := fun s =>
  (a s).map fun m => (m.1, m.2.1, m.2.2 ++ [(i, m.1)])

/-- Fuel-driven worker for greedy `+` over a composite pattern.  Each
iteration consumes at least one character (an empty round stops the
repetition), so fuel `|s| + 1` is sufficient. -/
def rep1Go (a : Matcher) : Nat → Matcher
  | 0, _ => []
  | f + 1, s =>
    (a s).flatMap fun m1 =>
      if m1.1 = [] then [m1]
      else
        ((rep1Go a f m1.2.1).map fun m2 =>
          (m1.1 ++ m2.1, m2.2.1, m1.2.2 ++ m2.2.2)) ++ [m1]

/-- Greedy `+` over a composite pattern. -/
def mRep1 (a : Matcher) : Matcher := fun s => rep1Go a (s.length + 1) s

/-- `re.search`: leftmost match, then pattern preference order; returns
`(before, matched, after, captures)`. -/
def search (m : Matcher) : PyStr → Option (PyStr × PyStr × PyStr × Caps)
  | [] => (m []).head?.map fun r => ([], r.1, r.2.1, r.2.2)
  | c :: t =>
    match (m (c :: t)).head? with
    | some r => some ([], r.1, r.2.1, r.2.2)
    | none => (search m t).map fun r => (c :: r.1, r.2.1, r.2.2.1, r.2.2.2)

/-- Fuel-driven worker for `re.sub` (none of the patterns used here can
match the empty string, and every replacement consumes at least one
character). -/
def subGo (m : Matcher) (repl : PyStr) : Nat → PyStr → PyStr
  | 0, s => s
  | f + 1, s =>
    match search m s with
    | none => s
    | some (pre, _, post, _) => pre ++ repl ++ subGo m repl f post

/-- `re.sub(pattern, repl, s)` for patterns that cannot match empty. -/
def reSub (m : Matcher) (repl : PyStr) (s : PyStr) : PyStr :=
  subGo m repl (s.length + 1) s

end Rx

/-! ### URL canonicalization (`JobService._canonical_url`, tools/jobs.py)

The streaming/dedupe `JobService` canonicalizes a URL by parsing it,
lower-casing scheme and netloc, dropping tracking query parameters while
keeping all others, erasing the fragment, and re-encoding.  If parsing
raises (`urlparse` raises `ValueError` for unbalanced brackets in the
netloc), a conservative regex fallback is used instead. -/

/-- Tracking keys dropped by canonicalization: `utm_*`-prefixed keys and
the exact keys `gh_src`, `ref`, `source`, `lever-source` (compared
lower-cased). -/
def isTrackingKey (k : PyStr) : Bool :=
  Py.startsWith "utm_".data (Py.pyLower k) ||
  (Py.pyLower k = "gh_src".data || Py.pyLower k = "ref".data ||
   Py.pyLower k = "source".data || Py.pyLower k = "lever-source".data)

/-- Character class `[?#]`. -/
def rxQH : Rx.Matcher := Rx.mCls (fun c => c = '?' || c = '#')

/-- Fallback regex `[?#](utm_[^=&]+=[^&]*&?)+` (compiled with `re.I`). -/
def rxUtmChain : Rx.Matcher :=
  Rx.mSeq rxQH
    (Rx.mRep1
      (Rx.mSeq (Rx.mStr true "utm_".data)
        (Rx.mSeq (Rx.mPlusCls (fun c => ¬ (c = '=' || c = '&')))
          (Rx.mSeq (Rx.mCh true '=')
            (Rx.mSeq (Rx.mStarCls (fun c => c ≠ '&'))
              (Rx.mOpt (Rx.mCh true '&')))))))

/-- Fallback regex
`[?#](gh_src|ref|source|lever-source|ashby_jid|ashby_src)=[^&]*&?`
(compiled with `re.I`). -/
def rxTrackEq : Rx.Matcher :=
  Rx.mSeq rxQH
    (Rx.mSeq
      (Rx.mAlt (Rx.mStr true "gh_src".data)
        (Rx.mAlt (Rx.mStr true "ref".data)
          (Rx.mAlt (Rx.mStr true "source".data)
            (Rx.mAlt (Rx.mStr true "lever-source".data)
              (Rx.mAlt (Rx.mStr true "ashby_jid".data)
                (Rx.mStr true "ashby_src".data))))))
      (Rx.mSeq (Rx.mCh true '=')
        (Rx.mSeq (Rx.mStarCls (fun c => c ≠ '&'))
          (Rx.mOpt (Rx.mCh true '&')))))

/-- `re.sub(r"\?&+$", "?", u)`: a trailing run of `&` after a `?` at the
end of the string collapses to just the `?`. -/
def cleanupTrailQAmp (u : PyStr) : PyStr :=
  let amps := u.reverse.takeWhile (fun c => c = '&')
  if amps ≠ [] ∧ ((u.reverse.drop amps.length).head? = some '?') then
    u.take (u.length - amps.length)
  else u

/-- `re.sub(r"[?#]$", "", u)`: drop one trailing `?` or `#`. -/
def cleanupTrailQH (u : PyStr) : PyStr :=
  match u.reverse with
  | c :: t => if c = '?' ∨ c = '#' then t.reverse else u
  | [] => u

/-- The `except` branch of `_canonical_url`: older conservative regex
cleanups applied to the stripped URL. -/
def canonicalFallback (u : PyStr) : PyStr :=
  cleanupTrailQH
    (cleanupTrailQAmp
      (Rx.reSub rxTrackEq "?".data (Rx.reSub rxUtmChain [] u)))

/-- `JobService._canonical_url` (tools/jobs.py, urlparse-based variant):
empty/None input gives `""`; otherwise parse the stripped URL, lower-case
scheme and netloc, drop tracking parameters and blank-valued parameters
(`parse_qsl` with `keep_blank_values=False`), re-encode the rest, and drop
the fragment; on a parse error fall back to regex cleanups. -/
def canonical_url (url : Option PyStr) : PyStr :=
  match url with
  | none => []
  | some url0 =>
    if url0 = [] then []
    else
      match Py.urlparseE (Py.pyStrip url0) with
      | .ok pr =>
        let scheme := Py.pyLower pr.scheme
        let netloc := Py.pyLower pr.netloc
        let kept := (Py.parse_qsl pr.query).filter (fun kv => ¬ isTrackingKey kv.1)
        Py.urlunsplit scheme netloc pr.path (Py.urlencode kept) []
      | .error _ => canonicalFallback (Py.pyStrip url0)

/-! ### Salary parsing (`parse_salary_components`, parsing/utils.py)

Regex-driven extraction of one or two numeric tokens (with optional `k`
suffix and thousands separators), a currency symbol, and a periodicity.
All numeric values arising here are integers, modeled as `Nat` (CPython
floats represent them exactly). -/

/-- Digit-string to number. -/
def digitsToNat (s : PyStr) : Nat :=
  s.foldl (fun a c => a * 10 + (c.toNat - 48)) 0

/-- Python `float()` on the strings arising in `parse_salary_components`
(digits with surrounding whitespace); `none` models a `ValueError`. -/
def pyFloatNat (s : PyStr) : Option Nat :=
  let t := Py.pyStrip s
  if t ≠ [] ∧ t.all Py.isAsciiDigit then some (digitsToNat t) else none

/-- `clean_num` (inner helper): `(float(s.strip().rstrip("k").replace(",", "")),
s.strip().endswith("k"))`. -/
def clean_num (s : PyStr) : Option (Nat × Bool) :=
  let st := Py.pyStrip s
  let kflag := Py.endsWith "k".data st
  let s2 := Py.removeChar ',' ((st.reverse.dropWhile (fun c => c = 'k')).reverse)
  (pyFloatNat s2).map (fun v => (v, kflag))

/-- The pattern `(\d+[\d,]*\s*(k)?)` with outer group `g` and inner group
`kIdx`. -/
def rxNum (g kIdx : Nat) : Rx.Matcher :=
  Rx.mGrp g
    (Rx.mSeq (Rx.mPlusCls Py.isAsciiDigit)
      (Rx.mSeq (Rx.mStarCls (fun c => Py.isAsciiDigit c || c = ','))
        (Rx.mSeq (Rx.mStarCls Py.isSpaceChar)
          (Rx.mOpt (Rx.mGrp kIdx (Rx.mCh false 'k'))))))

/-- The range pattern `(\d+[\d,]*\s*(k)?)\s*[-to–]+\s*(\d+[\d,]*\s*(k)?)`. -/
def rxSalaryRange : Rx.Matcher :=
  Rx.mSeq (rxNum 1 2)
    (Rx.mSeq (Rx.mStarCls Py.isSpaceChar)
      (Rx.mSeq (Rx.mPlusCls (fun c => c = '-' || c = 't' || c = 'o' || c = '–'))
        (Rx.mSeq (Rx.mStarCls Py.isSpaceChar) (rxNum 3 4))))

/-- The single-number pattern `(\d+[\d,]*\s*(k)?)`. -/
def rxSalarySingle : Rx.Matcher := rxNum 1 2

/-- Currency from `_CURRENCY_MAP`, checking symbols in dict order against
the original (non-lowered) text. -/
def currencyFromText (text : PyStr) : PyStr :=
  if '$' ∈ text then "USD".data
  else if '£' ∈ text then "GBP".data
  else if '€' ∈ text then "EUR".data
  else []

/-- Periodicity heuristics on the lowered text. -/
def periodOf (t : PyStr) : PyStr :=
  if ["per month".data, "/mo".data, "monthly".data, "per mo".data].any
      (fun p => Py.hasSub t p) then "month".data
  else if ["per hour".data, "/hr".data, "hourly".data, "per hr".data].any
      (fun p => Py.hasSub t p) then "hour".data
  else "year".data

/-- `parse_salary_components(text)` (parsing/utils.py): returns
`(min, max, currency, periodicity, raw)` or `None`.  The text is lowered
and en/em dashes are normalized to `-` before matching. -/
def parse_salary_components (text : PyStr) :
    Option (Nat × Nat × PyStr × PyStr × PyStr) :=
  if text = [] then none
  else
    let t := (Py.pyLower text).map (fun c => if c = '–' ∨ c = '—' then '-' else c)
    let currency := currencyFromText text
    match Rx.search rxSalaryRange t with
    | some (_, _, _, caps) =>
      let g1 := (Rx.capGet caps 1).getD []
      let g3 := (Rx.capGet caps 3).getD []
      (match clean_num g1, clean_num g3 with
       | some (v1, kf1), some (v2, kf2) =>
         some (if kf1 then v1 * 1000 else v1, if kf2 then v2 * 1000 else v2,
               currency, periodOf t, Py.pyStrip text)
       | _, _ => none)
    | none =>
      match Rx.search rxSalarySingle t with
      | some (_, _, _, caps) =>
        let g1 := (Rx.capGet caps 1).getD []
        (match clean_num g1 with
         | some (v, kf) =>
           let val := if kf then v * 1000 else v
           some (val, val, currency, periodOf t, Py.pyStrip text)
         | none => none)
      | none => none

/-! ### HTML document model

The parser strategies consume BeautifulSoup documents.  We model an HTML
document as a list of top-level nodes; an element node carries its tag
name, attribute list and children.  Only the features the embedded code
uses are modeled: CSS selection by tag/class/id/attribute (with one level
of descendant combinator and comma lists, returning matches in document
order), `get_text(sep)` (all descendant strings joined by `sep`),
`find_all`, `find_all_next` (document-order successors), `Tag.string`,
`Tag.parent`, `unwrap`-based sanitization and `decompose`.  BeautifulSoup's
serialize/re-parse round trip (`str(tag)` then `BeautifulSoup(...)`) is
modeled as the identity on nodes, and serialization does not model entity
escaping. -/

inductive HtmlNode where
  | elem (tag : PyStr) (attrs : List (PyStr × PyStr)) (children : List HtmlNode) : HtmlNode
  | text (s : PyStr) : HtmlNode

/-- A document: the top-level nodes of the parsed page. -/
abbrev Doc := List HtmlNode

namespace Dom

/-- Attribute lookup. -/
def attrOf (n : HtmlNode) (k : PyStr) : Option PyStr :=
  match n with
  | .elem _ attrs _ => (attrs.find? (fun kv => kv.1 = k)).map (·.2)
  | .text _ => none

/-- The multi-valued `class` attribute, split on whitespace as
BeautifulSoup does. -/
def classesOf (n : HtmlNode) : List PyStr :=
  match attrOf n "class".data with
  | some v => (Py.splitAllChar ' ' v).filter (fun c => c ≠ [])
  | none => []

/-- Tag name of an element node. -/
def tagOf : HtmlNode → Option PyStr
  | .elem t _ _ => some t
  | .text _ => none

mutual

/-- All descendant strings of a node, in document order. -/
def textsOf : HtmlNode → List PyStr
  | .text s => [s]
  | .elem _ _ c => textsOfList c

def textsOfList : List HtmlNode → List PyStr
  | [] => []
  | n :: t => textsOf n ++ textsOfList t

end

/-- `tag.get_text(sep)`. -/
def getText (sep : PyStr) (n : HtmlNode) : PyStr :=
  List.intercalate sep (textsOf n)

/-- `soup.get_text(sep)` on a whole document. -/
def getTextD (sep : PyStr) (d : Doc) : PyStr :=
  List.intercalate sep (textsOfList d)

mutual

/-- Pre-order listing of the element nodes of a subtree (each entry keeps
its whole subtree; text nodes are traversed via `getText`). -/
def preorder : HtmlNode → List HtmlNode
  | .text _ => []
  | .elem t a c => .elem t a c :: preorderList c

def preorderList : List HtmlNode → List HtmlNode
  | [] => []
  | n :: t => preorder n ++ preorderList t

end

/-- All element nodes of a document in document order; an index into this
list identifies a node (BeautifulSoup object identity). -/
def docOrder (d : Doc) : List HtmlNode := preorderList d

/-- Node at a document-order index. -/
def nodeAt (d : Doc) (i : Nat) : Option HtmlNode := (docOrder d).get? i

/-- Number of element nodes in the subtree rooted at index `i`. -/
def sizeAt (d : Doc) (i : Nat) : Nat :=
  match nodeAt d i with
  | some n => (preorder n).length
  | none => 0

/-- Document-order indices of the proper descendants of index `i`
(pre-order subtrees are contiguous). -/
def descIdx (d : Doc) (i : Nat) : List Nat :=
  List.range' (i + 1) (sizeAt d i - 1)

/-- A simple CSS selector: optional tag, required classes, optional id,
required attribute presences, required attribute values. -/
structure SSel where
  tag : Option PyStr := none
  classes : List PyStr := []
  id : Option PyStr := none
  attrs : List PyStr := []
  attrEq : List (PyStr × PyStr) := []
deriving DecidableEq

/-- A selector component: simple, or descendant-of (`anc s`). -/
inductive CSel where
  | simple (s : SSel) : CSel
  | desc (anc : SSel) (s : SSel) : CSel
deriving DecidableEq

/-- Element match against a simple selector. -/
def matchS (n : HtmlNode) (sel : SSel) : Bool :=
  match n with
  | .text _ => false
  | .elem tag _ _ =>
    (match sel.tag with | none => true | some t => t = tag) &&
    sel.classes.all (fun c => c ∈ classesOf n) &&
    (match sel.id with | none => true | some i => attrOf n "id".data = some i) &&
    sel.attrs.all (fun a => (attrOf n a).isSome) &&
    sel.attrEq.all (fun kv => attrOf n kv.1 = some kv.2)

/-- Does the node match component `cs`, given whether an ancestor already
matched its `anc` part? -/
def selHit (n : HtmlNode) (cs : CSel) (anc : Bool) : Bool :=
  match cs with
  | .simple s => matchS n s
  | .desc _ s => anc && matchS n s

/-- Ancestor-flag update when descending through `n`. -/
def selAncUpd (n : HtmlNode) (cs : CSel) (anc : Bool) : Bool :=
  match cs with
  | .simple _ => anc
  | .desc a _ => anc || matchS n a

mutual

/-- Document-order selection, returning global indices; `i` is the index
of the next element node.  Returns the hits and the index after the
subtree. -/
def selectIdxGo (sels : List CSel) (flags : List Bool) (i : Nat) :
    HtmlNode → List Nat × Nat
  | .text _ => ([], i)
  | .elem t a c =>
    let n := HtmlNode.elem t a c
    let hit := (sels.zip flags).any (fun p => selHit n p.1 p.2)
    let flags' := (sels.zip flags).map (fun p => selAncUpd n p.1 p.2)
    let r := selectIdxGoList sels flags' (i + 1) c
    ((if hit then [i] else []) ++ r.1, r.2)

def selectIdxGoList (sels : List CSel) (flags : List Bool) (i : Nat) :
    List HtmlNode → List Nat × Nat
  | [] => ([], i)
  | n :: t =>
    let r := selectIdxGo sels flags i n
    let r' := selectIdxGoList sels flags r.2 t
    (r.1 ++ r'.1, r'.2)

end

/-- `soup.select(...)` over the whole document, as global indices. -/
def selectIdx (d : Doc) (sels : List CSel) : List Nat :=
  (selectIdxGoList sels (sels.map (fun _ => false)) 0 d).1

/-- `soup.select(...)`, as nodes. -/
def select (d : Doc) (sels : List CSel) : List HtmlNode :=
  (selectIdx d sels).filterMap (nodeAt d)

/-- `soup.select_one(...)`, as a global index. -/
def selectOneIdx (d : Doc) (sels : List CSel) : Option Nat :=
  (selectIdx d sels).head?

/-- `soup.select_one(...)`, as a node. -/
def selectOne (d : Doc) (sels : List CSel) : Option HtmlNode :=
  (selectOneIdx d sels).bind (nodeAt d)

/-- `container.select(...)` for simple selectors: indices of matching
proper descendants of the container index (or a whole-document search when
the container is the soup itself). -/
def selectInIdx (d : Doc) (cont : Option Nat) (sels : List CSel) : List Nat :=
  match cont with
  | none => selectIdx d sels
  | some i =>
    (descIdx d i).filter (fun j =>
      match nodeAt d j with
      | some n => sels.any (fun cs => selHit n cs true)
      | none => false)

/-- `container.find_all(names)`: descendant elements with one of the given
tag names. -/
def findAllInIdx (d : Doc) (cont : Option Nat) (names : List PyStr) : List Nat :=
  selectInIdx d cont (names.map (fun t => CSel.simple { tag := some t }))

/-- `doc.find(name)`: first element with the tag name. -/
def findTag (d : Doc) (name : PyStr) : Option HtmlNode :=
  (docOrder d).find? (fun n => tagOf n = some name)

/-- `doc.find(name, attrs={k: v})`. -/
def findTagAttr (d : Doc) (name k v : PyStr) : Option HtmlNode :=
  (docOrder d).find? (fun n => tagOf n = some name && attrOf n k = some v)

/-- `Tag.string`: the unique string of a chain of single children. -/
def nodeString : HtmlNode → Option PyStr
  | .text s => some s
  | .elem _ _ [c] => nodeString c
  | _ => none

/-- `doc.title`. -/
def titleOf (d : Doc) : Option HtmlNode := findTag d "title".data

/-- `doc.title.string if doc.title and doc.title.string else ...` helper:
the title string when present. -/
def titleString (d : Doc) : Option PyStr :=
  (titleOf d).bind nodeString

/-- `doc.body`. -/
def bodyOf (d : Doc) : Option HtmlNode := findTag d "body".data

/-- `doc.body.get_text(" ") if doc.body else doc.get_text(" ")`. -/
def bodyText (d : Doc) : PyStr :=
  match bodyOf d with
  | some b => getText " ".data b
  | none => getTextD " ".data d

/-- Index of the closest ancestor of index `i` (`Tag.parent`); `none`
means the parent is the soup itself. -/
def parentIdx (d : Doc) (i : Nat) : Option Nat :=
  ((List.range i).filter (fun j => i < j + sizeAt d j)).getLast?

/-- `find_all_next()` from index `i`: all element nodes strictly after `i`
in document order (BeautifulSoup also yields strings, but the embedded
loops only inspect `sib.name`, so elements suffice). -/
def nodesAfter (d : Doc) (i : Nat) : List HtmlNode :=
  (docOrder d).drop (i + 1)

mutual

/-- `decompose()` of every element matching one of the selectors. -/
def removeSel (sels : List CSel) : HtmlNode → List HtmlNode
  | .text s => [.text s]
  | .elem t a c =>
    if sels.any (fun cs => selHit (.elem t a c) cs true) then []
    else [.elem t a (removeSelList sels c)]

def removeSelList (sels : List CSel) : List HtmlNode → List HtmlNode
  | [] => []
  | n :: r => removeSel sels n ++ removeSelList sels r

end

mutual

/-- HTML serialization (`str(tag)`; entity escaping not modeled). -/
def serialize : HtmlNode → PyStr
  | .text s => s
  | .elem t attrs c =>
    '<' :: (t ++ attrs.flatMap (fun kv => ' ' :: (kv.1 ++ '=' :: '"' :: kv.2 ++ ['"'])) ++
      '>' :: serializeList c ++ '<' :: '/' :: t ++ ['>'])

def serializeList : List HtmlNode → PyStr
  | [] => []
  | n :: r => serialize n ++ serializeList r

end

end Dom

/-! ### Content utilities (parsing/utils.py) -/

/-- The sanitizer allow-list. -/
def ALLOWED_TAGS : List PyStr :=
  ["p".data, "ul".data, "ol".data, "li".data, "em".data, "strong".data,
   "br".data, "a".data, "h2".data, "h3".data]

mutual

/-- `sanitize_html` on parsed nodes: unwrap any element not in the
allow-list (keeping its children), keep only `href` on anchors, and strip
all other attributes. -/
def sanitizeNode : HtmlNode → List HtmlNode
  | .text s => [.text s]
  | .elem t attrs c =>
    let c' := sanitizeList c
    if t ∈ ALLOWED_TAGS then
      if t = "a".data then [.elem t (attrs.filter (fun kv => kv.1 = "href".data)) c']
      else [.elem t [] c']
    else c'

def sanitizeList : List HtmlNode → List HtmlNode
  | [] => []
  | n :: r => sanitizeNode n ++ sanitizeList r

end

/-- Replace the UTF-8 mojibake bullet `â€¢` with `•`. -/
def fixBullet : PyStr → PyStr
  | 'â' :: '€' :: '¢' :: rest => '•' :: fixBullet rest
  | c :: rest => c :: fixBullet rest
  | [] => []

/-- Whitespace-run collapsing (`re.sub(r"\s+", " ", ...)`); the flag says
whether the previous character was whitespace. -/
def collapseWs (prev : Bool) : PyStr → PyStr
  | [] => []
  | c :: rest =>
    if Py.isSpaceChar c then
      if prev then collapseWs true rest else ' ' :: collapseWs true rest
    else c :: collapseWs false rest

/-- `normalize_text` (parsing/utils.py). -/
def normalize_text (t : PyStr) : PyStr :=
  Py.pyStrip (collapseWs false (fixBullet t))

/-- Lexicographic order on strings by code point (Python `str` `<`). -/
def lexLe : PyStr → PyStr → Bool
  | [], _ => true
  | _ :: _, [] => false
  | a :: as, b :: bs => if a = b then lexLe as bs else decide (a.toNat < b.toNat)

/-- Insertion into a lex-sorted list. -/
def insertLex (x : PyStr) : List PyStr → List PyStr
  | [] => [x]
  | y :: t => if lexLe x y then x :: y :: t else y :: insertLex x t

/-- Lexicographic sort. -/
def sortLex (l : List PyStr) : List PyStr := l.foldr insertLex []

/-- Python `sorted(set(l))` on strings. -/
def pySortedSet (l : List PyStr) : List PyStr := sortLex l.dedup

/-- `_TECH_DICT` (dict order). -/
def TECH_DICT : List (PyStr × PyStr) :=
  [("typescript".data, "TypeScript".data), ("react".data, "React".data),
   ("node".data, "Node.js".data), ("python".data, "Python".data),
   ("java".data, "Java".data), ("aws".data, "AWS".data),
   ("gcp".data, "GCP".data), ("azure".data, "Azure".data),
   ("kubernetes".data, "Kubernetes".data)]

/-- `extract_tech_stack` (parsing/utils.py). -/
def extract_tech_stack (text : PyStr) : List PyStr :=
  let lowered := Py.pyLower text
  pySortedSet ((TECH_DICT.filter (fun kv => Py.hasSub lowered kv.1)).map (·.2))

/-- `guess_location` (parsing/utils.py). -/
def guess_location (text : PyStr) : PyStr :=
  if Py.hasSub (Py.pyLower text) "remote".data then "Remote".data
  else "Unknown".data

/-- `refine_location` (parsing/utils.py). -/
def refine_location (text : PyStr) (fallback : PyStr) : PyStr :=
  if text = [] then fallback
  else
    let tl := Py.pyLower text
    if Py.hasSub tl "hybrid".data then "Hybrid".data
    else if Py.hasSub tl "remote".data then
      if Py.hasSub tl "eu".data then "EU Remote".data
      else if Py.hasSub tl "us".data ∨ Py.hasSub tl "usa".data ∨
          Py.hasSub tl "united states".data then "US Remote".data
      else if Py.hasSub tl "ca".data ∨ Py.hasSub tl "canada".data then
        "CA Remote".data
      else "Remote".data
    else if Py.hasSub tl "san francisco".data then "San Francisco, CA".data
    else if Py.hasSub tl "new york".data then "New York, NY".data
    else if Py.hasSub tl "london".data then "London, UK".data
    else if Py.hasSub tl "berlin".data then "Berlin, DE".data
    else fallback

/-- `_RESP_KEYS`. -/
def RESP_KEYS : List PyStr :=
  ["responsibilities".data, "what you\x27ll do".data, "what you will do".data,
   "duties".data, "role".data, "what you do".data]

/-- `_REQ_KEYS`. -/
def REQ_KEYS : List PyStr :=
  ["requirements".data, "qualifications".data, "what we\x27re looking for".data,
   "what we are looking for".data, "you have".data, "must have".data,
   "nice to have".data]

/-- `_BEN_KEYS`. -/
def BEN_KEYS : List PyStr :=
  ["benefits".data, "perks".data, "compensation and benefits".data]

/-- `classify_section` (parsing/utils.py). -/
def classify_section (heading : PyStr) : Option PyStr :=
  let h := Py.pyLower (Py.pyStrip heading)
  if h = [] then none
  else if RESP_KEYS.any (fun k => Py.hasSub h k) then some "responsibilities".data
  else if REQ_KEYS.any (fun k => Py.hasSub h k) then some "requirements".data
  else if BEN_KEYS.any (fun k => Py.hasSub h k) then some "benefits".data
  else none

/-- Order-preserving de-duplication (first occurrence kept). -/
def dedupKeepFirstGo (seen : List PyStr) : List PyStr → List PyStr
  | [] => []
  | a :: t =>
    if a ∈ seen then dedupKeepFirstGo seen t
    else a :: dedupKeepFirstGo (a :: seen) t

/-- `extract_list_items_from_html` (parsing/utils.py), on the parsed form
of the html string: text of each `li`, normalized, non-empty, first
occurrences kept. -/
def extract_list_items_from_html (nodes : List HtmlNode) : List PyStr :=
  let items := (Dom.select nodes [.simple { tag := some "li".data }]).map
    (fun li => normalize_text (Dom.getText " ".data li))
  dedupKeepFirstGo [] (items.filter (fun t => t ≠ []))

/-! ### Parsed-job data model (parsing/models.py) -/

/-- `Section`: a classified slice of the document.  `htmlNodes` is the
parsed form of the `html` string (the serialize/re-parse round trip is
modeled as the identity); `html` is the serialized sanitized markup. -/
structure SectionM where
  heading : PyStr
  htmlNodes : Option (List HtmlNode) := none
  html : Option PyStr := none
  text : Option PyStr := none

/-- `SalaryInfo` (numeric fields are exact integers, modeled as `Nat`). -/
structure SalaryInfo where
  min : Option Nat := none
  max : Option Nat := none
  currency : Option PyStr := none
  periodicity : Option PyStr := none
  raw : Option PyStr := none

/-- `CompanyProfile`. -/
structure CompanyProfile where
  name : Option PyStr := none
  tagline : Option PyStr := none
  aboutHtml : Option PyStr := none
  aboutText : Option PyStr := none
  links : List (PyStr × Option PyStr) := []
  locations : List PyStr := []

/-- `ParsedJob` (parsing/models.py). -/
structure ParsedJob where
  id : Option PyStr := none
  source : Option PyStr := none
  url : Option PyStr := none
  title : Option PyStr := none
  company : Option PyStr := none
  location : Option PyStr := none
  postedDate : Option PyStr := none
  salary : Option PyStr := none
  jobType : Option PyStr := none
  remoteOk : Option Bool := none
  tags : List PyStr := []
  descriptionHtml : Option PyStr := none
  descriptionText : Option PyStr := none
  sections : List SectionM := []
  salaryInfo : Option SalaryInfo := none
  requirements : List PyStr := []
  responsibilities : List PyStr := []
  benefits : List PyStr := []
  techStack : List PyStr := []
  seniority : Option PyStr := none
  companyProfile : Option CompanyProfile := none
  parser : Option PyStr := none
  contentScore : Option Nat := none
  warnings : List PyStr := []

/-- `DetectionResult` (parsing/registry.py); all scores are sums of
non-negative signal weights, so `Nat` is faithful. -/
structure DetectionResult where
  score : Nat
  reason : PyStr
deriving DecidableEq

/-- `",".join(reasons) or "no-match"`. -/
def reasonJoin (rs : List PyStr) : PyStr :=
  let j := List.intercalate ",".data rs
  if j = [] then "no-match".data else j

/-! ### Parser strategies (parsing/parsers/) -/

/-- Selector shorthand: by tag. -/
def selTag (t : PyStr) : Dom.CSel := .simple { tag := some t }

/-- Selector shorthand: by class. -/
def selCls (c : PyStr) : Dom.CSel := .simple { classes := [c] }

/-- Selector shorthand: by attribute presence. -/
def selAttr (a : PyStr) : Dom.CSel := .simple { attrs := [a] }

/-- Selector shorthand: by id. -/
def selId (i : PyStr) : Dom.CSel := .simple { id := some i }

/-- Number to decimal string (for `f"..."` interpolations). -/
def natStrAux : Nat → Nat → PyStr
  | 0, _ => []
  | f + 1, n => if n = 0 then [] else natStrAux f (n / 10) ++ [Char.ofNat (48 + n % 10)]

/-- Number to decimal string. -/
def natStr (n : Nat) : PyStr := if n = 0 then ['0'] else natStrAux (n + 1) n

/-- Build a section from collected sibling nodes: the `html` field is
`sanitize_html("\n".join(str(p) for p in parts))` when `parts` is
non-empty (else `None`), and `text` is the normalized text of the
re-parsed html when the html string is truthy. -/
def mkSectionParts (heading : PyStr) (parts : List HtmlNode) : SectionM :=
  if parts.isEmpty then { heading := heading }
  else
    let nodes := sanitizeList (List.intersperse (HtmlNode.text "\n".data) parts)
    let htmlStr := Dom.serializeList nodes
    let textVal :=
      if htmlStr ≠ [] then some (normalize_text (Dom.getTextD " \n".data nodes))
      else none
    { heading := heading, htmlNodes := some nodes, html := some htmlStr,
      text := textVal }

/-- The tags collected between headings: `("div", "p", "ul", "ol", "li")`. -/
def isBlockTag (n : HtmlNode) : Bool :=
  Dom.tagOf n ∈ [some "div".data, some "p".data, some "ul".data,
    some "ol".data, some "li".data]

/-- Walk `find_all_next()` from heading index `h`, stopping at the first
node satisfying `stop`, collecting block-level nodes (`str(sib)`). -/
def collectParts (d : Doc) (h : Nat) (stop : HtmlNode → Bool) : List HtmlNode :=
  ((Dom.nodesAfter d h).takeWhile (fun n => ¬ stop n)).filter isBlockTag

/-- The standard stop condition: the next `h2`/`h3`. -/
def stdStop (n : HtmlNode) : Bool :=
  Dom.tagOf n = some "h2".data || Dom.tagOf n = some "h3".data

/-- The shared section loop over heading indices: heading text is
normalized `get_text(" ")`; a section is kept when
`heading or html or text`. -/
def sectionsAt (d : Doc) (headIdxs : List Nat) (stop : HtmlNode → Bool) :
    List SectionM :=
  headIdxs.filterMap (fun h =>
    match Dom.nodeAt d h with
    | none => none
    | some hn =>
      let heading := normalize_text (Dom.getText " ".data hn)
      let s := mkSectionParts heading (collectParts d h stop)
      if heading ≠ [] ∨ Py.truthy s.html ∨ Py.truthy s.text then some s
      else none)

/-- `"\n\n".join([s.text for s in sections if s.text]) or None` (and the
analogue for html). -/
def joinOrNone (sep : PyStr) (parts : List PyStr) : Option PyStr :=
  let j := List.intercalate sep parts
  if j = [] then none else some j

/-- Description text from sections. -/
def descTextOf (sections : List SectionM) : Option PyStr :=
  joinOrNone "\n\n".data ((sections.filterMap (·.text)).filter (fun t => t ≠ []))

/-- Description html from sections. -/
def descHtmlOf (sections : List SectionM) : Option PyStr :=
  joinOrNone "\n".data ((sections.filterMap (·.html)).filter (fun t => t ≠ []))

/-- The shared vendor scoring rubric: title +25, company +15, description
longer than 120 characters +40, any section +20, capped at 100. -/
def vendorScore (title company descriptionText : Option PyStr)
    (sections : List SectionM) : Nat :=
  let descLong : Bool :=
    match descriptionText with
    | some t => decide (t.length > 120)
    | none => false
  min 100
    ((if Py.truthy title then 25 else 0) + (if Py.truthy company then 15 else 0) +
      (if descLong then 40 else 0) + (if sections.isEmpty then 0 else 20))

/-- The shared list-classification loop: requirements, responsibilities
and benefits collected from classified sections. -/
def classifiedLists (sections : List SectionM) :
    List PyStr × List PyStr × List PyStr :=
  sections.foldl
    (fun acc s =>
      match classify_section s.heading, s.htmlNodes with
      | some kind, some nodes =>
        if ¬ Py.truthy s.html then acc
        else
          let items := extract_list_items_from_html nodes
          if items = [] then acc
          else if kind = "requirements".data then (acc.1 ++ items, acc.2.1, acc.2.2)
          else if kind = "responsibilities".data then (acc.1, acc.2.1 ++ items, acc.2.2)
          else (acc.1, acc.2.1, acc.2.2 ++ items)
      | _, _ => acc)
    ([], [], [])

/-- `techStack` backfill: only when the description text is truthy. -/
def techStackOf (descriptionText : Option PyStr) : List PyStr :=
  match descriptionText with
  | some t => if t ≠ [] then extract_tech_stack t else []
  | none => []

/-! #### Hub/form strategy (hub_form.py) -/

/-- The `job_card_selectors` of `HubOrFormParser.detect`. -/
def jobCardSelectors : List (List Dom.CSel) :=
  [[selCls "job-card".data], [selCls "jobs-list".data], [selAttr "data-job".data],
   [selAttr "data-job-card".data], [selCls "careers-list".data],
   [selCls "openings".data], [selCls "positions".data]]

/-- `HubOrFormParser.detect`: +30 for job-card-like containers, +25 for a
form-heavy page with little body copy. -/
def hubDetect (url : PyStr) (d : Doc) : DetectionResult :=
  let _ := url
  let has_cards := jobCardSelectors.any (fun s => ¬ (Dom.selectIdx d s).isEmpty)
  let form_gated :=
    ¬ (Dom.selectIdx d [selTag "form".data]).isEmpty ∧
      (normalize_text (Dom.bodyText d)).length < 600
  ⟨(if has_cards then 30 else 0) + (if form_gated then 25 else 0),
   reasonJoin ((if has_cards then ["job-cards".data] else []) ++
     (if form_gated then ["form-gated".data] else []))⟩

/-- The fixed guidance message of `HubOrFormParser.parse`. -/
def hubMessage : PyStr :=
  ("This page appears to list multiple jobs or requires a form/application " ++
   "before viewing a detailed job description. Please select a specific job " ++
   "posting link to retrieve a full description.").data

/-- `HubOrFormParser.parse`: a low-information record carrying the
`hub_or_form_detected` warning. -/
def hubParse (url : PyStr) (d : Doc) : ParsedJob :=
  let company : Option PyStr :=
    match Dom.titleString d with
    | some t => (((Py.splitAllChar '-' t).map Py.pyStrip).filter (fun p => p ≠ [])).head?
    | none => none
  { parser := some "redirect_hub".data, url := some url,
    companyProfile := some { name := company, links := [] },
    descriptionText := some hubMessage,
    sections := [{ heading := "Overview".data, text := some hubMessage }],
    contentScore := some 20,
    warnings := ["hub_or_form_detected".data] }

/-! #### Generic fallback strategy (generic.py) -/

/-- `GenericHtmlParser.detect`: 10 when the body text exceeds 200
characters, else 0. -/
def genericDetect (url : PyStr) (d : Doc) : DetectionResult :=
  let _ := url
  let text_len := (Dom.bodyText d).length
  ⟨if text_len > 200 then 10 else 0, "text_len=".data ++ natStr text_len⟩

/-- Index of `doc.body` (for container fallbacks). -/
def docIdxOfBody (d : Doc) : Option Nat :=
  (Dom.docOrder d).findIdx? (fun n => Dom.tagOf n = some "body".data)

/-- `GenericHtmlParser._largest_text_container`: the element among
article/main/section/div candidates (excluding nav/footer/header/menu/
cookie class hints) with the greatest text length; else `doc.body`; else
the whole document (`none`). -/
def largestTextContainer (d : Doc) : Option Nat :=
  let cands := Dom.findAllInIdx d none
    ["article".data, "main".data, "section".data, "div".data]
  let best := cands.foldl
    (fun acc j =>
      match Dom.nodeAt d j with
      | none => acc
      | some n =>
        let cls := List.intercalate " ".data (Dom.classesOf n)
        if ["nav".data, "footer".data, "header".data, "menu".data,
            "cookie".data].any (fun x => Py.hasSub cls x) then acc
        else
          let l := (Dom.getText " ".data n).length
          match acc with
          | some bl => if l > bl.2 then some (j, l) else acc
          | none => if l > 0 then some (j, l) else none)
    none
  match best with
  | some bl => some bl.1
  | none => (docIdxOfBody d)

/-- `container.get_text(" ")` where `none` is the whole soup. -/
def contText (d : Doc) (cont : Option Nat) : PyStr :=
  match cont with
  | some i =>
    match Dom.nodeAt d i with
    | some n => Dom.getText " ".data n
    | none => []
  | none => Dom.getTextD " ".data d

/-- `GenericHtmlParser.parse`. -/
def genericParse (url : PyStr) (d : Doc) : ParsedJob :=
  let title : Option PyStr :=
    match Dom.selectOne d [selTag "h1".data, selTag "h2".data] with
    | some h => some (normalize_text (Dom.getText " ".data h))
    | none => (Dom.titleString d).map normalize_text
  let container := largestTextContainer d
  let headings := Dom.selectInIdx d container [selTag "h2".data, selTag "h3".data]
  let sections :=
    if headings ≠ [] then sectionsAt d headings stdStop
    else
      let blocks := (Dom.selectInIdx d container
        [selTag "p".data, selTag "ul".data, selTag "ol".data,
         selTag "li".data]).filterMap (Dom.nodeAt d)
      if blocks.isEmpty then []
      else
        let s := mkSectionParts (Py.pyOrS title "Description".data) blocks
        if Py.truthy s.html ∨ Py.truthy s.text then [s] else []
  let descriptionText := descTextOf sections
  let descLong : Bool :=
    match descriptionText with
    | some t => decide (t.length > 200)
    | none => false
  let score :=
    min 100
      ((if Py.truthy title then 15 else 0) + (if descLong then 60 else 0) +
        (if sections.isEmpty then 0 else 25))
  { parser := some "generic_html".data, url := some url, title := title,
    sections := sections, descriptionText := descriptionText,
    descriptionHtml := descHtmlOf sections,
    techStack := techStackOf descriptionText,
    contentScore := some score }

/-! #### YC strategy (yc.py) -/

/-- Text before the first occurrence of a separator
(`s.split(sep)[0]` for a multi-character separator). -/
def subSplitHead (sep : PyStr) : PyStr → PyStr
  | [] => []
  | c :: t => if Py.startsWith sep (c :: t) then [] else c :: subSplitHead sep t

/-- `page_title = (doc.title.string or "") if doc.title else ""`. -/
def pageTitle (d : Doc) : PyStr :=
  match Dom.titleOf d with
  | some n => (Dom.nodeString n).getD []
  | none => []

/-- `YcJobParser.detect`: +60 for a YC company-job URL, +25/+15 for the YC
DOM signatures. -/
def ycDetect (url : PyStr) (d : Doc) : DetectionResult :=
  let urlHit := Py.hasSub url "ycombinator.com/companies/".data ∧
    Py.hasSub url "/jobs/".data
  let h1Hit := (Dom.selectOneIdx d
    [.simple { tag := some "h1".data,
               classes := ["ycdc-section-title".data, "mb-2".data] }]).isSome
  let proseHit := (Dom.selectOneIdx d
    [.simple { tag := some "div".data,
               classes := ["prose".data, "max-w-full".data] }]).isSome
  ⟨(if urlHit then 60 else 0) + (if h1Hit then 25 else 0) +
     (if proseHit then 15 else 0),
   reasonJoin ((if urlHit then ["url-match".data] else []) ++
     (if h1Hit then ["h1.ycdc-section-title".data] else []) ++
     (if proseHit then ["div.prose.max-w-full".data] else []))⟩

/-- The YC section stop: the next `h2.ycdc-section-title`. -/
def ycStop (n : HtmlNode) : Bool :=
  Dom.tagOf n = some "h2".data && "ycdc-section-title".data ∈ Dom.classesOf n

/-- `YcJobParser.parse`. -/
def ycParse (url : PyStr) (d : Doc) : ParsedJob :=
  let company : Option PyStr :=
    match Dom.selectOne d
      [.simple { tag := some "div".data, classes := ["space-y-1".data] }] with
    | some blk =>
      let v := Py.pyStrip (subSplitHead " · ".data
        (normalize_text (Dom.getText " ".data blk)))
      if v ≠ [] then some v else none
    | none => none
  let h1 := Dom.selectOneIdx d
    [.simple { tag := some "h1".data,
               classes := ["ycdc-section-title".data, "mb-2".data] }]
  let title : Option PyStr :=
    (h1.bind (Dom.nodeAt d)).map (fun n => normalize_text (Dom.getText " ".data n))
  let location : Option PyStr :=
    match h1 with
    | some i =>
      some (guess_location (normalize_text (contText d (Dom.parentIdx d i))))
    | none => none
  let sections := sectionsAt d
    (Dom.selectIdx d
      [.simple { tag := some "h2".data, classes := ["ycdc-section-title".data] }])
    ycStop
  let descriptionText := descTextOf sections
  { parser := some "yc_job".data, url := some url,
    source := some "Y Combinator".data, company := company, title := title,
    location := location, sections := sections,
    descriptionText := descriptionText, descriptionHtml := descHtmlOf sections,
    techStack := techStackOf descriptionText,
    contentScore := some (vendorScore title company descriptionText sections) }

/-! #### Ashby strategy (ashby.py) -/

/-- `AshbyJobParser.detect`. -/
def ashbyDetect (url : PyStr) (d : Doc) : DetectionResult :=
  let urlHit := Py.hasSub url "ashbyhq.com".data ∨ Py.hasSub url "/careers/".data ∨
    Py.hasSub (Py.pyLower ((Dom.titleString d).getD [])) "ashby".data
  let contHit := (Dom.selectOneIdx d
    [selCls "job-posting".data, selAttr "data-ashby-job-posting".data]).isSome
  let h1Hit := (Dom.selectOneIdx d [selTag "h1".data]).isSome
  let mainHit := (Dom.selectOneIdx d
    [selTag "main".data, selTag "article".data, selCls "content".data]).isSome
  ⟨(if urlHit then 30 else 0) + (if contHit then 40 else 0) +
     (if h1Hit then 10 else 0) + (if mainHit then 10 else 0),
   reasonJoin ((if urlHit then ["url/domain".data] else []) ++
     (if contHit then ["job-posting container".data] else []) ++
     (if h1Hit then ["has h1".data] else []) ++
     (if mainHit then ["content container".data] else []))⟩

/-- `parts = [p.strip() for p in page_title.split("-") if p.strip()]`. -/
def titleParts (page_title : PyStr) : List PyStr :=
  ((Py.splitAllChar '-' page_title).map Py.pyStrip).filter (fun p => p ≠ [])

/-- `AshbyJobParser.parse`. -/
def ashbyParse (url : PyStr) (d : Doc) : ParsedJob :=
  let title : Option PyStr :=
    (Dom.selectOne d [selTag "h1".data]).map
      (fun n => normalize_text (Dom.getText " ".data n))
  let pt := pageTitle d
  let company : Option PyStr :=
    if pt ≠ [] then
      let parts := titleParts pt
      if parts.length ≥ 2 then parts.get? 1 else none
    else none
  let container := Dom.selectOneIdx d
    [selCls "job-posting".data, selAttr "data-ashby-job-posting".data,
     selTag "main".data, selTag "article".data, selCls "content".data]
  let sections := sectionsAt d
    (Dom.selectInIdx d container [selTag "h2".data, selTag "h3".data]) stdStop
  let descriptionText := descTextOf sections
  let location : Option PyStr := some (guess_location (contText d container))
  let lists := classifiedLists sections
  { parser := some "ashby_job".data, url := some url,
    source := some "Ashby".data, title := title, company := company,
    location := location, sections := sections,
    descriptionText := descriptionText, descriptionHtml := descHtmlOf sections,
    techStack := techStackOf descriptionText,
    requirements := lists.1, responsibilities := lists.2.1,
    benefits := lists.2.2,
    contentScore := some (vendorScore title company descriptionText sections) }

/-! #### Company-profile helpers referenced by the Lever and Greenhouse
strategies.  They are imported from `parsing/utils.py`, but that module
does not define them in the source snapshot; they are modeled from the
spec's description of `CompanyProfile`. -/

/-- Modelled from the spec: `extract_company_links` (missing from
parsing/utils.py in the snapshot).  `CompanyProfile.links` is a map
`linkType -> url` over careers/website/linkedin/twitter; each link type is
filled with the first anchor href mentioning it (the first href overall
for `website`). -/
def extract_company_links (d : Doc) : List (PyStr × Option PyStr) :=
  let hrefs := (Dom.docOrder d).filterMap (fun n =>
    if Dom.tagOf n = some "a".data then Dom.attrOf n "href".data else none)
  let pick := fun (key : PyStr) => hrefs.find? (fun h => Py.hasSub (Py.pyLower h) key)
  [("careers".data, pick "careers".data), ("website".data, hrefs.head?),
   ("linkedin".data, pick "linkedin".data), ("twitter".data, pick "twitter".data)]

/-- Modelled from the spec: `extract_company_tagline` (missing from
parsing/utils.py in the snapshot); the company tagline, taken from the
page's meta description. -/
def extract_company_tagline (d : Doc) : Option PyStr :=
  (Dom.findTagAttr d "meta".data "name".data "description".data).bind
    (fun n => Dom.attrOf n "content".data)

/-- Modelled from the spec: `find_about_company` (missing from
parsing/utils.py in the snapshot); the `(aboutText, aboutHtml)` of the
first section whose heading mentions the company background. -/
def find_about_company (sections : List SectionM) : Option PyStr × Option PyStr :=
  match sections.find? (fun s => Py.hasSub (Py.pyLower s.heading) "about".data) with
  | some s => (s.text, s.html)
  | none => (none, none)

/-! #### Lever strategy (lever.py) -/

/-- `LeverJobParser.detect`. -/
def leverDetect (url : PyStr) (d : Doc) : DetectionResult :=
  let urlHit := Py.hasSub url "jobs.lever.co".data ∨ Py.hasSub url "lever.co".data
  let postingHit := (Dom.selectOneIdx d [selCls "posting".data]).isSome
  let headlineHit := (Dom.selectOneIdx d [selCls "posting-headline".data]).isSome
  let sectionHit := (Dom.selectOneIdx d
    [selCls "section".data, selCls "posting-description".data]).isSome
  ⟨(if urlHit then 40 else 0) + (if postingHit then 30 else 0) +
     (if headlineHit then 10 else 0) + (if sectionHit then 10 else 0),
   reasonJoin ((if urlHit then ["domain".data] else []) ++
     (if postingHit then [".posting container".data] else []) ++
     (if headlineHit then [".posting-headline".data] else []) ++
     (if sectionHit then ["content section".data] else []))⟩

/-- Convert a `parse_salary_components` result into a `SalaryInfo`. -/
def salaryInfoOf (sal : Nat × Nat × PyStr × PyStr × PyStr) : SalaryInfo :=
  { min := some sal.1, max := some sal.2.1, currency := some sal.2.2.1,
    periodicity := some sal.2.2.2.1, raw := some sal.2.2.2.2 }

/-- `LeverJobParser.parse`. -/
def leverParse (url : PyStr) (d : Doc) : ParsedJob :=
  let headline := Dom.selectOneIdx d [selCls "posting-headline".data]
  let title : Option PyStr :=
    ((Dom.selectInIdx d headline [selTag "h2".data, selTag "h1".data]).head?.bind
      (Dom.nodeAt d)).map (fun n => normalize_text (Dom.getText " ".data n))
  let pt := pageTitle d
  let company : Option PyStr :=
    if pt ≠ [] then
      let parts := titleParts pt
      if parts.length ≥ 2 then parts.getLast? else none
    else none
  let container :=
    match Dom.selectOneIdx d [selCls "posting".data] with
    | some i => some i
    | none => Dom.selectOneIdx d [selCls "posting-description".data]
  let sections := sectionsAt d
    (Dom.selectInIdx d container [selTag "h2".data, selTag "h3".data]) stdStop
  let descriptionText := descTextOf sections
  let htxt := contText d headline
  let location0 : Option PyStr :=
    if htxt ≠ [] then some (guess_location htxt) else none
  let meta := (normalize_text htxt).take 300
  let sal := parse_salary_components meta
  let location := some (refine_location meta (Py.pyOrS location0 "Unknown".data))
  let lists := classifiedLists sections
  { parser := some "lever_job".data, url := some url,
    source := some "Lever".data, title := title, company := company,
    location := location, sections := sections,
    descriptionText := descriptionText, descriptionHtml := descHtmlOf sections,
    salaryInfo := sal.map salaryInfoOf,
    techStack := techStackOf descriptionText,
    requirements := lists.1, responsibilities := lists.2.1,
    benefits := lists.2.2,
    contentScore := some (vendorScore title company descriptionText sections),
    companyProfile := some
      { name := company, tagline := extract_company_tagline d,
        aboutText := (find_about_company sections).1,
        aboutHtml := (find_about_company sections).2,
        links := extract_company_links d,
        locations := match location with
          | some l => if l ≠ [] then [l] else []
          | none => [] } }

/-! #### Greenhouse strategy (greenhouse.py) -/

/-- `GreenhouseJobParser.detect`. -/
def greenhouseDetect (url : PyStr) (d : Doc) : DetectionResult :=
  let urlHit := Py.hasSub url "greenhouse.io".data ∨
    Py.hasSub url "boards.greenhouse".data
  let contHit := (Dom.selectOneIdx d
    [selId "app".data, selCls "app".data, selCls "content".data,
     selCls "application".data, selCls "opening".data, selCls "job".data]).isSome
  let headingHit := (Dom.selectOneIdx d [selTag "h1".data, selTag "h2".data]).isSome
  ⟨(if urlHit then 40 else 0) + (if contHit then 30 else 0) +
     (if headingHit then 10 else 0),
   reasonJoin ((if urlHit then ["domain".data] else []) ++
     (if contHit then ["app/content container".data] else []) ++
     (if headingHit then ["has heading".data] else []))⟩

/-- The chrome-stripping selectors of `GreenhouseJobParser.parse`. -/
def ghStripSels : List Dom.CSel :=
  [selTag "nav".data, selTag "header".data, selTag "footer".data,
   selTag "form".data, selTag "aside".data,
   .simple { attrEq := [("role".data, "dialog".data)] },
   selCls "overlay".data, selCls "modal".data, selCls "application".data,
   selCls "apply".data, selCls "field".data, selCls "input".data,
   selCls "select".data]

/-- The Greenhouse container preference chain. -/
def ghContainer (d : Doc) : Option Nat :=
  let try1 := fun (sels : List Dom.CSel) => Dom.selectOneIdx d sels
  match try1 [.desc { classes := ["content".data] } { classes := ["body".data] }] with
  | some i => some i
  | none =>
  match try1 [.desc { classes := ["content".data] } { classes := ["section".data] }] with
  | some i => some i
  | none =>
  match try1 [.desc { classes := ["application".data] } { classes := ["content".data] }] with
  | some i => some i
  | none =>
  match try1 [.desc { classes := ["opening".data] } { classes := ["content".data] }] with
  | some i => some i
  | none =>
  match try1 [.desc { classes := ["job".data] } { classes := ["content".data] }] with
  | some i => some i
  | none =>
  match try1 [selId "content".data] with
  | some i => some i
  | none =>
  match try1 [selCls "job-posting".data] with
  | some i => some i
  | none =>
  match try1 [.desc { tag := some "article".data } { classes := ["content".data] }] with
  | some i => some i
  | none => try1 [selCls "content".data]

/-- The keyword anchors of the Greenhouse pseudo-section fallback. -/
def ghKeywords : List PyStr :=
  ["Responsibilities".data, "Qualifications".data, "Requirements".data,
   "Benefits".data, "Perks".data]

/-- The pseudo-section stop condition: the next strong/heading/rule. -/
def ghPseudoStop (n : HtmlNode) : Bool :=
  Dom.tagOf n ∈ [some "strong".data, some "b".data, some "h2".data,
    some "h3".data, some "h4".data, some "h5".data, some "hr".data]

/-- `GreenhouseJobParser.parse`. -/
def greenhouseParse (url : PyStr) (d : Doc) : ParsedJob :=
  let title : Option PyStr :=
    (Dom.selectOne d [selTag "h1".data, selTag "h2".data]).map
      (fun n => normalize_text (Dom.getText " ".data n))
  let pt := pageTitle d
  let company0 : Option PyStr :=
    if pt ≠ [] then
      let parts := titleParts pt
      if parts.length ≥ 2 then parts.getLast? else none
    else none
  let d' := Dom.removeSelList ghStripSels d
  let container := ghContainer d'
  let sections1 := sectionsAt d'
    (Dom.selectInIdx d' container [selTag "h2".data, selTag "h3".data]) stdStop
  let sections2 :=
    if ¬ sections1.isEmpty then sections1
    else
      (Dom.findAllInIdx d' container
        ["strong".data, "b".data, "h4".data, "h5".data, "p".data]).filterMap
        (fun tb =>
          match Dom.nodeAt d' tb with
          | none => none
          | some tbn =>
            let t := normalize_text (Dom.getText " ".data tbn)
            match ghKeywords.find? (fun kw => Py.hasSub (Py.pyLower t) (Py.pyLower kw)) with
            | some kw =>
              let s := mkSectionParts kw (collectParts d' tb ghPseudoStop)
              if Py.truthy s.html ∨ Py.truthy s.text then some s else none
            | none => none)
  let sections :=
    if ¬ sections2.isEmpty then sections2
    else
      let lists := (Dom.selectInIdx d' container [selTag "ul".data, selTag "ol".data]).take 3
      ((List.range lists.length).zip lists).filterMap (fun il =>
        match Dom.nodeAt d' il.2 with
        | none => none
        | some ln =>
          let s := mkSectionParts ("List ".data ++ natStr (il.1 + 1)) [ln]
          match s.text with
          | some t => if t ≠ [] ∧ t.length > 60 then some s else none
          | none => none)
  let descriptionText := descTextOf sections
  let ctxt := contText d' container
  let loc0 : Option PyStr := if ctxt ≠ [] then some (guess_location ctxt) else none
  let meta := (normalize_text ctxt).take 300
  let sal := parse_salary_components meta
  let location := some (refine_location meta (Py.pyOrS loc0 "Unknown".data))
  let company1 : Option PyStr :=
    if ¬ Py.truthy company0 then
      match Dom.titleString d' with
      | some pt' =>
        let parts := titleParts pt'
        if parts.length ≥ 2 then parts.getLast? else company0
      | none => company0
    else company0
  let company : Option PyStr :=
    if ¬ Py.truthy company1 then
      match Dom.findTagAttr d' "meta".data "property".data "og:site_name".data with
      | some og =>
        (match Dom.attrOf og "content".data with
         | some c =>
           if c ≠ [] then
             let v := normalize_text c
             if v ≠ [] then some v else company1
           else company1
         | none => company1)
      | none => company1
    else company1
  let lists := classifiedLists sections
  { parser := some "greenhouse_job".data, url := some url,
    source := some "Greenhouse".data, title := title, company := company,
    location := location, sections := sections,
    descriptionText := descriptionText, descriptionHtml := descHtmlOf sections,
    salaryInfo := sal.map salaryInfoOf,
    techStack := techStackOf descriptionText,
    requirements := lists.1, responsibilities := lists.2.1,
    benefits := lists.2.2,
    contentScore := some (vendorScore title company descriptionText sections),
    companyProfile := some
      { name := company, tagline := extract_company_tagline d',
        aboutText := (find_about_company sections).1,
        aboutHtml := (find_about_company sections).2,
        links := extract_company_links d',
        locations := match location with
          | some l => if l ≠ [] then [l] else []
          | none => [] } }

/-! ### Parser registry (parsing/registry.py) -/

/-- A registered strategy: `detect` may raise (`Except.error`), `parse`
produces a `ParsedJob`. -/
structure ParserM where
  name : PyStr
  detect : PyStr → Doc → Except PyStr DetectionResult
  parse : PyStr → Doc → ParsedJob

/-- The registry loop's view of `detect`: an exception becomes a
zero-score `DetectionResult`. -/
def effDetect (p : ParserM) (url : PyStr) (d : Doc) : DetectionResult :=
  match p.detect url d with
  | .ok dr => dr
  | .error e => ⟨0, "detect error: ".data ++ e⟩

/-- The fold of `ParserRegistry.choose`: keep the strictly higher score,
so the first-registered strategy wins ties. -/
def chooseGo (url : PyStr) (d : Doc) :
    Option (ParserM × DetectionResult) → List ParserM →
    Option (ParserM × DetectionResult)
  | best, [] => best
  | best, p :: rest =>
    let dr := effDetect p url d
    let best' :=
      match best with
      | none => some (p, dr)
      | some b => if dr.score > b.2.score then some (p, dr) else best
    chooseGo url d best' rest

/-- `ParserRegistry.choose`: `none` only for an empty registry (the
`assert` case). -/
def choose (ps : List ParserM) (url : PyStr) (d : Doc) :
    Option (ParserM × DetectionResult) :=
  chooseGo url d none ps

/-- The YC strategy as registered. -/
def ycStrategy : ParserM :=
  ⟨"yc_job".data, fun u d => .ok (ycDetect u d), ycParse⟩

/-- The Ashby strategy as registered. -/
def ashbyStrategy : ParserM :=
  ⟨"ashby_job".data, fun u d => .ok (ashbyDetect u d), ashbyParse⟩

/-- The Lever strategy as registered. -/
def leverStrategy : ParserM :=
  ⟨"lever_job".data, fun u d => .ok (leverDetect u d), leverParse⟩

/-- The Greenhouse strategy as registered. -/
def greenhouseStrategy : ParserM :=
  ⟨"greenhouse_job".data, fun u d => .ok (greenhouseDetect u d), greenhouseParse⟩

/-- The generic fallback strategy as registered. -/
def genericStrategy : ParserM :=
  ⟨"generic_html".data, fun u d => .ok (genericDetect u d), genericParse⟩

/-- The hub/form strategy (defined but not registered by
`JobService.parse_job_url`). -/
def hubStrategy : ParserM :=
  ⟨"redirect_hub".data, fun u d => .ok (hubDetect u d), hubParse⟩

/-- The registry built by `JobService.parse_job_url`
(services/job_service.py): vendor strategies first, generic last. -/
def serviceRegistry : List ParserM :=
  [ycStrategy, ashbyStrategy, leverStrategy, greenhouseStrategy, genericStrategy]

/-- All strategy implementations shipped in parsing/parsers/. -/
def allStrategies : List ParserM :=
  [ycStrategy, ashbyStrategy, leverStrategy, greenhouseStrategy,
   genericStrategy, hubStrategy]

/-! ### Job postings (models/job.py) -/

/-- `JobPosting` (models/job.py).  `posted_date` is kept opaque. -/
structure JobPosting where
  id : Option PyStr := none
  source : PyStr := []
  url : PyStr := []
  title : PyStr := []
  company : PyStr := "Unknown".data
  location : PyStr := "Unknown".data
  description : PyStr := []
  posted_date : Option PyStr := none
  salary : Option PyStr := none
  job_type : Option PyStr := none
  remote_ok : Bool := false
  requirements : List PyStr := []
  seniority : Option PyStr := none
  tags : List PyStr := []
  raw_html : Option PyStr := none
  source_key : Option PyStr := none
deriving DecidableEq

/-- `JobPosting.__post_init__`: empty `title`, `company`, `source` fall
back to the sentinels "Job Posting" / "Unknown Company" / "Unknown".  The
id backfill (`generate_fallback_id`, a process-salted string hash) is not
modeled; no claim depends on `id`. -/
def jobPostingInit (j : JobPosting) : JobPosting :=
  { j with
    title := if j.title = [] then "Job Posting".data else j.title,
    company := if j.company = [] then "Unknown Company".data else j.company,
    source := if j.source = [] then "Unknown".data else j.source }

/-! ### Dedupe/merge (`JobService._dedupe_jobs_merge_tags`, tools/jobs.py) -/

/-- The dedupe key: `(j.source or "", self._canonical_url(j.url))`
(`j.source or ""` is the identity on our string model). -/
def jobKey (j : JobPosting) : PyStr × PyStr :=
  (j.source, canonical_url (some j.url))

/-- The in-place merge of a later duplicate into the kept record
(tools/jobs.py lines 608-614): tags become the sorted union, `remote_ok`
the disjunction, and `location`/`company` are backfilled only when
currently unset or the sentinel "Unknown" and the incoming value is
non-sentinel. -/
def mergeDup (keep j : JobPosting) : JobPosting :=
  { keep with
    tags := pySortedSet (keep.tags ++ j.tags),
    remote_ok := keep.remote_ok || j.remote_ok,
    location :=
      if (keep.location = [] ∨ keep.location = "Unknown".data) ∧
          j.location ≠ [] ∧ j.location ≠ "Unknown".data then j.location
      else keep.location,
    company :=
      if (keep.company = [] ∨ keep.company = "Unknown".data) ∧
          j.company ≠ [] ∧ j.company ≠ "Unknown".data then j.company
      else keep.company }

/-- Index lookup in the `seen` association list. -/
def lookupKey (k : PyStr × PyStr) : List ((PyStr × PyStr) × Nat) → Option Nat
  | [] => none
  | kv :: t => if kv.1 = k then some kv.2 else lookupKey k t

/-- The loop of `_dedupe_jobs_merge_tags`: `seen` maps keys to positions
in `out`; a known key merges into `out[idx]`, a new key appends. -/
def dedupeGo (seen : List ((PyStr × PyStr) × Nat)) (out : List JobPosting) :
    List JobPosting → List JobPosting
  | [] => out
  | j :: rest =>
    match lookupKey (jobKey j) seen with
    | some idx =>
      (match out.get? idx with
       | some keep => dedupeGo seen (out.set idx (mergeDup keep j)) rest
       | none => dedupeGo seen out rest)
    | none => dedupeGo (seen ++ [(jobKey j, out.length)]) (out ++ [j]) rest

/-- `JobService._dedupe_jobs_merge_tags` (tools/jobs.py). -/
def dedupe_jobs_merge_tags (jobs : List JobPosting) : List JobPosting :=
  dedupeGo [] [] jobs

/-- Distinct keys in first-occurrence order (worker). -/
def firstKeysGo (seen : List (PyStr × PyStr)) :
    List (PyStr × PyStr) → List (PyStr × PyStr)
  | [] => []
  | k :: t =>
    if k ∈ seen then firstKeysGo seen t else k :: firstKeysGo (k :: seen) t

/-- Distinct keys in first-occurrence order. -/
def firstKeys (l : List (PyStr × PyStr)) : List (PyStr × PyStr) :=
  firstKeysGo [] l

/-- Fold a non-empty same-key group: the first occurrence is kept and
every later occurrence is merged into it, in order. -/
def mergeFold : List JobPosting → JobPosting
  | [] => {}
  | f :: r => r.foldl mergeDup f

/-- The claim's specification shape for deduplication: group records by
`(source, canonicalUrl)`, keep groups in first-occurrence order, and merge
each group left-to-right into its first record. -/
def dedupeByKeySpec (jobs : List JobPosting) : List JobPosting :=
  (firstKeys (jobs.map jobKey)).map
    (fun k => mergeFold (jobs.filter (fun j => jobKey j = k)))

/-! ### `JobService.parse_job_url` (services/job_service.py), registry path -/

/-- `use_yc_parser`: a YC company job URL. -/
def use_yc (url : PyStr) : Bool :=
  Py.hasSub url "ycombinator.com/companies/".data && Py.hasSub url "/jobs/".data

/-- The description cap: over 5000 characters is cut to the first 5000
plus `"..."`. -/
def truncateDesc (description : PyStr) : PyStr :=
  if description ≠ [] ∧ description.length > 5000 then
    description.take 5000 ++ "...".data
  else description

/-- The projection of a `ParsedJob` into a `JobPosting` performed by
`parse_job_url` (services/job_service.py lines 199-212), including the
description truncation and the `__post_init__` normalization. -/
def jobPostingOfParsed (url : PyStr) (parsed : ParsedJob) : JobPosting :=
  let description :=
    truncateDesc (Py.pyOrS parsed.descriptionText (Py.pyOrS parsed.descriptionHtml []))
  jobPostingInit
    { url := url,
      source := Py.pyOrS parsed.source
        (if use_yc url then "Y Combinator".data else []),
      title := Py.pyOrS parsed.title "Job Posting".data,
      company := Py.pyOrS parsed.company "Unknown".data,
      location := Py.pyOrS parsed.location "Unknown".data,
      description := description,
      salary := none,
      remote_ok := Py.hasSub (Py.pyLower (Py.pyOrS parsed.location [])) "remote".data }

/-- The registry path of `parse_job_url` after a successful fetch. -/
def parse_job_url_registry (url : PyStr) (d : Doc) : JobPosting :=
  match choose serviceRegistry url d with
  | some pd => jobPostingOfParsed url (pd.1.parse url d)
  | none => {}

/-- `JobService._extract_job_details_from_html` (services/job_service.py).
The module never imports `sys`, so the debug
`print(..., file=sys.stderr)` that ends the `try` body raises
`NameError`; the `except Exception` handler builds a fallback posting but
hits the same undefined `sys` in its own debug print, and that second
`NameError` propagates to the caller.  The function therefore raises on
every input instead of returning the truncated record it builds. -/
def extract_job_details_from_html (html_content : PyStr) (url : PyStr) :
    Except PyStr JobPosting :=
  let _ := html_content
  let _ := url
  Except.error "NameError: name \x27sys\x27 is not defined".data

/-! ### Streaming (`JobService.search_jobs_stream`, tools/jobs.py) -/

/-- Stream events (each Python event dict, with its type-specific fields). -/
inductive Event where
  | start (sources : List PyStr) (max_pages per_source_limit : Nat) : Event
  | source_start (source : PyStr) : Event
  | page_start (source : PyStr) (page : Nat) : Event
  | job (source : PyStr) (page : Nat) (key : PyStr) (data : JobPosting) : Event
  | page_complete (source : PyStr) (page : Nat) (count : Nat) : Event
  | source_complete (source : PyStr) (pages total : Nat) : Event
  | error (message : PyStr) (source : PyStr) (page : Nat) : Event
  | complete (total_jobs sources pages : Nat) : Event
deriving DecidableEq

/-- `JobService._normalize_tags`. -/
def normalize_tags (tags : Option (List PyStr)) : List PyStr :=
  match tags with
  | none => []
  | some ts =>
    ts.filterMap (fun t =>
      let s := Py.pyStrip t
      if t ≠ [] ∧ s ≠ [] then some (Py.pyLower s) else none)

/-- `JobService._has_required_tags`. -/
def has_required_tags (j : JobPosting) (req : List PyStr) : Bool :=
  let job_tags := j.tags.filterMap (fun t =>
    let s := Py.pyStrip t
    if t ≠ [] ∧ s ≠ [] then some (Py.pyLower s) else none)
  req.all (fun t => t ∈ job_tags)

/-- The alias table of `JobService._location_match`, in source order. -/
def locationAliases : List (PyStr × List PyStr) :=
  [("united states".data,
    ["united states".data, "us".data, "usa".data, "u.s.".data, "u.s.a".data,
     "us-based".data, "us remote".data, "remote-us".data,
     "anywhere in the us".data]),
   ("united kingdom".data,
    ["united kingdom".data, "uk".data, "u.k.".data, "britain".data,
     "england".data, "scotland".data, "wales".data]),
   ("europe".data, ["europe".data, "eu".data, "e.u.".data, "european".data]),
   ("canada".data, ["canada".data, "ca".data, "canadian".data]),
   ("remote".data,
    ["remote".data, "anywhere".data, "distributed".data,
     "work from home".data, "wfh".data]),
   ("san francisco".data, ["san francisco".data, "sf".data, "bay area".data]),
   ("new york".data, ["new york".data, "ny".data, "nyc".data])]

/-- `JobService._location_match`: substring-or-alias match of the wanted
location against location, title, company and tags. -/
def location_match (j : JobPosting) (want : PyStr) : Bool :=
  if want = [] then true
  else
    let want_norm := Py.pyLower (Py.pyStrip want)
    if want_norm = [] then true
    else
      let want_set := locationAliases.foldl
        (fun acc kv =>
          if want_norm = kv.1 ∨ want_norm ∈ kv.2 then acc ++ kv.2 ++ [kv.1]
          else acc)
        [want_norm]
      let blob := Py.pyLower
        (List.intercalate " ".data ([j.location, j.title, j.company] ++ j.tags))
      want_set.any (fun a => Py.hasSub blob a)

/-- `JobService._compute_job_key`: `JobPosting` has no
`external_id`/`posting_id` attribute, so the `getattr` probes yield `None`
and the key is always `f"{source}:{url}"`. -/
def compute_job_key (source : PyStr) (j : JobPosting) : PyStr :=
  source ++ ':' :: canonical_url (some j.url)

/-- The streaming request (keywords are closed over by the fetch oracle). -/
structure StreamReq where
  sources : List PyStr
  location : PyStr
  remote_only : Bool
  max_pages : Nat := 1
  per_source_limit : Nat := 100
  tags : Option (List PyStr) := none

/-- The known source keys (`JobService.SOURCE_MAP`, tools/jobs.py). -/
def SOURCE_MAP_KEYS : List PyStr :=
  ["hackernews_jobs".data, "ycombinator".data, "workatastartup".data]

/-- The filter applied before yielding a job event. -/
def keepJob (req : StreamReq) (reqTags : List PyStr) (j : JobPosting) : Bool :=
  (¬ req.remote_only ∨ j.remote_ok) ∧
  (req.location = [] ∨ location_match j req.location) ∧
  (reqTags = [] ∨ has_required_tags j reqTags)

/-- Counters threaded through the stream loops. -/
structure PageAcc where
  pages_emitted : Nat := 0
  source_total : Nat := 0
  total_jobs : Nat := 0
  total_pages : Nat := 0
deriving DecidableEq

/-- The per-source page loop of `search_jobs_stream`.  `fetch src page`
stands for the per-page crawler call (the `crawl_page` path or the
`crawl`-and-slice compatibility path — an external collaborator per the
spec); an `Except.error` is an exception caught by the page's `try`.
A failed page yields `error` then `page_complete` with count 0 and
`continue`s (skipping the empty-page early stop); a page with zero kept
records ends the source's pagination. -/
def pagesGo (fetch : PyStr → Nat → Except PyStr (List JobPosting))
    (req : StreamReq) (reqTags : List PyStr) (src : PyStr) :
    Nat → Nat → PageAcc → List Event × PageAcc
  | _, 0, acc => ([], acc)
  | page, remaining + 1, acc =>
    let acc1 : PageAcc :=
      { acc with pages_emitted := acc.pages_emitted + 1,
                 total_pages := acc.total_pages + 1 }
    match fetch src page with
    | .error msg =>
      let r := pagesGo fetch req reqTags src (page + 1) remaining acc1
      (Event.page_start src page :: Event.error msg src page ::
        Event.page_complete src page 0 :: r.1, r.2)
    | .ok page_jobs =>
      let kept := page_jobs.filter (keepJob req reqTags)
      let jobEvs := kept.map (fun j => Event.job src page (compute_job_key src j) j)
      let cnt := kept.length
      let acc2 : PageAcc :=
        { acc1 with source_total := acc1.source_total + cnt,
                    total_jobs := acc1.total_jobs + cnt }
      let evs := Event.page_start src page :: jobEvs ++
        [Event.page_complete src page cnt]
      if cnt = 0 then (evs, acc2)
      else
        let r := pagesGo fetch req reqTags src (page + 1) remaining acc2
        (evs ++ r.1, r.2)

/-- The source loop of `search_jobs_stream`: `source_start` is yielded
before `_get_instance`, which raises `ValueError` for a source key not in
`SOURCE_MAP` — an exception nothing in the generator catches, so it
terminates the stream (fourth component). -/
def sourcesGo (fetch : PyStr → Nat → Except PyStr (List JobPosting))
    (req : StreamReq) (reqTags : List PyStr) :
    List PyStr → Nat → Nat → List Event × Nat × Nat × Option PyStr
  | [], tj, tp => ([], tj, tp, none)
  | src :: rest, tj, tp =>
    if src ∈ SOURCE_MAP_KEYS then
      let r := pagesGo fetch req reqTags src 1 req.max_pages
        { total_jobs := tj, total_pages := tp }
      let evs := Event.source_start src :: r.1 ++
        [Event.source_complete src r.2.pages_emitted r.2.source_total]
      let r2 := sourcesGo fetch req reqTags rest r.2.total_jobs r.2.total_pages
      (evs ++ r2.1, r2.2)
    else
      ([Event.source_start src], tj, tp,
       some ("Unknown source: ".data ++ src))

/-- `[s.lower().strip() for s in sources if s and s.strip()]`. -/
def requestedSources (sources : List PyStr) : List PyStr :=
  (sources.filter (fun s => s ≠ [] ∧ Py.pyStrip s ≠ [])).map
    (fun s => Py.pyStrip (Py.pyLower s))

/-- `JobService.search_jobs_stream` (tools/jobs.py): the finite event
sequence, plus the uncaught exception that ended the generator early, if
any. -/
def search_jobs_stream (req : StreamReq)
    (fetch : PyStr → Nat → Except PyStr (List JobPosting)) :
    List Event × Option PyStr :=
  let reqd := requestedSources req.sources
  let reqTags := normalize_tags req.tags
  let startEv := Event.start reqd req.max_pages req.per_source_limit
  let r := sourcesGo fetch req reqTags reqd 0 0
  match r.2.2.2 with
  | none => (startEv :: r.1 ++ [Event.complete r.2.1 reqd.length r.2.2.1], none)
  | some e => (startEv :: r.1, some e)

/-- Event-kind tests (used to count events of the stream). -/
def evIsStart : Event → Bool
  | .start _ _ _ => true
  | _ => false

def evIsComplete : Event → Bool
  | .complete _ _ _ => true
  | _ => false

def evIsJob : Event → Bool
  | .job _ _ _ _ => true
  | _ => false

example : Py.quotePlus "a b&c".data = "a+b%26c".data := by decide
example : Py.unquotePlus "a+b%26c".data = "a b&c".data := by decide
example : Py.parse_qsl "ashby_jid=123&utm_source=x&ref=".data =
    [("ashby_jid".data, "123".data), ("utm_source".data, "x".data)] := by decide
example : Py.utf8Decode (Py.utf8Encode "aé•".data) = "aé•".data := by decide
example :
    canonical_url (some "https://Boards.Greenhouse.io/acme/jobs/1?utm_source=hn#top".data) =
      "https://boards.greenhouse.io/acme/jobs/1".data := by decide
example :
    canonical_url (some "https://x.io/job?ashby_jid=123&utm_source=x".data) =
      "https://x.io/job?ashby_jid=123".data := by decide
example : canonical_url (some "foo://///x".data) = "foo:///x".data := by decide
example : canonical_url (some "foo:///x".data) = "foo:/x".data := by decide
example : canonical_url (some "//[a#ref=1&utm_b=2".data) = "//[a?utm_b=2".data := by decide
example : canonical_url (some "//[a?utm_b=2".data) = "//[a".data := by decide
example :
    canonical_url (some "https://x.io/p?q=a%20b".data) = "https://x.io/p?q=a+b".data := by
  decide
example :
    canonical_url (some "https://x.io/p?ashby_jid=".data) = "https://x.io/p".data := by decide
example :
    canonical_url (some "HTTP://H/P?UTM_x=1&Ref=2&keep=3".data) =
      "http://h/P?keep=3".data := by decide
example : canonical_url (some "http://h/a;b?c=d".data) = "http://h/a?c=d".data := by decide
example : canonical_url (some "https:p".data) = "https:///p".data := by decide
example : canonical_url (some "https:///p".data) = "https:///p".data := by decide
example :
    parse_salary_components "$140k - $180k".data =
      some (140000, 140000, "USD".data, "year".data, "$140k - $180k".data) := by decide
example :
    parse_salary_components "140k - 180k per hour".data =
      some (140000, 180000, [], "hour".data, "140k - 180k per hour".data) := by decide
example : parse_salary_components "no digits here".data = none := by decide
example :
    parse_salary_components "€70,000 per year".data =
      some (70000, 70000, "EUR".data, "year".data, "€70,000 per year".data) := by decide
example :
    parse_salary_components "$140,000 - $180,000".data =
      some (140000, 140000, "USD".data, "year".data, "$140,000 - $180,000".data) := by decide
example :
    parse_salary_components "12kk".data =
      some (12000, 12000, [], "year".data, "12kk".data) := by decide
example :
    parse_salary_components "1,2,3 - 4".data =
      some (123, 4, [], "year".data, "1,2,3 - 4".data) := by decide
example :
    parse_salary_components "9 per month per hour".data =
      some (9, 9, [], "month".data, "9 per month per hour".data) := by decide
example :
    parse_salary_components "5t6".data = some (5, 6, [], "year".data, "5t6".data) := by decide
example :
    parse_salary_components "  55k  ".data =
      some (55000, 55000, [], "year".data, "55k".data) := by decide
example :
    parse_salary_components "3 k - 4 k".data =
      some (3000, 4000, [], "year".data, "3 k - 4 k".data) := by decide
example :
    parse_salary_components "a1-2b /hr".data =
      some (1, 2, [], "hour".data, "a1-2b /hr".data) := by decide

/-! ## Claim theorems -/

/-- C5: the claim says `"$140k - $180k"` parses to `min=140000,
max=180000, currency="USD", periodicity="year"`.  The range regex
`(\d+[\d,]*\s*(k)?)\s*[-to–]+\s*(\d+[\d,]*\s*(k)?)` cannot accept the
currency symbol in front of the second number, so on this input the code
falls into the single-number branch and returns `min = max = 140000` —
contradicting the function's own docstring, which lists exactly this
format as supported.  The remaining parts of the claim hold: an hourly
marker yields periodicity `"hour"` (on the same format without the second
`$`), and a digit-free input yields `None`. -/
theorem c5_salary_range_code_bug :
    parse_salary_components "$140k - $180k".data =
      some (140000, 140000, "USD".data, "year".data, "$140k - $180k".data) ∧
    parse_salary_components "140k - 180k per hour".data =
      some (140000, 180000, [], "hour".data, "140k - 180k per hour".data) ∧
    parse_salary_components "no digits here".data = none :=
  ⟨by decide, by decide, by decide⟩

/-- C10: in the registry path of `parse_job_url`, every returned record's
description has at most 5003 characters (5000 plus `"..."`), for every
parsed job whatsoever.  The legacy HTML-extraction path, however, never
returns its truncated record: `services/job_service.py` does not import
`sys`, so the debug `print(..., file=sys.stderr)` raises `NameError` on
every input (in the `try` body, and again in the `except` handler), and
`_extract_job_details_from_html` always raises instead of returning. -/
theorem c10_description_truncation :
    (∀ (url : PyStr) (parsed : ParsedJob),
        (jobPostingOfParsed url parsed).description.length ≤ 5003) ∧
    (∀ (html_content url : PyStr),
        extract_job_details_from_html html_content url =
          Except.error "NameError: name \x27sys\x27 is not defined".data) := by
  constructor
  · intro url parsed
    show (truncateDesc _).length ≤ 5003
    unfold truncateDesc
    split_ifs with h
    · simp only [List.length_append, List.length_take, List.length_cons,
        List.length_nil]
      omega
    · rcases not_and_or.mp h with h1 | h2
      · simp only [not_not] at h1
        simp [h1]
      · omega
  · intro h u
    rfl

/-- C6: a finalized `JobPosting` never has an empty title or company:
the constructor (`__post_init__`) falls back to the sentinels
"Job Posting" / "Unknown Company" on empty inputs; the dedupe merge
preserves non-emptiness of both fields; and the `parse_job_url`
projection always produces non-empty title and company. -/
theorem c6_sentinel_nonempty :
    (∀ j : JobPosting,
       (jobPostingInit j).title ≠ [] ∧ (jobPostingInit j).company ≠ []) ∧
    (∀ j : JobPosting, j.title = [] →
       (jobPostingInit j).title = "Job Posting".data) ∧
    (∀ j : JobPosting, j.company = [] →
       (jobPostingInit j).company = "Unknown Company".data) ∧
    (∀ keep j : JobPosting, keep.title ≠ [] → keep.company ≠ [] →
       (mergeDup keep j).title ≠ [] ∧ (mergeDup keep j).company ≠ []) ∧
    (∀ (url : PyStr) (parsed : ParsedJob),
       (jobPostingOfParsed url parsed).title ≠ [] ∧
       (jobPostingOfParsed url parsed).company ≠ []) := by
  refine ⟨?_, ?_, ?_, ?_, ?_⟩
  · intro j
    constructor
    · show (if j.title = [] then "Job Posting".data else j.title) ≠ []
      split_ifs with h
      · decide
      · exact h
    · show (if j.company = [] then "Unknown Company".data else j.company) ≠ []
      split_ifs with h
      · decide
      · exact h
  · intro j h
    show (if j.title = [] then "Job Posting".data else j.title) = _
    simp [h]
  · intro j h
    show (if j.company = [] then "Unknown Company".data else j.company) = _
    simp [h]
  · intro keep j ht hc
    constructor
    · exact ht
    · show (if (keep.company = [] ∨ keep.company = "Unknown".data) ∧
          j.company ≠ [] ∧ j.company ≠ "Unknown".data then j.company
        else keep.company) ≠ []
      split_ifs with h
      · exact h.2.1
      · exact hc
  · intro url parsed
    constructor
    · show (if Py.pyOrS parsed.title "Job Posting".data = [] then _
        else Py.pyOrS parsed.title "Job Posting".data) ≠ []
      split_ifs with h
      · decide
      · exact h
    · show (if Py.pyOrS parsed.company "Unknown".data = [] then _
        else Py.pyOrS parsed.company "Unknown".data) ≠ []
      split_ifs with h
      · decide
      · exact h

/-- Invariant of the `choose` fold: the accumulator holds the entry of
the first maximal effective detection score of the processed prefix. -/
def ChooseInv (url : PyStr) (d : Doc) (proc : List ParserM)
    (b : ParserM × DetectionResult) : Prop :=
  ∃ i : Nat, i < proc.length ∧ proc.get? i = some b.1 ∧
    b.2 = effDetect b.1 url d ∧
    (∀ (j : Nat) (q : ParserM), proc.get? j = some q →
      (effDetect q url d).score ≤ b.2.score) ∧
    (∀ (j : Nat) (q : ParserM), j < i → proc.get? j = some q →
      (effDetect q url d).score < b.2.score)

theorem chooseInv_step (url : PyStr) (d : Doc) (proc : List ParserM)
    (b : ParserM × DetectionResult) (p : ParserM)
    (h : ChooseInv url d proc b) :
    ChooseInv url d (proc ++ [p])
      (if (effDetect p url d).score > b.2.score then (p, effDetect p url d)
       else b) := by
  obtain ⟨i, hi, hgi, hb2, hmax, hstrict⟩ := h
  have hgetL : ∀ (j : Nat), j < proc.length →
      (proc ++ [p]).get? j = proc.get? j := by
    intro j hj
    exact List.get?_append hj
  have hgetR : (proc ++ [p]).get? proc.length = some p :=
    List.get?_concat_length proc p
  have hbound : ∀ (j : Nat) (q : ParserM), (proc ++ [p]).get? j = some q →
      j < proc.length + 1 := by
    intro j q hq
    have := List.get?_eq_some.mp hq
    simpa using this.1
  split_ifs with hgt
  · refine ⟨proc.length, by simp, hgetR, rfl, ?_, ?_⟩
    · intro j q hq
      by_cases hj : j < proc.length
      · have hq' : proc.get? j = some q := by rw [← hgetL j hj]; exact hq
        have := hmax j q hq'
        dsimp only
        omega
      · have hj2 := hbound j q hq
        have hje : j = proc.length := by omega
        subst hje
        rw [hgetR] at hq
        cases hq
        simp
    · intro j q hji hq
      have hq' : proc.get? j = some q := by rw [← hgetL j hji]; exact hq
      have := hmax j q hq'
      dsimp only
      omega
  · refine ⟨i, by simp; omega, by rw [hgetL i hi]; exact hgi, hb2, ?_, ?_⟩
    · intro j q hq
      by_cases hj : j < proc.length
      · have hq' : proc.get? j = some q := by rw [← hgetL j hj]; exact hq
        exact hmax j q hq'
      · have hj2 := hbound j q hq
        have hje : j = proc.length := by omega
        subst hje
        rw [hgetR] at hq
        cases hq
        omega
    · intro j q hji hq
      have hj : j < proc.length := by omega
      have hq' : proc.get? j = some q := by rw [← hgetL j hj]; exact hq
      exact hstrict j q hji hq'

theorem chooseGo_inv (url : PyStr) (d : Doc) :
    ∀ (l proc : List ParserM) (b : ParserM × DetectionResult),
      ChooseInv url d proc b →
      ∃ c, chooseGo url d (some b) l = some c ∧ ChooseInv url d (proc ++ l) c := by
  intro l
  induction l with
  | nil =>
    intro proc b h
    exact ⟨b, rfl, by simpa using h⟩
  | cons p rest ih =>
    intro proc b h
    have h2 := chooseInv_step url d proc b p h
    obtain ⟨c, hc, hinv⟩ := ih (proc ++ [p]) _ h2
    refine ⟨c, ?_, by simpa [List.append_assoc] using hinv⟩
    show chooseGo url d _ (p :: rest) = some c
    simp only [chooseGo]
    split_ifs at hc ⊢ with hsc
    · exact hc
    · exact hc

/-- C3: for a non-empty registry, `choose` returns the strategy at the
first index attaining the maximal effective detection score, paired with
that strategy's detection result; every registered strategy's score
participates (the maximality ranges over all of them), a strategy whose
`detect` raises contributes score 0 through `effDetect` without blocking
the others, and strategies registered before the winner lose only by a
strictly smaller score — so the first-registered strategy wins ties.
Determinism holds by construction: `choose` is a pure function of the
registry, URL and document. -/
theorem c3_registry_choose (ps : List ParserM) (url : PyStr) (d : Doc)
    (h : ps ≠ []) :
    ∃ (i : Nat) (w : ParserM), ps.get? i = some w ∧
      choose ps url d = some (w, effDetect w url d) ∧
      (∀ (j : Nat) (q : ParserM), ps.get? j = some q →
        (effDetect q url d).score ≤ (effDetect w url d).score) ∧
      (∀ (j : Nat) (q : ParserM), j < i → ps.get? j = some q →
        (effDetect q url d).score < (effDetect w url d).score) := by
  match ps, h with
  | p :: rest, _ =>
    have base : ChooseInv url d [p] (p, effDetect p url d) := by
      refine ⟨0, by simp, by simp, rfl, ?_, ?_⟩
      · intro j q hq
        have hj := List.get?_eq_some.mp hq
        have hj1 : j = 0 := by have := hj.1; simpa using this
        subst hj1
        simp at hq
        subst hq
        simp
      · intro j q hji hq
        omega
    obtain ⟨c, hc, hinv⟩ := chooseGo_inv url d rest [p] _ base
    obtain ⟨i, hi, hgi, hb2, hmax, hstrict⟩ := hinv
    refine ⟨i, c.1, by simpa using hgi, ?_, ?_, ?_⟩
    · show chooseGo url d none (p :: rest) = _
      simp only [chooseGo]
      rw [hc]
      rw [← hb2]
    · intro j q hq
      have := hmax j q (by simpa using hq)
      rw [hb2] at this
      exact this
    · intro j q hji hq
      have := hstrict j q hji (by simpa using hq)
      rw [hb2] at this
      exact this

/-- C3 witness: the service registry on a concrete URL and an empty
document. -/
theorem c3_registry_choose_witness :
    ∃ (i : Nat) (w : ParserM), serviceRegistry.get? i = some w ∧
      choose serviceRegistry "https://x.io/p".data [] =
        some (w, effDetect w "https://x.io/p".data []) ∧
      (∀ (j : Nat) (q : ParserM), serviceRegistry.get? j = some q →
        (effDetect q "https://x.io/p".data []).score ≤
          (effDetect w "https://x.io/p".data []).score) ∧
      (∀ (j : Nat) (q : ParserM), j < i → serviceRegistry.get? j = some q →
        (effDetect q "https://x.io/p".data []).score <
          (effDetect w "https://x.io/p".data []).score) :=
  c3_registry_choose serviceRegistry "https://x.io/p".data []
    (by simp [serviceRegistry])

/-- C8: every strategy's `parse` yields a `contentScore` in `[0, 100]`:
the vendor strategies and the generic fallback cap an additive rubric of
non-negative weights with `min(100, score)`, and the hub/form strategy
uses the constant 20.  The lower bound 0 holds because the scores are
sums of non-negative weights (`Nat` in the model). -/
theorem c8_content_score_bounds (p : ParserM) (hp : p ∈ allStrategies)
    (url : PyStr) (d : Doc) :
    ∃ n, (p.parse url d).contentScore = some n ∧ n ≤ 100 := by
  simp only [allStrategies, List.mem_cons, List.not_mem_nil, or_false] at hp
  rcases hp with rfl | rfl | rfl | rfl | rfl | rfl
  · exact ⟨_, rfl, Nat.min_le_left _ _⟩
  · exact ⟨_, rfl, Nat.min_le_left _ _⟩
  · exact ⟨_, rfl, Nat.min_le_left _ _⟩
  · exact ⟨_, rfl, Nat.min_le_left _ _⟩
  · exact ⟨_, rfl, Nat.min_le_left _ _⟩
  · exact ⟨20, rfl, by omega⟩

/-- C8 witness: the generic strategy on a concrete document. -/
theorem c8_content_score_bounds_witness :
    ∃ n, (genericStrategy.parse "https://x.io/p".data []).contentScore = some n ∧
      n ≤ 100 :=
  c8_content_score_bounds genericStrategy (by simp [allStrategies])
    "https://x.io/p".data []

/-! #### C1: the dedupe loop equals its keyed group-merge specification -/

/-- The `seen` map after a prefix: first-occurrence keys enumerated from
`n`. -/
def enumKeysFrom (n : Nat) : List (PyStr × PyStr) → List ((PyStr × PyStr) × Nat)
  | [] => []
  | k :: t => (k, n) :: enumKeysFrom (n + 1) t

/-- Index of the first occurrence of a key. -/
def idxOfKey (k : PyStr × PyStr) : List (PyStr × PyStr) → Option Nat
  | [] => none
  | a :: t => if a = k then some 0 else (idxOfKey k t).map (· + 1)

theorem lookup_enumKeysFrom (k : PyStr × PyStr) :
    ∀ (ks : List (PyStr × PyStr)) (n : Nat),
      lookupKey k (enumKeysFrom n ks) = (idxOfKey k ks).map (n + ·) := by
  intro ks
  induction ks with
  | nil => intro n; rfl
  | cons a t ih =>
    intro n
    by_cases h : a = k
    · simp [enumKeysFrom, lookupKey, idxOfKey, h]
    · simp only [enumKeysFrom, lookupKey, idxOfKey, if_neg h, ih (n + 1)]
      cases hx : idxOfKey k t <;> simp [hx]
      omega

theorem idxOfKey_mem {k : PyStr × PyStr} :
    ∀ {ks : List (PyStr × PyStr)}, k ∈ ks → ∃ i, idxOfKey k ks = some i := by
  intro ks
  induction ks with
  | nil => intro h; cases h
  | cons a t ih =>
    intro h
    by_cases ha : a = k
    · exact ⟨0, by simp [idxOfKey, ha]⟩
    · have ht : k ∈ t := by
        rcases List.mem_cons.mp h with h1 | h1
        · exact absurd h1.symm ha
        · exact h1
      obtain ⟨i, hi⟩ := ih ht
      exact ⟨i + 1, by simp [idxOfKey, ha, hi]⟩

theorem idxOfKey_get? {k : PyStr × PyStr} :
    ∀ {ks : List (PyStr × PyStr)} {i : Nat}, idxOfKey k ks = some i →
      ks.get? i = some k ∧ i < ks.length := by
  intro ks
  induction ks with
  | nil => intro i h; cases h
  | cons a t ih =>
    intro i h
    by_cases ha : a = k
    · simp [idxOfKey, ha] at h
      subst h
      simp [ha]
    · simp only [idxOfKey, if_neg ha] at h
      cases hx : idxOfKey k t with
      | none => rw [hx] at h; cases h
      | some m =>
        rw [hx] at h
        simp at h
        subst h
        obtain ⟨hg, hl⟩ := ih hx
        refine ⟨by simpa [List.get?_cons_succ] using hg, ?_⟩
        simp only [List.length_cons]
        omega

theorem mem_firstKeysGo {k : PyStr × PyStr} :
    ∀ (l seen : List (PyStr × PyStr)),
      (k ∈ firstKeysGo seen l ↔ k ∈ l ∧ k ∉ seen) := by
  intro l
  induction l with
  | nil => intro seen; simp [firstKeysGo]
  | cons a t ih =>
    intro seen
    by_cases ha : a ∈ seen
    · rw [firstKeysGo, if_pos ha, ih]
      constructor
      · intro h
        exact ⟨List.mem_cons_of_mem a h.1, h.2⟩
      · intro h
        rcases List.mem_cons.mp h.1 with h1 | h1
        · subst h1; exact absurd ha h.2
        · exact ⟨h1, h.2⟩
    · rw [firstKeysGo, if_neg ha]
      constructor
      · intro h
        rcases List.mem_cons.mp h with h1 | h1
        · subst h1; exact ⟨List.mem_cons_self _ _, ha⟩
        · have := (ih (a :: seen)).mp h1
          refine ⟨List.mem_cons_of_mem a this.1, fun hs => this.2 (List.mem_cons_of_mem a hs)⟩
      · intro h
        rcases List.mem_cons.mp h.1 with h1 | h1
        · subst h1; exact List.mem_cons_self _ _
        · by_cases hk : k = a
          · subst hk; exact List.mem_cons_self _ _
          · refine List.mem_cons_of_mem a ((ih (a :: seen)).mpr ⟨h1, fun hs => ?_⟩)
            rcases List.mem_cons.mp hs with h2 | h2
            · exact hk h2
            · exact h.2 h2

theorem nodup_firstKeysGo :
    ∀ (l seen : List (PyStr × PyStr)), (firstKeysGo seen l).Nodup := by
  intro l
  induction l with
  | nil => intro seen; simp [firstKeysGo]
  | cons a t ih =>
    intro seen
    by_cases ha : a ∈ seen
    · rw [firstKeysGo, if_pos ha]; exact ih seen
    · rw [firstKeysGo, if_neg ha]
      refine List.nodup_cons.mpr ⟨fun hmem => ?_, ih (a :: seen)⟩
      have := (mem_firstKeysGo t (a :: seen)).mp hmem
      exact this.2 (List.mem_cons_self a seen)

theorem nodup_firstKeys (l : List (PyStr × PyStr)) : (firstKeys l).Nodup :=
  nodup_firstKeysGo l []

theorem firstKeysGo_append_one (k : PyStr × PyStr) :
    ∀ (l seen : List (PyStr × PyStr)),
      firstKeysGo seen (l ++ [k]) =
        firstKeysGo seen l ++ (if k ∈ seen ∨ k ∈ l then [] else [k]) := by
  intro l
  induction l with
  | nil =>
    intro seen
    by_cases h : k ∈ seen <;> simp [firstKeysGo, h]
  | cons a t ih =>
    intro seen
    by_cases ha : a ∈ seen
    · rw [List.cons_append, firstKeysGo, if_pos ha, firstKeysGo, if_pos ha, ih]
      by_cases hk : k ∈ seen ∨ k ∈ t
      · rw [if_pos hk, if_pos]
        rcases hk with h | h
        · exact Or.inl h
        · exact Or.inr (List.mem_cons_of_mem a h)
      · rw [if_neg hk, if_neg]
        intro hc
        rcases hc with h | h
        · exact hk (Or.inl h)
        · rcases List.mem_cons.mp h with h1 | h1
          · subst h1; exact hk (Or.inl ha)
          · exact hk (Or.inr h1)
    · rw [List.cons_append, firstKeysGo, if_neg ha, firstKeysGo, if_neg ha, ih,
        List.cons_append]
      by_cases hk : k ∈ a :: seen ∨ k ∈ t
      · rw [if_pos hk, if_pos]
        rcases hk with h | h
        · rcases List.mem_cons.mp h with h1 | h1
          · subst h1; exact Or.inr (List.mem_cons_self k t)
          · exact Or.inl h1
        · exact Or.inr (List.mem_cons_of_mem a h)
      · rw [if_neg hk, if_neg]
        intro hc
        rcases hc with h | h
        · exact hk (Or.inl (List.mem_cons_of_mem a h))
        · rcases List.mem_cons.mp h with h1 | h1
          · subst h1; exact hk (Or.inl (List.mem_cons_self k seen))
          · exact hk (Or.inr h1)

theorem firstKeys_append_one (l : List (PyStr × PyStr)) (k : PyStr × PyStr) :
    firstKeys (l ++ [k]) = firstKeys l ++ (if k ∈ l then [] else [k]) := by
  unfold firstKeys
  rw [firstKeysGo_append_one]
  congr 1
  by_cases h : k ∈ l <;> simp [h]

theorem mem_firstKeys {k : PyStr × PyStr} {l : List (PyStr × PyStr)} :
    k ∈ firstKeys l ↔ k ∈ l := by
  unfold firstKeys
  rw [mem_firstKeysGo]
  simp

theorem enumKeysFrom_append :
    ∀ (a b : List (PyStr × PyStr)) (n : Nat),
      enumKeysFrom n (a ++ b) = enumKeysFrom n a ++ enumKeysFrom (n + a.length) b := by
  intro a
  induction a with
  | nil => intro b n; simp [enumKeysFrom]
  | cons x t ih =>
    intro b n
    show (x, n) :: enumKeysFrom (n + 1) (t ++ b) =
      (x, n) :: (enumKeysFrom (n + 1) t ++ enumKeysFrom (n + (t.length + 1)) b)
    rw [ih]
    have h : n + 1 + t.length = n + (t.length + 1) := by omega
    rw [h]

theorem filter_key_nil {key : PyStr × PyStr} :
    ∀ {p : List JobPosting}, key ∉ p.map jobKey →
      p.filter (fun j => jobKey j = key) = [] := by
  intro p
  induction p with
  | nil => intro _; rfl
  | cons a t ih =>
    intro h
    have ha : jobKey a ≠ key := by
      intro hc
      exact h (by simp [hc])
    have ht : key ∉ t.map jobKey := by
      intro hc
      exact h (by simp; right; simpa using hc)
    simp [List.filter_cons, ha, ih ht]

theorem filter_key_ne_nil {key : PyStr × PyStr} :
    ∀ {p : List JobPosting}, key ∈ p.map jobKey →
      p.filter (fun j => jobKey j = key) ≠ [] := by
  intro p
  induction p with
  | nil => intro h; cases h
  | cons a t ih =>
    intro h
    by_cases ha : jobKey a = key
    · simp [List.filter_cons, ha]
    · have ht : key ∈ t.map jobKey := by
        rcases List.mem_map.mp h with ⟨x, hx, hk⟩
        rcases List.mem_cons.mp hx with h1 | h1
        · subst h1; exact absurd hk ha
        · exact List.mem_map.mpr ⟨x, h1, hk⟩
      have heq : (a :: t).filter (fun x => jobKey x = key) =
          t.filter (fun x => jobKey x = key) := by
        simp [List.filter_cons, ha]
      rw [heq]
      exact ih ht

theorem mergeFold_append_one {l : List JobPosting} (j : JobPosting)
    (h : l ≠ []) : mergeFold (l ++ [j]) = mergeDup (mergeFold l) j := by
  match l, h with
  | f :: r, _ =>
    show mergeFold (f :: (r ++ [j])) = mergeDup (mergeFold (f :: r)) j
    simp only [mergeFold]
    rw [List.foldl_append]
    simp

theorem set_map_nodup {g : PyStr × PyStr → JobPosting} {v : JobPosting}
    {key : PyStr × PyStr} :
    ∀ {ks : List (PyStr × PyStr)} {i : Nat}, ks.Nodup →
      idxOfKey key ks = some i →
      (ks.map g).set i v = ks.map (fun k => if k = key then v else g k) := by
  intro ks
  induction ks with
  | nil => intro i _ h; cases h
  | cons a t ih =>
    intro i hnd h
    by_cases ha : a = key
    · simp [idxOfKey, ha] at h
      subst h
      subst ha
      simp only [List.map_cons, List.set_cons_zero, if_pos rfl]
      congr 1
      refine (List.map_congr_left ?_).symm
      intro x hx
      have hne : x ≠ a := by
        intro hc
        subst hc
        exact (List.nodup_cons.mp hnd).1 hx
      rw [if_neg hne]
    · simp only [idxOfKey, if_neg ha] at h
      cases hx : idxOfKey key t with
      | none => rw [hx] at h; cases h
      | some m =>
        rw [hx] at h
        simp at h
        subst h
        simp only [List.map_cons, List.set_cons_succ, if_neg ha]
        congr 1
        exact ih (List.nodup_cons.mp hnd).2 hx

theorem dedupeByKeySpec_length (p : List JobPosting) :
    (dedupeByKeySpec p).length = (firstKeys (p.map jobKey)).length := by
  unfold dedupeByKeySpec
  rw [List.length_map]

theorem dedupeGo_spec :
    ∀ (rest p : List JobPosting),
      dedupeGo (enumKeysFrom 0 (firstKeys (p.map jobKey))) (dedupeByKeySpec p)
        rest = dedupeByKeySpec (p ++ rest) := by
  intro rest
  induction rest with
  | nil => intro p; simp [dedupeGo]
  | cons j rest' ih =>
    intro p
    have step : dedupeGo (enumKeysFrom 0 (firstKeys (p.map jobKey)))
        (dedupeByKeySpec p) (j :: rest') =
        dedupeGo (enumKeysFrom 0 (firstKeys ((p ++ [j]).map jobKey)))
          (dedupeByKeySpec (p ++ [j])) rest' := by
      by_cases hmem : jobKey j ∈ p.map jobKey
      · -- existing key: merge into the kept record
        have hks : jobKey j ∈ firstKeys (p.map jobKey) := mem_firstKeys.mpr hmem
        obtain ⟨i, hidx⟩ := idxOfKey_mem hks
        have hlook : lookupKey (jobKey j)
            (enumKeysFrom 0 (firstKeys (p.map jobKey))) = some i := by
          rw [lookup_enumKeysFrom, hidx]
          simp
        have hget := idxOfKey_get? hidx
        have hout : (dedupeByKeySpec p).get? i =
            some (mergeFold (p.filter (fun x => jobKey x = jobKey j))) := by
          unfold dedupeByKeySpec
          rw [List.get?_map, hget.1]
          rfl
        show dedupeGo _ _ (j :: rest') = _
        rw [dedupeGo, hlook]
        dsimp only
        rw [hout]
        dsimp only
        have hkeys : (p ++ [j]).map jobKey = p.map jobKey ++ [jobKey j] := by
          simp
        have hfk : firstKeys ((p ++ [j]).map jobKey) = firstKeys (p.map jobKey) := by
          rw [hkeys, firstKeys_append_one, if_pos hmem, List.append_nil]
        rw [hfk]
        congr 1
        unfold dedupeByKeySpec
        rw [hfk,
          set_map_nodup (nodup_firstKeys (p.map jobKey)) hidx]
        refine List.map_congr_left ?_
        intro k hk
        by_cases hkey : k = jobKey j
        · subst hkey
          rw [if_pos rfl]
          have hflt : (p ++ [j]).filter (fun x => jobKey x = jobKey j) =
              p.filter (fun x => jobKey x = jobKey j) ++ [j] := by
            simp [List.filter_append, List.filter_cons]
          rw [hflt, mergeFold_append_one j (filter_key_ne_nil hmem)]
        · rw [if_neg hkey]
          have hne : jobKey j ≠ k := fun hc => hkey hc.symm
          have hflt : (p ++ [j]).filter (fun x => jobKey x = k) =
              p.filter (fun x => jobKey x = k) := by
            simp [List.filter_append, List.filter_cons, hne]
          rw [hflt]
      · -- new key: append
        have hks : jobKey j ∉ firstKeys (p.map jobKey) := fun hc =>
          hmem (mem_firstKeys.mp hc)
        have hidx : idxOfKey (jobKey j) (firstKeys (p.map jobKey)) = none := by
          cases hx : idxOfKey (jobKey j) (firstKeys (p.map jobKey)) with
          | none => rfl
          | some m => exact absurd (List.get?_mem (idxOfKey_get? hx).1) hks
        have hlook : lookupKey (jobKey j)
            (enumKeysFrom 0 (firstKeys (p.map jobKey))) = none := by
          rw [lookup_enumKeysFrom, hidx]
          rfl
        show dedupeGo _ _ (j :: rest') = _
        rw [dedupeGo, hlook]
        dsimp only
        have hkeys : (p ++ [j]).map jobKey = p.map jobKey ++ [jobKey j] := by
          simp
        have hfk : firstKeys ((p ++ [j]).map jobKey) =
            firstKeys (p.map jobKey) ++ [jobKey j] := by
          rw [hkeys, firstKeys_append_one, if_neg hmem]
        congr 1
        · rw [hfk, enumKeysFrom_append]
          congr 1
          show _ = [(jobKey j, 0 + (firstKeys (p.map jobKey)).length)]
          rw [dedupeByKeySpec_length]
          congr 2
          omega
        · unfold dedupeByKeySpec
          rw [hfk, List.map_append]
          congr 1
          · refine List.map_congr_left ?_
            intro k hk
            have hkey : k ≠ jobKey j := by
              intro hc
              subst hc
              exact hks hk
            have : (p ++ [j]).filter (fun x => jobKey x = k) =
                p.filter (fun x => jobKey x = k) := by
              rw [List.filter_append]
              simp [List.filter_cons]
              intro hc
              exact absurd hc.symm hkey
            rw [this]
          · have : (p ++ [j]).filter (fun x => jobKey x = jobKey j) =
                p.filter (fun x => jobKey x = jobKey j) ++ [j] := by
              rw [List.filter_append]
              simp [List.filter_cons]
            rw [List.map_cons, List.map_nil, this, filter_key_nil hmem]
            rfl
    rw [step, ih (p ++ [j]), List.append_assoc]
    rfl

/-- C1: `_dedupe_jobs_merge_tags` equals its specification shape: records
are keyed by `(source, canonical URL)`; the first occurrence of each key
is kept, in first-occurrence order; and every later occurrence with the
same key is merged into the kept record in input order, each merge
unioning the tag sets (sorted), OR-ing `remoteOk`, and overwriting
`location`/`company` only when the kept value is unset/"Unknown" and the
incoming value is non-sentinel (see `mergeDup`). -/
theorem c1_dedupe_keyed_group_merge (jobs : List JobPosting) :
    dedupe_jobs_merge_tags jobs = dedupeByKeySpec jobs := by
  have := dedupeGo_spec jobs []
  simpa [dedupe_jobs_merge_tags, dedupeByKeySpec, firstKeys, firstKeysGo,
    enumKeysFrom] using this

/-- C6 witness: the merge-preservation component applied to concrete
records. -/
theorem c6_sentinel_nonempty_witness :
    (mergeDup (jobPostingInit { title := "T".data, company := [] })
        (jobPostingInit {})).title ≠ [] ∧
    (mergeDup (jobPostingInit { title := "T".data, company := [] })
        (jobPostingInit {})).company ≠ [] :=
  c6_sentinel_nonempty.2.2.2.1 _ _ (by decide) (by decide)

/-- Per-source page loop: no `start`/`complete` events are emitted inside
it, and it adds exactly its `job`-event count to `total_jobs`. -/
theorem pagesGo_counts (fetch : PyStr → Nat → Except PyStr (List JobPosting))
    (req : StreamReq) (reqTags : List PyStr) (src : PyStr) :
    ∀ (remaining page : Nat) (acc : PageAcc),
      ((pagesGo fetch req reqTags src page remaining acc).1.countP evIsStart = 0) ∧
      ((pagesGo fetch req reqTags src page remaining acc).1.countP evIsComplete = 0) ∧
      ((pagesGo fetch req reqTags src page remaining acc).2.total_jobs =
        acc.total_jobs +
          (pagesGo fetch req reqTags src page remaining acc).1.countP evIsJob) := by
  intro remaining
  induction remaining with
  | zero => intro page acc; simp [pagesGo]
  | succ rem ih =>
    intro page acc
    cases hf : fetch src page with
    | error msg =>
      have h := ih (page + 1)
        { acc with pages_emitted := acc.pages_emitted + 1,
                   total_pages := acc.total_pages + 1 }
      simp only [pagesGo, hf]
      refine ⟨?_, ?_, ?_⟩
      · simp [List.countP_cons, evIsStart, h.1]
      · simp [List.countP_cons, evIsComplete, h.2.1]
      · simp only [List.countP_cons, evIsJob]
        rw [h.2.2]
        simp
    | ok page_jobs =>
      simp only [pagesGo, hf]
      by_cases hcnt : (page_jobs.filter (keepJob req reqTags)).length = 0
      · rw [List.length_eq_zero] at hcnt
        simp [hcnt, evIsStart, evIsComplete, evIsJob, List.countP_cons]
      · have h := ih (page + 1)
          { acc with pages_emitted := acc.pages_emitted + 1,
                     total_pages := acc.total_pages + 1,
                     source_total := acc.source_total +
                       (page_jobs.filter (keepJob req reqTags)).length,
                     total_jobs := acc.total_jobs +
                       (page_jobs.filter (keepJob req reqTags)).length }
        simp only [if_neg hcnt]
        refine ⟨?_, ?_, ?_⟩
        · simp [List.countP_append, List.countP_cons, List.countP_map,
            evIsStart, Function.comp, h.1]
        · simp [List.countP_append, List.countP_cons, List.countP_map,
            evIsComplete, Function.comp, h.2.1]
        · have hjob : List.countP evIsJob
              ((page_jobs.filter (keepJob req reqTags)).map
                (fun j => Event.job src page (compute_job_key src j) j)) =
              (page_jobs.filter (keepJob req reqTags)).length := by
            rw [List.countP_map]
            simp [evIsJob, Function.comp]
          rw [h.2.2]
          simp [List.countP_append, List.countP_cons, evIsJob, hjob]
          omega

/-- Source loop: when every requested source is a known key, it raises
nothing, emits no `start`/`complete` events of its own, and its outgoing
job total is the incoming one plus its `job`-event count. -/
theorem sourcesGo_counts (fetch : PyStr → Nat → Except PyStr (List JobPosting))
    (req : StreamReq) (reqTags : List PyStr) :
    ∀ (srcs : List PyStr) (tj tp : Nat),
      (∀ s ∈ srcs, s ∈ SOURCE_MAP_KEYS) →
      ((sourcesGo fetch req reqTags srcs tj tp).1.countP evIsStart = 0) ∧
      ((sourcesGo fetch req reqTags srcs tj tp).1.countP evIsComplete = 0) ∧
      ((sourcesGo fetch req reqTags srcs tj tp).2.2.2 = none) ∧
      ((sourcesGo fetch req reqTags srcs tj tp).2.1 =
        tj + (sourcesGo fetch req reqTags srcs tj tp).1.countP evIsJob) := by
  intro srcs
  induction srcs with
  | nil => intro tj tp _; simp [sourcesGo]
  | cons src rest ih =>
    intro tj tp h
    have hsrc : src ∈ SOURCE_MAP_KEYS := h src (List.mem_cons_self _ _)
    have hrest : ∀ s ∈ rest, s ∈ SOURCE_MAP_KEYS :=
      fun s hs => h s (List.mem_cons_of_mem _ hs)
    have hp := pagesGo_counts fetch req reqTags src req.max_pages 1
      { total_jobs := tj, total_pages := tp }
    have hr := ih
      (pagesGo fetch req reqTags src 1 req.max_pages
        { total_jobs := tj, total_pages := tp }).2.total_jobs
      (pagesGo fetch req reqTags src 1 req.max_pages
        { total_jobs := tj, total_pages := tp }).2.total_pages
      hrest
    simp only [sourcesGo, if_pos hsrc]
    refine ⟨?_, ?_, ?_, ?_⟩
    · simp [List.countP_append, List.countP_cons, evIsStart, hp.1, hr.1]
    · simp [List.countP_append, List.countP_cons, evIsComplete, hp.2.1, hr.2.1]
    · exact hr.2.2.1
    · simp only [List.countP_append, List.countP_cons, evIsStart, evIsComplete,
        evIsJob]
      rw [hr.2.2.2, hp.2.2]
      simp
      omega

/-- C2 (amended): when every requested source (lower-cased, stripped,
blank entries dropped) is a key of `SOURCE_MAP`, the emitted event
sequence has exactly one `start` and exactly one `complete` event, the
generator raises nothing, and every `complete` event's `total_jobs` field
equals the number of `job` events emitted.  (Without the hypothesis the
claim fails: an unknown source key makes `_get_instance` raise an uncaught
`ValueError` after `source_start`, so no `complete` is ever yielded — see
the counterexample.) -/
theorem c2_stream_start_complete (req : StreamReq)
    (fetch : PyStr → Nat → Except PyStr (List JobPosting))
    (h : ∀ s ∈ requestedSources req.sources, s ∈ SOURCE_MAP_KEYS) :
    ((search_jobs_stream req fetch).1.countP evIsStart = 1) ∧
    ((search_jobs_stream req fetch).1.countP evIsComplete = 1) ∧
    ((search_jobs_stream req fetch).2 = none) ∧
    (∀ tj ns np, Event.complete tj ns np ∈ (search_jobs_stream req fetch).1 →
      tj = (search_jobs_stream req fetch).1.countP evIsJob) := by
  obtain ⟨h1, h2, h3, h4⟩ := sourcesGo_counts fetch req (normalize_tags req.tags)
    (requestedSources req.sources) 0 0 h
  simp only [search_jobs_stream]
  rw [h3]
  refine ⟨?_, ?_, rfl, ?_⟩
  · simp [List.countP_cons, List.countP_append, evIsStart, h1]
  · simp [List.countP_cons, List.countP_append, evIsComplete, h2]
  · intro tj ns np hmem
    simp only [List.mem_cons, List.mem_append, List.mem_singleton,
      List.mem_nil_iff, or_false, or_assoc] at hmem
    rcases hmem with hmem | hmem | hmem
    · cases hmem
    · exact absurd (List.countP_eq_zero.mp h2 _ hmem) (by simp [evIsComplete])
    · injection hmem with htj hns hnp
      subst htj
      rw [h4]
      simp [List.countP_cons, List.countP_append, evIsJob]

/-- C2 witness: a run over the known source `ycombinator` with a fetcher
returning no jobs. -/
theorem c2_stream_start_complete_witness :
    ((search_jobs_stream
        { sources := ["ycombinator".data], location := [], remote_only := false }
        (fun _ _ => Except.ok [])).1.countP evIsStart = 1) ∧
    ((search_jobs_stream
        { sources := ["ycombinator".data], location := [], remote_only := false }
        (fun _ _ => Except.ok [])).1.countP evIsComplete = 1) ∧
    ((search_jobs_stream
        { sources := ["ycombinator".data], location := [], remote_only := false }
        (fun _ _ => Except.ok [])).2 = none) ∧
    (∀ tj ns np, Event.complete tj ns np ∈
        (search_jobs_stream
          { sources := ["ycombinator".data], location := [], remote_only := false }
          (fun _ _ => Except.ok [])).1 →
      tj = (search_jobs_stream
          { sources := ["ycombinator".data], location := [], remote_only := false }
          (fun _ _ => Except.ok [])).1.countP evIsJob) :=
  c2_stream_start_complete _ _ (by decide)

/-- C2 counterexample: with `sources = ["bogus"]` the stream ends in the
uncaught `ValueError` from `_get_instance` and emits no `complete` event
at all, so "exactly one COMPLETE event ... for every invocation" fails. -/
theorem c2_stream_counterexample :
    ((search_jobs_stream
        { sources := ["bogus".data], location := [], remote_only := false }
        (fun _ _ => Except.ok [])).1.countP evIsComplete = 0) ∧
    (search_jobs_stream
        { sources := ["bogus".data], location := [], remote_only := false }
        (fun _ _ => Except.ok [])).2 =
      some ("Unknown source: bogus".data) := by decide

/-- Every `job` event emitted by the page loop carries a page number at
least the loop's starting page. -/
theorem pagesGo_job_page_ge (fetch : PyStr → Nat → Except PyStr (List JobPosting))
    (req : StreamReq) (reqTags : List PyStr) (src : PyStr) :
    ∀ (remaining page : Nat) (acc : PageAcc) (s : PyStr) (q : Nat)
      (k : PyStr) (j : JobPosting),
      Event.job s q k j ∈ (pagesGo fetch req reqTags src page remaining acc).1 →
      page ≤ q := by
  intro remaining
  induction remaining with
  | zero => intro page acc s q k j hm; simp [pagesGo] at hm
  | succ rem ih =>
    intro page acc s q k j hm
    cases hf : fetch src page with
    | error msg =>
      simp only [pagesGo, hf, List.mem_cons] at hm
      rcases hm with hm | hm | hm | hm
      · cases hm
      · cases hm
      · cases hm
      · exact Nat.le_of_succ_le (ih (page + 1) _ s q k j hm)
    | ok page_jobs =>
      simp only [pagesGo, hf] at hm
      by_cases hcnt : (page_jobs.filter (keepJob req reqTags)).length = 0
      · rw [if_pos hcnt] at hm
        simp only [List.mem_cons, List.mem_append, List.mem_singleton,
          List.mem_map, List.mem_nil_iff, or_false, or_assoc] at hm
        rcases hm with hm | hm | hm
        · cases hm
        · obtain ⟨x, _, hx⟩ := hm
          injection hx with h1 h2 h3 h4
          omega
        · cases hm
      · rw [if_neg hcnt] at hm
        simp only [List.mem_cons, List.mem_append, List.mem_singleton,
          List.mem_map, List.mem_nil_iff, or_false, or_assoc] at hm
        rcases hm with hm | hm | hm | hm
        · cases hm
        · obtain ⟨x, _, hx⟩ := hm
          injection hx with h1 h2 h3 h4
          omega
        · cases hm
        · exact Nat.le_of_succ_le (ih (page + 1) _ s q k j hm)

/-- A page loop with fuel left begins by announcing its starting page. -/
theorem pagesGo_page_start_mem (fetch : PyStr → Nat → Except PyStr (List JobPosting))
    (req : StreamReq) (reqTags : List PyStr) (src : PyStr)
    (page rem : Nat) (acc : PageAcc) :
    Event.page_start src page ∈ (pagesGo fetch req reqTags src page (rem + 1) acc).1 := by
  cases hf : fetch src page with
  | error msg => simp [pagesGo, hf]
  | ok page_jobs =>
    simp only [pagesGo, hf]
    by_cases hcnt : (page_jobs.filter (keepJob req reqTags)).length = 0
    · rw [if_pos hcnt]; exact List.mem_cons_self _ _
    · rw [if_neg hcnt]; exact List.mem_cons_self _ _

/-- C9 (amended): when the fetch for a page raises, the page loop emits an
`error` event at that page boundary, still emits that page's
`page_complete` with count 0 (the `error` replaces only the page's `job`
events, not its `page_complete`), emits no `job` event for that page, and
continues with the next page when fuel remains.  The claim's "in place of
that page's PAGE_COMPLETE" is wrong — see the counterexample. -/
theorem c9_error_page_events (fetch : PyStr → Nat → Except PyStr (List JobPosting))
    (req : StreamReq) (reqTags : List PyStr) (src : PyStr)
    (page remaining : Nat) (acc : PageAcc) (msg : PyStr)
    (herr : fetch src page = Except.error msg) (hrem : 0 < remaining) :
    Event.error msg src page ∈
      (pagesGo fetch req reqTags src page (remaining + 1) acc).1 ∧
    Event.page_complete src page 0 ∈
      (pagesGo fetch req reqTags src page (remaining + 1) acc).1 ∧
    (∀ k j, Event.job src page k j ∉
      (pagesGo fetch req reqTags src page (remaining + 1) acc).1) ∧
    Event.page_start src (page + 1) ∈
      (pagesGo fetch req reqTags src page (remaining + 1) acc).1 := by
  refine ⟨?_, ?_, ?_, ?_⟩
  · simp [pagesGo, herr]
  · simp [pagesGo, herr]
  · intro k j hm
    simp only [pagesGo, herr, List.mem_cons] at hm
    rcases hm with hm | hm | hm | hm
    · cases hm
    · cases hm
    · cases hm
    · have := pagesGo_job_page_ge fetch req reqTags src remaining (page + 1) _
        src page k j hm
      omega
  · cases remaining with
    | zero => omega
    | succ rem =>
      rw [pagesGo, herr]
      dsimp only
      exact List.mem_cons_of_mem _ (List.mem_cons_of_mem _
        (List.mem_cons_of_mem _
          (pagesGo_page_start_mem fetch req reqTags src (page + 1) rem _)))

/-- C9 witness: a fetcher that always fails, at page 1 with one page of
fuel remaining. -/
theorem c9_error_page_events_witness :
    Event.error "boom".data "s".data 1 ∈
      (pagesGo (fun _ _ => Except.error "boom".data)
        { sources := [], location := [], remote_only := false } [] "s".data
        1 (1 + 1) {}).1 ∧
    Event.page_complete "s".data 1 0 ∈
      (pagesGo (fun _ _ => Except.error "boom".data)
        { sources := [], location := [], remote_only := false } [] "s".data
        1 (1 + 1) {}).1 ∧
    (∀ k j, Event.job "s".data 1 k j ∉
      (pagesGo (fun _ _ => Except.error "boom".data)
        { sources := [], location := [], remote_only := false } [] "s".data
        1 (1 + 1) {}).1) ∧
    Event.page_start "s".data (1 + 1) ∈
      (pagesGo (fun _ _ => Except.error "boom".data)
        { sources := [], location := [], remote_only := false } [] "s".data
        1 (1 + 1) {}).1 :=
  c9_error_page_events _ _ _ _ _ _ _ _ rfl (by decide)

/-- C9 counterexample: on a failing page the stream emits the `error`
event AND that page's `page_complete` (count 0); the `page_complete` is
not replaced, contradicting "in place of that page's PAGE_COMPLETE and
JOB events". -/
theorem c9_error_page_counterexample :
    Event.error "boom".data "ycombinator".data 1 ∈
      (search_jobs_stream
        { sources := ["ycombinator".data], location := [], remote_only := false }
        (fun _ _ => Except.error "boom".data)).1 ∧
    Event.page_complete "ycombinator".data 1 0 ∈
      (search_jobs_stream
        { sources := ["ycombinator".data], location := [], remote_only := false }
        (fun _ _ => Except.error "boom".data)).1 := by decide

/-- A page with `.job-card` elements and none of the vendor-specific
signals: the claim's counterexample shows the class `.content` (a
Greenhouse "common container") plus a heading already outscores the hub
strategy, so the amended statement also excludes the vendor container
selectors. -/
theorem c7_hub_detection (url : PyStr) (d : Doc)
    (hcard : ¬ (Dom.selectIdx d [selCls "job-card".data]).isEmpty)
    (hycu : ¬ (Py.hasSub url "ycombinator.com/companies/".data ∧
      Py.hasSub url "/jobs/".data))
    (hych1 : Dom.selectOneIdx d
      [.simple { tag := some "h1".data,
                 classes := ["ycdc-section-title".data, "mb-2".data] }] = none)
    (hycprose : Dom.selectOneIdx d
      [.simple { tag := some "div".data,
                 classes := ["prose".data, "max-w-full".data] }] = none)
    (hashu : ¬ (Py.hasSub url "ashbyhq.com".data ∨ Py.hasSub url "/careers/".data ∨
      Py.hasSub (Py.pyLower ((Dom.titleString d).getD [])) "ashby".data))
    (hashc : Dom.selectOneIdx d
      [selCls "job-posting".data, selAttr "data-ashby-job-posting".data] = none)
    (hlevu : ¬ (Py.hasSub url "jobs.lever.co".data ∨ Py.hasSub url "lever.co".data))
    (hlevp : Dom.selectOneIdx d [selCls "posting".data] = none)
    (hghu : ¬ (Py.hasSub url "greenhouse.io".data ∨
      Py.hasSub url "boards.greenhouse".data))
    (hghc : Dom.selectOneIdx d
      [selId "app".data, selCls "app".data, selCls "content".data,
       selCls "application".data, selCls "opening".data, selCls "job".data] = none) :
    (ycDetect url d).score < (hubDetect url d).score ∧
    (ashbyDetect url d).score < (hubDetect url d).score ∧
    (leverDetect url d).score < (hubDetect url d).score ∧
    (greenhouseDetect url d).score < (hubDetect url d).score ∧
    (genericDetect url d).score < (hubDetect url d).score ∧
    "hub_or_form_detected".data ∈ (hubParse url d).warnings := by
  have hc : jobCardSelectors.any
      (fun s => ¬ (Dom.selectIdx d s).isEmpty) = true := by
    apply List.any_eq_true.mpr
    exact ⟨[selCls "job-card".data], by simp [jobCardSelectors],
      by simpa using hcard⟩
  have hhub : 30 ≤ (hubDetect url d).score := by
    simp only [hubDetect, hc]
    split_ifs <;> omega
  have hyc : (ycDetect url d).score = 0 := by
    simp [ycDetect, hycu, hych1, hycprose]
  have hashby : (ashbyDetect url d).score ≤ 20 := by
    simp only [ashbyDetect, hashc]
    simp [hashu]
    split_ifs <;> omega
  have hlev : (leverDetect url d).score ≤ 20 := by
    simp only [leverDetect, hlevp]
    simp [hlevu]
    split_ifs <;> omega
  have hgh : (greenhouseDetect url d).score ≤ 10 := by
    simp only [greenhouseDetect, hghc]
    simp [hghu]
    split_ifs <;> omega
  have hgen : (genericDetect url d).score ≤ 10 := by
    simp only [genericDetect]
    split_ifs <;> omega
  refine ⟨by omega, by omega, by omega, by omega, by omega, ?_⟩
  simp [hubParse]

/-- A page with three `.job-card` elements, a heading, and a generic
`.content` wrapper — no `.job-posting`, `[data-ashby-job-posting]` or
`.posting` vendor container anywhere. -/
def hubCounterDoc : Doc :=
  [.elem "html".data []
    [.elem "body".data []
      [.elem "div".data [("class".data, "content".data)]
        [.elem "h1".data [] [.text "Jobs".data]],
       .elem "div".data [("class".data, "job-card".data)] [],
       .elem "div".data [("class".data, "job-card".data)] [],
       .elem "div".data [("class".data, "job-card".data)] []]]]

/-- A bare job-card listing: three `.job-card` elements and nothing
else. -/
def hubOnlyCardsDoc : Doc :=
  [.elem "html".data []
    [.elem "body".data []
      [.elem "div".data [("class".data, "job-card".data)] [],
       .elem "div".data [("class".data, "job-card".data)] [],
       .elem "div".data [("class".data, "job-card".data)] []]]]

/-- C7 counterexample: `hubCounterDoc` has three `.job-card` elements and
no vendor job-posting container (no `.job-posting`,
`[data-ashby-job-posting]` or `.posting` match), yet the Greenhouse
strategy's detection score (40: `.content` container + heading) beats the
hub/form strategy's (30), refuting "scores strictly higher than every
single-posting strategy". -/
theorem c7_hub_detection_counterexample :
    (Dom.selectIdx hubCounterDoc [selCls "job-card".data]).length = 3 ∧
    Dom.selectOneIdx hubCounterDoc
      [selCls "job-posting".data, selAttr "data-ashby-job-posting".data] = none ∧
    Dom.selectOneIdx hubCounterDoc [selCls "posting".data] = none ∧
    (hubDetect [] hubCounterDoc).score = 30 ∧
    (greenhouseDetect [] hubCounterDoc).score = 40 := by decide

/-- C7 witness: the amended theorem applied to the bare card listing with
an empty URL. -/
theorem c7_hub_detection_witness :
    (ycDetect [] hubOnlyCardsDoc).score < (hubDetect [] hubOnlyCardsDoc).score ∧
    (ashbyDetect [] hubOnlyCardsDoc).score < (hubDetect [] hubOnlyCardsDoc).score ∧
    (leverDetect [] hubOnlyCardsDoc).score < (hubDetect [] hubOnlyCardsDoc).score ∧
    (greenhouseDetect [] hubOnlyCardsDoc).score <
      (hubDetect [] hubOnlyCardsDoc).score ∧
    (genericDetect [] hubOnlyCardsDoc).score < (hubDetect [] hubOnlyCardsDoc).score ∧
    "hub_or_form_detected".data ∈ (hubParse [] hubOnlyCardsDoc).warnings :=
  c7_hub_detection [] hubOnlyCardsDoc (by decide) (by decide) (by decide)
    (by decide) (by decide) (by decide) (by decide) (by decide) (by decide)
    (by decide)

/-! ### C4: canonicalization idempotence and tracking-parameter removal -/

/-- **C4** (amended).  `_canonical_url` is idempotent on every URL whose
stripped form parses successfully (`urlparse` raises only for unbalanced
netloc brackets, which sends the input to the regex fallback instead),
whose parse avoids the scheme-reabsorption corner case (an empty netloc
together with a path starting in `//`), and whose canonical output is
already whitespace-stripped.  Moreover, every reparse of that output
carries exactly the non-tracking query parameters of the input: the keys
`utm_*`, `gh_src`, `ref`, `source` and `lever-source` are gone, and every
surviving parameter has a non-tracking key.  The original claim's
unconditional idempotence and verbatim parameter preservation fail: see
the counterexample (the fallback path keeps `utm_` parameters not
preceded by `[?#]`, values are re-encoded — `%20` becomes `+` — and
blank-valued parameters are dropped by `parse_qsl`). -/
theorem c4_canonical_url_idempotent (u : PyStr) (pr : Py.UrlParts)
    (hne : ¬ u = [])
    (hp : Py.urlparseE (Py.pyStrip u) = Except.ok pr)
    (hnb : pr.netloc = [] → pr.path.take 2 ≠ ['/', '/'])
    (hst : Py.pyStrip (canonical_url (some u)) = canonical_url (some u)) :
    canonical_url (some (canonical_url (some u))) = canonical_url (some u) ∧
    (∀ pr2, Py.urlparseE (Py.pyStrip (canonical_url (some u))) =
        Except.ok pr2 →
      Py.parse_qsl pr2.query =
        (Py.parse_qsl pr.query).filter (fun kv => ¬ isTrackingKey kv.1) ∧
      ∀ kv ∈ Py.parse_qsl pr2.query, isTrackingKey kv.1 = false) := by
  have hout : canonical_url (some u) = Py.urlunsplit (Py.pyLower pr.scheme)
      (Py.pyLower pr.netloc) pr.path
      (Py.urlencode ((Py.parse_qsl pr.query).filter
        (fun kv => ¬ isTrackingKey kv.1))) [] := by
    simp only [canonical_url]
    rw [if_neg hne, hp]
  set kept := (Py.parse_qsl pr.query).filter (fun kv => ¬ isTrackingKey kv.1)
    with hkept
  set Q := Py.urlencode kept with hQdef
  set out := canonical_url (some u) with hhout
  have hQc : ∀ c ∈ Q, c ≠ '#' ∧ c ≠ '?' ∧ Py.isSpaceChar c = false := by
    intro c hc
    rw [hQdef] at hc
    exact ⟨(Py.mem_urlencode_props hc).2.1, (Py.mem_urlencode_props hc).2.2.1,
      (Py.mem_urlencode_props hc).2.2.2⟩
  obtain ⟨P2, hok, hunspl⟩ := Py.canonical_idem_core Q hp hQc hnb
  have hkeptvals : ∀ kv ∈ kept, kv.2 ≠ [] := by
    intro kv hkv
    rw [hkept] at hkv
    exact Py.parse_qsl_value_ne_nil kv (List.mem_of_mem_filter hkv)
  have hqk : Py.parse_qsl Q = kept := by
    rw [hQdef]
    exact Py.parse_qsl_urlencode hkeptvals
  have hfix : kept.filter (fun kv => ¬ isTrackingKey kv.1) = kept := by
    apply List.filter_eq_self.mpr
    intro a ha
    rw [hkept] at ha
    have h2 := List.of_mem_filter ha
    exact h2
  constructor
  · by_cases houtnil : out = []
    · rw [houtnil]
      rfl
    · have hred : canonical_url (some out) =
          Py.urlunsplit (Py.pyLower (Py.pyLower pr.scheme))
            (Py.pyLower (Py.pyLower pr.netloc)) P2
            (Py.urlencode ((Py.parse_qsl Q).filter
              (fun kv => ¬ isTrackingKey kv.1))) [] := by
        simp only [canonical_url]
        rw [if_neg houtnil, hst, hout, hok]
      rw [hqk, hfix, ← hQdef, Py.pyLower_idem, Py.pyLower_idem] at hred
      rw [hred, hunspl, hout]
  · intro pr2 hp2
    rw [hst, hout, hok] at hp2
    injection hp2 with hp2
    subst hp2
    dsimp only
    refine ⟨hqk, ?_⟩
    rw [hqk]
    intro kv hkv
    rw [hkept] at hkv
    have h := List.of_mem_filter hkv
    simpa using h

/-- Witness for C4: on `"http://Ex.com/a?ref=1&id=2"` the hypotheses hold
and canonicalization is idempotent, dropping `ref=1` and keeping `id=2`. -/
theorem c4_canonical_url_idempotent_witness :
    canonical_url (some (canonical_url
        (some "http://Ex.com/a?ref=1&id=2".data))) =
      canonical_url (some "http://Ex.com/a?ref=1&id=2".data) ∧
    (∀ pr2, Py.urlparseE (Py.pyStrip (canonical_url
        (some "http://Ex.com/a?ref=1&id=2".data))) = Except.ok pr2 →
      Py.parse_qsl pr2.query =
        (Py.parse_qsl "ref=1&id=2".data).filter
          (fun kv => ¬ isTrackingKey kv.1) ∧
      ∀ kv ∈ Py.parse_qsl pr2.query, isTrackingKey kv.1 = false) :=
  c4_canonical_url_idempotent "http://Ex.com/a?ref=1&id=2".data
    ⟨"http".data, "Ex.com".data, "/a".data, [], "ref=1&id=2".data, []⟩
    (by decide) (by rfl) (by decide) (by decide)

/-- Counterexample to C4 as stated: canonicalization is not idempotent
(`"foo://///x"` maps to `"foo:///x"` and then to `"foo:/x"`); the regex
fallback (taken on unbalanced brackets) can leave a `utm_` tracking
parameter in the output; a kept parameter value is re-encoded rather than
preserved verbatim (`%20` becomes `+`); and a blank-valued non-tracking
parameter (`ashby_jid=`) is dropped entirely. -/
theorem c4_canonical_counterexample :
    canonical_url (some (canonical_url (some "foo://///x".data))) ≠
      canonical_url (some "foo://///x".data) ∧
    canonical_url (some "//[a#ref=1&utm_b=2".data) = "//[a?utm_b=2".data ∧
    canonical_url (some "https://x.io/p?q=a%20b".data) =
      "https://x.io/p?q=a+b".data ∧
    canonical_url (some "https://x.io/p?ashby_jid=".data) =
      "https://x.io/p".data := by
  decide
